import Mathlib

/-!
Verification of the JSON-schema walking engine and the OpenAI strict-mode
transform of `pydantic_ai.profiles` (`_json_schema.py` and `openai.py`).

The embedding is a shallow, functional translation of the Python source:

* JSON values are modelled by `JVal`; Python `dict[str, Any]` schema nodes
  become ordered association lists (`JObj`), with the Python dict operations
  (`d[k] = v` keeps the position of an existing key and appends new keys,
  `d.pop(k)` removes the key, insertion order is preserved) modelled by
  `setKey` / `popKey` / `getKey`.
* The in-place mutation of the Python code is rendered functionally: every
  node rewrite produces a new value, and the mutable walker state
  (`refs_stack`, `recursive_refs`, `is_strict_compatible`) is threaded
  explicitly.  The `refs_stack` push/pop discipline of `_handle` restores the
  stack exactly, so the stack is passed downward as a plain argument.
* Recursion of `_handle` is not structural (resolving a `$ref` jumps to an
  arbitrary `$defs` entry), so the walker takes an explicit fuel argument and
  returns `Except WalkErr`; `WalkErr.outOfFuel` plays no role in the source
  and termination is proved separately (sufficient fuel always exists).
* Python raising `UserError(f'Could not find $ref definition for {key}')`
  becomes `Except.error (.userError key)`; the constructor carries the
  missing definition name that the source interpolates into the message.
* Places where the Python code would raise `TypeError`/`AttributeError` on
  structurally ill-formed values (for example a non-mapping value under
  `properties`) are totalized to "leave the value unchanged"; every claim is
  checked on well-formed schema documents where the two coincide.
-/

/-- JSON value tree: the input and output type of the schema transformer.
Numbers are modelled as integers (the schemas the transformer handles carry
integer bounds); floating point is not needed by any verified claim. -/
inductive JVal : Type where
  | null : JVal
  | bool : Bool → JVal
  | num : Int → JVal
  | str : String → JVal
  | arr : List JVal → JVal
  | obj : List (String × JVal) → JVal

/-- a Python `dict[str, Any]`: an insertion-ordered association list. -/
abbrev JObj := List (String × JVal)

mutual

/-- decidable equality for `JVal` (structural, like Python `==` on parsed
JSON documents whose dicts have unique keys). -/
def decEqJ : (a b : JVal) → Decidable (a = b)
  | .null, .null => .isTrue rfl
  | .bool x, .bool y =>
    if h : x = y then .isTrue (by rw [h]) else .isFalse (fun e => h (by cases e; rfl))
  | .num x, .num y =>
    if h : x = y then .isTrue (by rw [h]) else .isFalse (fun e => h (by cases e; rfl))
  | .str x, .str y =>
    if h : x = y then .isTrue (by rw [h]) else .isFalse (fun e => h (by cases e; rfl))
  | .arr x, .arr y =>
    match decEqListJ x y with
    | .isTrue h => .isTrue (by rw [h])
    | .isFalse h => .isFalse (fun e => h (by cases e; rfl))
  | .obj x, .obj y =>
    match decEqObjJ x y with
    | .isTrue h => .isTrue (by rw [h])
    | .isFalse h => .isFalse (fun e => h (by cases e; rfl))
  | .null, .bool _ | .null, .num _ | .null, .str _ | .null, .arr _ | .null, .obj _
  | .bool _, .null | .bool _, .num _ | .bool _, .str _ | .bool _, .arr _ | .bool _, .obj _
  | .num _, .null | .num _, .bool _ | .num _, .str _ | .num _, .arr _ | .num _, .obj _
  | .str _, .null | .str _, .bool _ | .str _, .num _ | .str _, .arr _ | .str _, .obj _
  | .arr _, .null | .arr _, .bool _ | .arr _, .num _ | .arr _, .str _ | .arr _, .obj _
  | .obj _, .null | .obj _, .bool _ | .obj _, .num _ | .obj _, .str _ | .obj _, .arr _ =>
    .isFalse (fun h => nomatch h)

/-- decidable equality for lists of `JVal`. -/
def decEqListJ : (a b : List JVal) → Decidable (a = b)
  | [], [] => .isTrue rfl
  | [], _ :: _ => .isFalse (fun h => nomatch h)
  | _ :: _, [] => .isFalse (fun h => nomatch h)
  | a :: as, b :: bs =>
    match decEqJ a b, decEqListJ as bs with
    | .isTrue h1, .isTrue h2 => .isTrue (by rw [h1, h2])
    | .isFalse h1, _ => .isFalse (fun e => h1 (by cases e; rfl))
    | _, .isFalse h2 => .isFalse (fun e => h2 (by cases e; rfl))

/-- decidable equality for `JObj`. -/
def decEqObjJ : (a b : JObj) → Decidable (a = b)
  | [], [] => .isTrue rfl
  | [], _ :: _ => .isFalse (fun h => nomatch h)
  | _ :: _, [] => .isFalse (fun h => nomatch h)
  | (k, a) :: as, (l, b) :: bs =>
    if h0 : k = l then
      match decEqJ a b, decEqObjJ as bs with
      | .isTrue h1, .isTrue h2 => .isTrue (by rw [h0, h1, h2])
      | .isFalse h1, _ => .isFalse (fun e => h1 (by cases e; rfl))
      | _, .isFalse h2 => .isFalse (fun e => h2 (by cases e; rfl))
    else .isFalse (fun e => h0 (by cases e; rfl))

end

instance : DecidableEq JVal := decEqJ

/-- lookup of a key in a Python dict (`d.get(k)` distinguishing presence):
first matching entry. -/
def getKey : JObj → String → Option JVal
  | [], _ => none
  | (k, v) :: rest, key => if k = key then some v else getKey rest key

/-- Python `d.get(k)` as the source uses it for optional fields: a key that
is present with JSON `null` is indistinguishable from an absent key (both
give Python `None`). -/
def getPy (o : JObj) (key : String) : Option JVal :=
  match getKey o key with
  | some .null => none
  | r => r

/-- Python `k in d`. -/
def hasKey (o : JObj) (key : String) : Bool :=
  (getKey o key).isSome

/-- Python `d[k] = v`: replace the value at an existing key in place
(keeping its position), else append the new key at the end. -/
def setKey : JObj → String → JVal → JObj
  | [], key, v => [(key, v)]
  | (k, w) :: rest, key, v =>
    if k = key then (key, v) :: rest else (k, w) :: setKey rest key v

/-- Python `d.pop(k, None)` / `del d[k]`: drop the entry, keeping the order
of the remaining keys.  (Python dict keys are unique; on association lists
every occurrence is erased, which agrees with the source on every list that
represents a dict.) -/
def popKey : JObj → String → JObj
  | [], _ => []
  | (k, w) :: rest, key => if k = key then popKey rest key else (k, w) :: popKey rest key

/-- Python `list(d.keys())`. -/
def keysOf (o : JObj) : List String := o.map Prod.fst

/-- Python `d.update(e)`: assign every entry of `e` into `d` in order. -/
def updAll (o : JObj) (e : JObj) : JObj :=
  e.foldl (fun acc kv => setKey acc kv.1 kv.2) o

/-- Python truthiness of a JSON value (`if x:`). -/
def pyTruthy : JVal → Bool
  | .null => false
  | .bool b => b
  | .num n => n != 0
  | .str s => s ≠ ""
  | .arr l => !l.isEmpty
  | .obj l => !l.isEmpty

/-- equality with the literal `{'type': 'null'}` (Python `==` against that
one-key dict). -/
def isNullSchema : JVal → Bool
  | .obj [(k, .str s)] => k = "type" && s = "null"
  | _ => false

/-- embedding of `_fast_defs_ref_strip`: strip a leading `#/$defs/`
(character-list based so that concrete walks evaluate definitionally). -/
def stripDefsRef (ref : String) : String :=
  let p := "#/$defs/"
  if p.data.isPrefixOf ref.data then String.mk (ref.data.drop p.data.length) else ref

mutual

/-- size of a JSON tree (used for fuel bounds). -/
def sz : JVal → Nat
  | .arr l => 1 + szList l
  | .obj l => 1 + szObj l
  | _ => 1

/-- summed size of a list of JSON trees. -/
def szList : List JVal → Nat
  | [] => 0
  | v :: vs => sz v + szList vs

/-- summed size of the values of an association list. -/
def szObj : JObj → Nat
  | [] => 0
  | (_, v) :: vs => sz v + szObj vs

end

mutual

/-- rendering of a JSON value by Python `str()` (used by the transform when
it interpolates a removed keyword's value into `description`). -/
def pyStr : JVal → String
  | .null => "None"
  | .bool b => if b then "True" else "False"
  | .num n => toString n
  | .str s => s
  | .arr l => "[" ++ pyReprList l ++ "]"
  | .obj l => "\x7b" ++ pyReprObj l ++ "\x7d"

/-- rendering of a JSON value by Python `repr()` (strings get quoted). -/
def pyRepr : JVal → String
  | .str s => (Char.ofNat 39).toString ++ s ++ (Char.ofNat 39).toString
  | v => pyStr v

/-- comma-separated `repr` of list elements. -/
def pyReprList : List JVal → String
  | [] => ""
  | [v] => pyRepr v
  | v :: vs => pyRepr v ++ ", " ++ pyReprList vs

/-- comma-separated `repr` of dict entries. -/
def pyReprObj : JObj → String
  | [] => ""
  | [(k, v)] => (Char.ofNat 39).toString ++ k ++ (Char.ofNat 39).toString ++ ": " ++ pyRepr v
  | (k, v) :: vs =>
    (Char.ofNat 39).toString ++ k ++ (Char.ofNat 39).toString ++ ": " ++ pyRepr v
      ++ ", " ++ pyReprObj vs

end

/-- error surface of the walk: `userError key` embeds the source raising
`UserError(f'Could not find $ref definition for {key}')` (the constructor
carries the missing definition name that the message interpolates);
`outOfFuel` is an artifact of the fuel-based embedding of the non-structural
recursion and never occurs for sufficient fuel. -/
inductive WalkErr : Type where
  | userError (key : String)
  | outOfFuel
deriving DecidableEq

/-- reduction of a bind on a successful `Except` (do-notation helper). -/
@[simp] theorem bindE_ok {α β : Type} (a : α) (f : α → Except WalkErr β) :
    (Except.ok a >>= f) = f a := rfl

/-- reduction of a bind on a failed `Except` (do-notation helper). -/
@[simp] theorem bindE_err {α β : Type} (e : WalkErr) (f : α → Except WalkErr β) :
    ((Except.error e : Except WalkErr α) >>= f) = Except.error e := rfl

/-- reduction of a map on a successful `Except`. -/
@[simp] theorem mapE_ok {α β : Type} (a : α) (f : α → β) :
    (Except.ok a : Except WalkErr α).map f = Except.ok (f a) := rfl

/-- reduction of a map on a failed `Except`. -/
@[simp] theorem mapE_err {α β : Type} (e : WalkErr) (f : α → β) :
    (Except.error e : Except WalkErr α).map f = Except.error e := rfl

/-- mutable walker state threaded through the traversal:
`recursive_refs` (modelled as an insertion-ordered duplicate-free list,
standing in for the Python set) and the transform accumulator
`is_strict_compatible`. -/
structure St where
  recRefs : List String
  compat : Bool
deriving DecidableEq

/-- state at the start of a walk: no recursive refs seen,
`is_strict_compatible = True`. -/
def St.init : St := ⟨[], true⟩

/-- Python `self.recursive_refs.add(key)`. -/
def addRecRef (st : St) (k : String) : St :=
  if k ∈ st.recRefs then st else { st with recRefs := st.recRefs ++ [k] }

/-- per-walk configuration: the `$defs` view, the two option flags and the
pluggable `transform` callback (the abstract method of the source). -/
structure Ctx where
  defs : JObj
  prefer : Bool
  simplify : Bool
  tf : St → JObj → JObj × St

/-- the `$ref` the resolution loop would follow from this node:
`ref = schema.get('$ref'); if not ref: break` (falsy refs stop the loop; a
truthy non-string would make the source raise inside the strip helper and
is totalized to "stop"). -/
def refToFollow : JVal → Option String
  | .obj s =>
    match getKey s "$ref" with
    | some (.str r) => if r = "" then none else some r
    | _ => none
  | _ => none

/-- embedding of the `$ref`-resolution loop at the top of
`JsonSchemaTransformer._handle`: repeatedly replace a bare `$ref` node by
the referenced definition, pushing each definition name onto the reference
stack; a name already on the stack is recorded in `recursive_refs` and the
`$ref` is left in place; a definition that is absent (or JSON `null`, which
Python's `.get` also reports as `None`) raises the schema-reference error.
The caller keeps its own, shorter stack, which models the source popping
`nested_refs` entries at the end of `_handle`. -/
def resolveRefs (defs : JObj) : Nat → List String → St → JVal →
    Except WalkErr (JVal × List String × St)
  | 0, _, _, _ => .error .outOfFuel
  | fuel+1, stack, st, v =>
    match refToFollow v with
    | none => .ok (v, stack, st)
    | some r =>
      let key := stripDefsRef r
      if key ∈ stack then .ok (v, stack, addRecRef st key)
      else
        match getKey defs key with
        | none => .error (.userError key)
        | some .null => .error (.userError key)
        | some d => resolveRefs defs fuel (stack ++ [key]) st d

/-- embedding of `JsonSchemaTransformer._simplify_nullable_union`: a
two-member union containing the literal null schema collapses to a deep
copy of the non-null member marked `nullable: true`; when the non-null
member is falsy (or both members are the null schema) the first member is
returned alone.  A truthy non-mapping member would make the source raise on
the `new_schema['nullable']` assignment and is totalized to "keep it". -/
def simplifyNullableUnion (cases : List JVal) : List JVal :=
  match cases with
  | [a, b] =>
    if isNullSchema a || isNullSchema b then
      let nonNull : Option JVal :=
        if !isNullSchema a then some a else if !isNullSchema b then some b else none
      match nonNull with
      | some nn =>
        if pyTruthy nn then
          match nn with
          | .obj s => [.obj (setKey s "nullable" (.bool true))]
          | other => [other]
        else [a]
      | none => [a]
    else cases
  | other => other

/-- application of the pluggable `transform` hook: the source calls it on
every handled node, which is always a mapping on inputs it accepts;
non-mapping values are left unchanged. -/
def applyTf (tf : St → JObj → JObj × St) (st : St) (v : JVal) : JVal × St :=
  match v with
  | .obj s => let r := tf st s; (.obj r.1, r.2)
  | other => (other, st)

/-- task of one internal traversal step: a node to `_handle`, a node plus a
union kind for `_handle_union`, a member list (the list comprehensions), or
the values of a mapping (the dict comprehensions). -/
inductive HTask : Type where
  | one : JVal → HTask
  | uni : JVal → String → HTask
  | seq : List JVal → HTask
  | vals : JObj → HTask

/-- result of one internal traversal step (same kind as the task). -/
inductive HRes : Type where
  | one : JVal → HRes
  | seq : List JVal → HRes
  | vals : JObj → HRes

/-- single-value view of a step result (the other kinds never occur for a
`one`/`uni` task; the fallback keeps the definition total). -/
def HRes.getOne : HRes → JVal
  | .one v => v
  | .seq l => .arr l
  | .vals o => .obj o

/-- list view of a step result. -/
def HRes.getSeq : HRes → List JVal
  | .seq l => l
  | _ => []

/-- mapping view of a step result. -/
def HRes.getVals : HRes → JObj
  | .vals o => o
  | _ => []

/-- tail of `JsonSchemaTransformer._handle_union` after the members have
been handled: optional nullable-simplification, then either collapse a
singleton member list or store the rewritten members back on the wrapper
node. -/
def uniFinish (cx : Ctx) (s : JObj) (kind : String) (hs0 : List JVal) (st : St) :
    Except WalkErr (HRes × St) :=
  match (if cx.simplify then simplifyNullableUnion hs0 else hs0) with
  | [u] => .ok (.one u, st)
  | hs => .ok (.one (.obj (setKey s kind (.arr hs))), st)

/-- embedding of the recursive core of `JsonSchemaTransformer`: `_handle`
(task `one`), `_handle_union` for one union kind (task `uni`), and the
member-list / mapping-value comprehensions of `_handle_object`,
`_handle_array` and `_handle_union` (tasks `seq` / `vals`).  `_handle`
resolves refs when `prefer_inlined_defs` is set, recurses by the node's
declared `type` (`object` / `array` / absent-or-null ⇒ union handling for
`anyOf` then `oneOf` / anything else ⇒ leaf) with `_handle_object` and
`_handle_array` inlined, then applies the pluggable transform.  Fuel
decreases at every internal call (making the recursion structural);
`outOfFuel` never occurs for sufficient fuel. -/
def handleCore (cx : Ctx) : Nat → List String → St → HTask →
    Except WalkErr (HRes × St)
  | 0, _, _, _ => .error .outOfFuel
  | fuel+1, stack, st, .seq ms =>
    match ms with
    | [] => .ok (.seq [], st)
    | v :: vs => do
      let (rv, st2) ← handleCore cx fuel stack st (.one v)
      let (rvs, st3) ← handleCore cx fuel stack st2 (.seq vs)
      .ok (.seq (rv.getOne :: rvs.getSeq), st3)
  | fuel+1, stack, st, .vals kvs =>
    match kvs with
    | [] => .ok (.vals [], st)
    | (k, v) :: rest => do
      let (rv, st2) ← handleCore cx fuel stack st (.one v)
      let (rrest, st3) ← handleCore cx fuel stack st2 (.vals rest)
      .ok (.vals ((k, rv.getOne) :: rrest.getVals), st3)
  | fuel+1, stack, st, .uni v kind =>
    match v with
    | .obj s =>
      match getKey s kind with
      | some (.arr ms) =>
        if ms.isEmpty then .ok (.one v, st)
        else do
          let (rhs, st2) ← handleCore cx fuel stack st (.seq ms)
          uniFinish cx s kind rhs.getSeq st2
      | _ => .ok (.one v, st)
    | _ => .ok (.one v, st)
  | fuel+1, stack, st, .one v => do
    let (v1, stack1, st1) ←
      (if cx.prefer then resolveRefs cx.defs (fuel+1) stack st v
       else .ok (v, stack, st) : Except WalkErr (JVal × List String × St))
    match v1 with
    | .obj s => do
      let t := getKey s "type"
      let (v2, st2) ←
        (if t = some (.str "object") then do
          let (s, st) ←
            (match getKey s "properties" with
            | some (.obj ps) =>
              if ps.isEmpty then .ok (s, st1)
              else do
                let (rps, st2) ← handleCore cx fuel stack1 st1 (.vals ps)
                .ok (setKey s "properties" (.obj rps.getVals), st2)
            | _ => .ok (s, st1) : Except WalkErr (JObj × St))
          let (s, st) ←
            (match getKey s "additionalProperties" with
            | none => .ok (s, st)
            | some .null => .ok (s, st)
            | some (.bool b) => .ok (setKey s "additionalProperties" (.bool b), st)
            | some ap => do
              let (rap, st2) ← handleCore cx fuel stack1 st (.one ap)
              .ok (setKey s "additionalProperties" rap.getOne, st2)
              : Except WalkErr (JObj × St))
          let (s, st) ←
            (match getKey s "patternProperties" with
            | none => .ok (s, st)
            | some .null => .ok (s, st)
            | some (.obj pps) => do
              let (rpps, st2) ← handleCore cx fuel stack1 st (.vals pps)
              .ok (setKey s "patternProperties" (.obj rpps.getVals), st2)
            | some _ => .ok (s, st) : Except WalkErr (JObj × St))
          .ok (JVal.obj s, st)
        else if t = some (.str "array") then do
          let (s, st) ←
            (match getKey s "prefixItems" with
            | some (.arr l) =>
              if l.isEmpty then .ok (s, st1)
              else do
                let (rl, st2) ← handleCore cx fuel stack1 st1 (.seq l)
                .ok (setKey s "prefixItems" (.arr rl.getSeq), st2)
            | _ => .ok (s, st1) : Except WalkErr (JObj × St))
          let (s, st) ←
            (match getKey s "items" with
            | some it =>
              if pyTruthy it then do
                let (rit, st2) ← handleCore cx fuel stack1 st (.one it)
                .ok (setKey s "items" rit.getOne, st2)
              else .ok (s, st)
            | none => .ok (s, st) : Except WalkErr (JObj × St))
          .ok (JVal.obj s, st)
        else if t = none ∨ t = some .null then do
          let (ru, st2) ← handleCore cx fuel stack1 st1 (.uni (.obj s) "anyOf")
          let (ru2, st3) ← handleCore cx fuel stack1 st2 (.uni ru.getOne "oneOf")
          .ok (ru2.getOne, st3)
        else .ok (JVal.obj s, st1) : Except WalkErr (JVal × St))
      .ok (.one (applyTf cx.tf st2 v2).1, (applyTf cx.tf st2 v2).2)
    | other => .ok (.one other, st1)

/-- embedding of `JsonSchemaTransformer._handle` (wrapper extracting the
single-node view of `handleCore`). -/
def handle (cx : Ctx) (fuel : Nat) (stack : List String) (st : St) (v : JVal) :
    Except WalkErr (JVal × St) :=
  (handleCore cx fuel stack st (.one v)).map (fun r => (r.1.getOne, r.2))

/-- sequential handling of the values of an association list (wrapper). -/
def handleVals (cx : Ctx) (fuel : Nat) (stack : List String) (st : St) (o : JObj) :
    Except WalkErr (JObj × St) :=
  (handleCore cx fuel stack st (.vals o)).map (fun r => (r.1.getVals, r.2))

/-- the `$defs` table view taken in `JsonSchemaTransformer.__init__`:
`self.schema.get('$defs', {})` (totalized to the empty table when the value
is not a mapping, where the source would raise later). -/
def defsOf (root : JObj) : JObj :=
  match getKey root "$defs" with
  | some (.obj d) => d
  | _ => []

/-- identity transform (`InlineDefsJsonSchemaTransformer.transform`). -/
def idTf : St → JObj → JObj × St := fun st s => (s, st)

/-- embedding of the `while root_key in defs: root_key = f'{root_key}_root'`
disambiguation loop of `JsonSchemaTransformer.walk`; the fuel passed by the
caller (one more than the number of keys) is always sufficient because the
candidate grows strictly at every step, so each key can collide at most
once. -/
def freshKey (ks : List String) : Nat → String → String
  | 0, k => k
  | fuel+1, k => if k ∈ ks then freshKey ks fuel (k ++ "_root") else k

/-- the `$defs` block of the recursive fallback of
`JsonSchemaTransformer.walk`: `{key: self.defs[key] for key in
self.recursive_refs}` (the insertion-ordered list stands in for the Python
set's iteration order; a missing entry, impossible on successful walks, is
totalized to `null`). -/
def walkRecDefs (cx : Ctx) (recRefs : List String) : JObj :=
  recRefs.map (fun k => (k, (getKey cx.defs k).getD .null))

/-- the synthetic root key of the recursive fallback: the stripped root
`$ref` target when the root carries a string `$ref` (used as-is, even when
it collides with a recursive definition's key), else the root's `title`
(else the literal `"root"`) with the fixed `"_root"` suffix appended while
it collides with a recursive definition's key. -/
def walkRootKey (root : JObj) (recDefs : JObj) : String :=
  match getPy root "$ref" with
  | some (.str r) => stripDefsRef r
  | _ =>
    let t :=
      match getPy root "title" with
      | some (.str t) => t
      | _ => "root"
    freshKey (keysOf recDefs) (recDefs.length + 1) t

/-- embedding of `JsonSchemaTransformer.walk`: separate `$defs` from the
root, handle the root, then either re-attach independently handled
definitions (non-inlined mode with a non-empty table), or - when inlining
was requested but recursion was detected - emit a `$defs` block holding the
recursive definitions (as stored in `self.defs`) plus the handled root
under a synthetic key, returned behind a `$ref`.  The iteration order of
the Python set `recursive_refs` is modelled as insertion order. -/
def walkFn (cx : Ctx) (fuel : Nat) (root : JObj) : Except WalkErr (JVal × St) := do
  let schema := popKey root "$defs"
  let (handled, st) ← handle cx fuel [] St.init (.obj schema)
  if !cx.prefer && !cx.defs.isEmpty then
    let (hd, st2) ← handleVals cx fuel [] st cx.defs
    match handled with
    | .obj h => .ok (.obj (setKey h "$defs" (.obj hd)), st2)
    | other => .ok (other, st2)
  else if !st.recRefs.isEmpty then
    let recDefs := walkRecDefs cx st.recRefs
    let rootKey := walkRootKey root recDefs
    .ok (.obj [("$defs", .obj (setKey recDefs rootKey handled)),
               ("$ref", .str ("#/$defs/" ++ rootKey))], st)
  else
    .ok (handled, st)

/-- embedding of `InlineDefsJsonSchemaTransformer(schema).walk()`:
`prefer_inlined_defs = True`, `simplify_nullable_unions = False`, identity
transform, `$defs` taken from the root schema. -/
def inlineDefsWalk (fuel : Nat) (root : JObj) : Except WalkErr (JVal × St) :=
  walkFn ⟨defsOf root, true, false, idTf⟩ fuel root

/-- generic walk with the identity transform and `simplify_nullable_unions`
set (the configuration the union-collapse claims quantify over). -/
def simplifyWalk (fuel : Nat) (root : JObj) : Except WalkErr (JVal × St) :=
  walkFn ⟨defsOf root, false, true, idTf⟩ fuel root

/-- embedding of `_STRICT_INCOMPATIBLE_KEYS` of `profiles/openai.py`. -/
def strictIncompatibleKeys : List String :=
  ["minLength", "maxLength", "pattern", "format", "minimum", "maximum",
   "multipleOf", "patternProperties", "unevaluatedProperties", "propertyNames",
   "minProperties", "maxProperties", "unevaluatedItems", "contains",
   "minContains", "maxContains", "minItems", "maxItems", "uniqueItems"]

/-- step 1 of `OpenAIJsonSchemaTransformer.transform` (lines 93-95):
unconditionally drop `title`, `$schema` and `discriminator`. -/
def tfDropKeys (s : JObj) : JObj :=
  popKey (popKey (popKey s "title") "$schema") "discriminator"

/-- step 3 of `OpenAIJsonSchemaTransformer.transform` (lines 104-110): a
`$ref` equal to the root's own `$ref` is rewritten to the literal `"#"`;
afterwards, a `$ref` node with sibling keys has its (possibly rewritten)
pointer wrapped alone into a single-member `anyOf`. -/
def tfRefStep (rootRef : Option JVal) (s : JObj) : JObj :=
  match getPy s "$ref" with
  | none => s
  | some r =>
    let s := if some r = rootRef then setKey s "$ref" (.str "#") else s
    if s.length > 1 then
      let rv := (getKey s "$ref").getD .null
      setKey (popKey s "$ref") "anyOf" (.arr [.obj [("$ref", rv)]])
    else s

/-- the Detect-mode object check of `OpenAIJsonSchemaTransformer.transform`
(lines 150-165): an object node is incompatible unless
`additionalProperties` is exactly `False`, `properties` and `required` are
present, and every property name appears in `required` (order and extra
`required` entries are not checked).  A non-mapping `properties` or
non-list `required` in the final membership loop would make the source
raise and is totalized to "compatible". -/
def detectObjectBad (s : JObj) : Bool :=
  !(getKey s "additionalProperties" == some (.bool false))
  || !hasKey s "properties" || !hasKey s "required"
  || (match getKey s "properties", getKey s "required" with
      | some (.obj ps), some (.arr req) =>
        !(keysOf ps).all (fun k => req.contains (.str k))
      | _, _ => false)

/-- the `notes` branch of step 4 of `OpenAIJsonSchemaTransformer.transform`
in Enforce mode (lines 119-134), run when at least one strict-incompatible
keyword is present: pop every present strict-incompatible keyword and
append `key=value` notes to `description`. -/
def tfNoteStep (s : JObj) : JObj :=
  let incompat := strictIncompatibleKeys.filter (hasKey s)
  let notes := incompat.map (fun k => k ++ "=" ++ pyStr ((getKey s k).getD .null))
  let notesStr := String.intercalate ", " notes
  let newDesc :=
    match getKey s "description" with
    | some d => if pyTruthy d then pyStr d ++ " (" ++ notesStr ++ ")" else notesStr
    | none => notesStr
  setKey (incompat.foldl popKey s) "description" (.str newDesc)

/-- step 5 of `OpenAIJsonSchemaTransformer.transform` in Enforce mode
(lines 136-139), run when `oneOf` is present: move the `oneOf` value to
`anyOf`. -/
def tfOneOfStep (s : JObj) : JObj :=
  setKey (popKey s "oneOf") "anyOf" ((getKey s "oneOf").getD .null)

/-- step 6 of `OpenAIJsonSchemaTransformer.transform` in Enforce mode
(lines 143-149): force `additionalProperties = False` and set `required` to
the full property-key list (creating empty `properties` when absent). -/
def objEnforce (s : JObj) : JObj :=
  let s := setKey s "additionalProperties" (.bool false)
  match getKey s "properties" with
  | some (.obj ps) => setKey s "required" (.arr ((keysOf ps).map .str))
  | some _ => s
  | none => setKey (setKey s "properties" (.obj [])) "required" (.arr [])

/-- the Enforce-mode (`strict = True`) instance of
`OpenAIJsonSchemaTransformer.transform` as a pure rewriting (Enforce mode
never touches the walker state): the six steps in source order, with the
node's `type` read before the `oneOf` move, as in the source. -/
def tfEnforceFn (rootRef : Option JVal) (s : JObj) : JObj :=
  let s := tfDropKeys s
  let s := if hasKey s "default" then popKey s "default" else s
  let s := tfRefStep rootRef s
  let s := if (strictIncompatibleKeys.filter (hasKey s)).isEmpty then s else tfNoteStep s
  let t := getKey s "type"
  let s := if hasKey s "oneOf" then tfOneOfStep s else s
  if t = some (.str "object") then objEnforce s else s

/-- embedding of `OpenAIJsonSchemaTransformer.transform` (lines 91-166),
parameterized by `self.strict` and `self.root_ref`:
1. drop `title`, `$schema`, `discriminator` (`tfDropKeys`);
2. `default`: pop it in Enforce mode, flag incompatibility in Detect mode;
3. root-self-reference rewrite and ref wrapping (`tfRefStep`);
4. strict-incompatible constraint keywords: pop them all and append notes to
   `description` in Enforce mode, flag incompatibility in Detect mode;
5. `oneOf`: converted to `anyOf` in Enforce mode, otherwise flagged;
6. object nodes: Enforce forces `additionalProperties = False` and
   `required = list(properties.keys())` (creating empty `properties` when
   absent); Detect checks the closed-object discipline. -/
def openaiTransform (strict : Option Bool) (rootRef : Option JVal) (st : St)
    (s : JObj) : JObj × St :=
  let s := tfDropKeys s
  let (s, st) :=
    if hasKey s "default" then
      match strict with
      | some true => (popKey s "default", st)
      | none => (s, { st with compat := false })
      | some false => (s, st)
    else (s, st)
  let s := tfRefStep rootRef s
  let (s, st) :=
    if (strictIncompatibleKeys.filter (hasKey s)).isEmpty then (s, st)
    else
      match strict with
      | some true => (tfNoteStep s, st)
      | none => (s, { st with compat := false })
      | some false => (s, st)
  let schemaType := getKey s "type"
  let (s, st) :=
    if hasKey s "oneOf" then
      match strict with
      | some true => (tfOneOfStep s, st)
      | _ => (s, { st with compat := false })
    else (s, st)
  let (s, st) :=
    if schemaType = some (.str "object") then
      match strict with
      | some true => (objEnforce s, st)
      | none =>
        if detectObjectBad s then (s, { st with compat := false }) else (s, st)
      | some false => (s, st)
    else (s, st)
  (s, st)

/-- the `root_key = re.sub(r'^#/\$defs/', '', self.root_ref)` step of
`OpenAIJsonSchemaTransformer.walk` (a non-string root `$ref` would make the
source raise in `re.sub` and is totalized to the empty key). -/
def rootKeyOf (rootRef : Option JVal) : String :=
  match rootRef with
  | some (.str r) => stripDefsRef r
  | _ => ""

/-- the `self.defs.get(root_key) or {}` step of the final
`result.update(...)` in `OpenAIJsonSchemaTransformer.walk` (an absent or
falsy entry gives the empty mapping; a non-mapping entry would make the
source raise in `dict.update` and is totalized to the empty mapping). -/
def updOf (hdefs : JObj) (rootKey : String) : JObj :=
  match getKey hdefs rootKey with
  | some (.obj d) => d
  | _ => []

/-- embedding of `OpenAIJsonSchemaTransformer(schema, strict=...).walk()`
(lines 76-89), including the superclass walk it calls
(`prefer_inlined_defs = False`, `simplify_nullable_unions = False`).  The
source mutates the `$defs` entries in place while handling them, so after
the walk `self.defs` holds the handled definitions; the final
`result.update(self.defs.get(root_key) or {})` is therefore modelled with
the handled definitions table. -/
def openaiWalk (strict : Option Bool) (fuel : Nat) (root : JObj) :
    Except WalkErr (JVal × St) := do
  let defs := defsOf root
  let rootRef := getPy root "$ref"
  let cx : Ctx := ⟨defs, false, false, openaiTransform strict rootRef⟩
  let schema := popKey root "$defs"
  let (handled, st) ← handle cx fuel [] St.init (.obj schema)
  let (result, st, hdefs) ←
    (if defs.isEmpty then
      .ok (handled, st, ([] : JObj))
    else do
      let (hd, st2) ← handleVals cx fuel [] st defs
      match handled with
      | .obj h => .ok (JVal.obj (setKey h "$defs" (.obj hd)), st2, hd)
      | other => .ok (other, st2, hd)
      : Except WalkErr (JVal × St × JObj))
  if rootRef = none then
    .ok (result, st)
  else
    let rootKey := rootKeyOf rootRef
    match result with
    | .obj res =>
      let res := popKey res "$ref"
      .ok (.obj (updAll res (updOf hdefs rootKey)), st)
    | other => .ok (other, st)

/-- the Enforce-mode OpenAI walk (`strict = True`). -/
def enforceWalk (fuel : Nat) (root : JObj) : Except WalkErr (JVal × St) :=
  openaiWalk (some true) fuel root

/-- the Detect-mode OpenAI walk (`strict = None`, i.e. unset). -/
def detectWalk (fuel : Nat) (root : JObj) : Except WalkErr (JVal × St) :=
  openaiWalk none fuel root

/-- the closed-object shape claim C1 asserts of object-typed output nodes:
`additionalProperties` is exactly `false` and `required` is exactly the
full list of `properties` keys in declared order.  A node whose
`properties` value is present but not a mapping is exempt (on such nodes
the Enforce rewrite sets no `required`; the source would crash on them in
Detect mode); an absent `properties` key fails the check (Enforce always
creates it on object-typed nodes). -/
def objShapeOk (s : JObj) : Bool :=
  getKey s "additionalProperties" == some (.bool false)
  && (match getKey s "properties" with
      | some (.obj ps) => getKey s "required" == some (.arr ((keysOf ps).map .str))
      | some _ => true
      | none => false)

/-- member-list check of an optional union value: a list value has every
member satisfy `f`; anything else carries no members to check. -/
def allArrOk (f : JVal → Bool) : Option JVal → Bool
  | some (.arr ms) => ms.all f
  | _ => true

/-- values check of an optional mapping value. -/
def allValsOk (f : String × JVal → Bool) : Option JVal → Bool
  | some (.obj ps) => ps.all f
  | _ => true

/-- check of an optional `items` value: only a truthy value is visited. -/
def itemOk (f : JVal → Bool) : Option JVal → Bool
  | some it => !pyTruthy it || f it
  | none => true

/-- membership check over the two union-member lists of a node (used by the
walked-tree invariants; non-list union values carry no members to check). -/
def uniMembersOk (f : JVal → Bool) (s : JObj) : Bool :=
  allArrOk f (getKey s "anyOf") && allArrOk f (getKey s "oneOf")

mutual

/-- a tree mentioning neither `$ref` nor `$defs` as a key anywhere (the
class of inputs the amended idempotence claim quantifies over). -/
def plainTree : JVal → Bool
  | .obj s => !hasKey s "$ref" && !hasKey s "$defs" && plainVals s
  | .arr l => plainList l
  | _ => true

/-- `plainTree` for every member of a list. -/
def plainList : List JVal → Bool
  | [] => true
  | v :: vs => plainTree v && plainList vs

/-- `plainTree` for every value of an association list. -/
def plainVals : JObj → Bool
  | [] => true
  | (_, v) :: rest => plainTree v && plainVals rest

end

/-- member check of an optional union value for the fixed-point invariant:
a list value must not be a singleton (which the walker would collapse) and
every member must satisfy `f`. -/
def uniEnfOk (f : JVal → Bool) : Option JVal → Bool
  | some (.arr ms) => decide (ms.length ≠ 1) && ms.all f
  | _ => true

/-- the node-local conditions under which the Enforce transform leaves a
mapping unchanged: none of the popped keys (`title`, `$schema`,
`discriminator`, `default`, the strict-incompatible keywords, `oneOf`) is
present, no `$ref` key (so the root-reference step does nothing), and an
object-typed node already has the enforced closed shape. -/
def tfFixed (s : JObj) : Bool :=
  !hasKey s "title" && !hasKey s "$schema" && !hasKey s "discriminator"
  && !hasKey s "default" && !hasKey s "$ref"
  && (strictIncompatibleKeys.filter (hasKey s)).isEmpty
  && !hasKey s "oneOf"
  && (!(getKey s "type" == some (.str "object")) || objShapeOk s)

/-- the Enforce fixed-point invariant at recursion depth `n` (fuel-indexed
like `vOkF`): the node is transform-fixed (`tfFixed`) and every child
position the walker visits satisfies the invariant recursively, with union
member lists additionally not singletons. -/
def enfOkF : Nat → JVal → Bool
  | 0, _ => false
  | n+1, .obj s =>
    tfFixed s
    && (if getKey s "type" = some (.str "object") then
          allValsOk (fun kv => enfOkF n kv.2) (getKey s "properties")
        else if getKey s "type" = some (.str "array") then
          allArrOk (enfOkF n) (getKey s "prefixItems") && itemOk (enfOkF n) (getKey s "items")
        else if getKey s "type" = none ∨ getKey s "type" = some .null then
          uniEnfOk (enfOkF n) (getKey s "anyOf") && uniEnfOk (enfOkF n) (getKey s "oneOf")
        else true)
  | _+1, _ => true

/-- the child-position part of `enfOkF` alone. -/
def preEnfF (n : Nat) (s : JObj) : Bool :=
  if getKey s "type" = some (.str "object") then
    allValsOk (fun kv => enfOkF n kv.2) (getKey s "properties")
  else if getKey s "type" = some (.str "array") then
    allArrOk (enfOkF n) (getKey s "prefixItems") && itemOk (enfOkF n) (getKey s "items")
  else if getKey s "type" = none ∨ getKey s "type" = some .null then
    uniEnfOk (enfOkF n) (getKey s "anyOf") && uniEnfOk (enfOkF n) (getKey s "oneOf")
  else true

/-- the fixed-point invariant of a tree, read at the tree's own size. -/
def enfOkAt (v : JVal) : Bool := enfOkF (sz v) v

/-- outcome of a union-handling step for the fixed-point invariant: like
`UniOut`, but replaced member lists are additionally known not to be
singletons (a singleton would have collapsed). -/
def UniEnfOut (n : Nat) (v : JVal) (kind : String) (w : JVal) : Prop :=
  enfOkF n w = true
  ∨ (∃ s hs, v = .obj s ∧ w = .obj (setKey s kind (.arr hs))
      ∧ hs.all (enfOkF n) = true ∧ hs.length ≠ 1)
  ∨ (w = v ∧ ∀ (s : JObj) (ms : List JVal), v = .obj s →
      getKey s kind = some (.arr ms) → ms = [])

/-- the per-task statement of the fixed-point invariant of Enforce-walk
outputs on `plainTree` inputs: results satisfy the invariant and stay
`plainTree`; handled mapping values also keep their keys. -/
def enfMot : HTask → HRes → Prop
  | .one v, r => plainTree v = true →
      (∃ n, enfOkF n r.getOne = true) ∧ plainTree r.getOne = true
  | .uni v kind, r => plainTree v = true →
      (∃ n, UniEnfOut n v kind r.getOne) ∧ plainTree r.getOne = true
  | .seq ms, r => plainList ms = true →
      (∃ n, r.getSeq.all (enfOkF n) = true) ∧ plainList r.getSeq = true
      ∧ r.getSeq.length = ms.length
  | .vals kvs, r => plainVals kvs = true →
      (∃ n, r.getVals.all (fun kv => enfOkF n kv.2) = true) ∧ plainVals r.getVals = true
      ∧ keysOf r.getVals = keysOf kvs

/-- the per-task statement of the Enforce walk acting as the identity on
trees satisfying the fixed-point invariant: results equal the inputs and
the state is untouched. -/
def enfIdMot : HTask → St → HRes → St → Prop
  | .one v, st, r, st2 => (∃ n, enfOkF n v = true) → r = .one v ∧ st2 = st
  | .uni v kind, st, r, st2 =>
      (∀ s : JObj, v = .obj s → ∃ n, uniEnfOk (enfOkF n) (getKey s kind) = true) →
      r = .one v ∧ st2 = st
  | .seq ms, st, r, st2 => (∃ n, ms.all (enfOkF n) = true) → r = .seq ms ∧ st2 = st
  | .vals kvs, st, r, st2 =>
      (∃ n, kvs.all (fun kv => enfOkF n kv.2) = true) → r = .vals kvs ∧ st2 = st

/-! The non-terminating inline-defs example (claim C2): the schema part of
the root is an `anyOf` wrapping a reference to definition `A`, whose body is
an object-typed node carrying the very same `anyOf` node under a raw
`oneOf`.  Handling the `anyOf` inlines `A` (pushing and then popping the
reference stack), the singleton collapses to the inlined body, and the
subsequent `oneOf` pass re-handles the body's member — the original `anyOf`
node — with the reference stack back to its old value: the recursion
re-enters `_handle` with identical arguments and state. -/

/-- the schema part of the diverging root: `{"anyOf": [{"$ref": "#/$defs/A"}]}`. -/
def divSchema : JObj := [("anyOf", .arr [.obj [("$ref", .str "#/$defs/A")]])]

/-- the definition body:
`{"type": "object", "oneOf": [{"anyOf": [{"$ref": "#/$defs/A"}]}]}`. -/
def divDefA : JObj := [("type", .str "object"), ("oneOf", .arr [.obj divSchema])]

/-- the diverging root schema (schema part plus its `$defs` table). -/
def divRoot : JObj :=
  [("anyOf", .arr [.obj [("$ref", .str "#/$defs/A")]]),
   ("$defs", .obj [("A", .obj divDefA)])]

/-- the walk configuration of `InlineDefsJsonSchemaTransformer(divRoot)`. -/
def divCx : Ctx := ⟨[("A", .obj divDefA)], true, false, idTf⟩

/-! Helper lemmas about the dictionary operations. -/

/-- lookup after removing a different key. -/
theorem getKey_popKey_ne (o : JObj) (k k2 : String) (h : k ≠ k2) :
    getKey (popKey o k2) k = getKey o k := by
  induction o with
  | nil => rfl
  | cons kv rest ih =>
    obtain ⟨k3, v⟩ := kv
    by_cases h3 : k3 = k2
    · subst h3
      have hne : ¬ k3 = k := fun e => h e.symm
      simp [popKey, getKey, hne, ih]
    · by_cases h4 : k3 = k
      · simp [popKey, getKey, h3, h4, h]
      · simp [popKey, getKey, h3, h4, h, ih]

/-! The root-self-reference example (claim C6). -/

/-- root schema of the root-self-reference example: a root `$ref` to a
recursive `Node` definition. -/
def rootSelfRefSchema : JObj :=
  [("$ref", .str "#/$defs/Node"),
   ("$defs", .obj [("Node", .obj
     [("type", .str "object"),
      ("properties", .obj [("next", .obj [("$ref", .str "#/$defs/Node")])])])])]

/-- the handled `Node` definition: inner self-reference rewritten to `#`,
closed object shape enforced. -/
def nodeHandled : JObj :=
  [("type", .str "object"),
   ("properties", .obj [("next", .obj [("$ref", .str "#")])]),
   ("additionalProperties", .bool false),
   ("required", .arr [.str "next"])]

/-- C6: for the root schema `{"$ref": "#/$defs/Node", "$defs": {"Node":
{"type": "object", "properties": {"next": {"$ref": "#/$defs/Node"}}}}}`
under the strict Enforce transform, the inner self-reference is rewritten
to `{"$ref": "#"}` and the output root carries the expanded Node object's
keys directly, with no outer `$ref`/`$defs` wrapper: the full output is the
handled Node object itself (the handled `$defs` table remains as a sibling
key, but the root is not a `$ref` pointer).  Stated as the exact output of
the walk plus the individual observations the claim makes. -/
theorem C6_root_self_reference :
    enforceWalk 100 rootSelfRefSchema =
      .ok (.obj ([("$defs", .obj [("Node", .obj nodeHandled)])] ++ nodeHandled), St.init)
    ∧ (∀ out st, enforceWalk 100 rootSelfRefSchema = .ok (.obj out, st) →
        getKey out "$ref" = none
        ∧ getKey out "type" = some (.str "object")
        ∧ getKey out "properties" =
            some (.obj [("next", .obj [("$ref", .str "#")])])
        ∧ getKey out "additionalProperties" = some (.bool false)
        ∧ getKey out "required" = some (.arr [.str "next"])) := by
  have hmain : enforceWalk 100 rootSelfRefSchema =
      .ok (.obj ([("$defs", .obj [("Node", .obj nodeHandled)])] ++ nodeHandled), St.init) := by
    rfl
  refine ⟨hmain, fun out st h => ?_⟩
  rw [hmain] at h
  injection h with h1
  injection h1 with h2 h3
  injection h2 with h4
  subst h4
  exact ⟨rfl, rfl, rfl, rfl, rfl⟩

/-- witness for C6: the second conjunct applied at the concrete output. -/
theorem C6_root_self_reference_witness :
    getKey ([("$defs", .obj [("Node", .obj nodeHandled)])] ++ nodeHandled) "$ref" = none :=
  (C6_root_self_reference.2 _ St.init rfl).1

/-! Claim C3: unresolvable `$ref` raises the schema-reference error. -/

/-- C3: when `prefer_inlined_defs` is true and a `$ref` is encountered whose
target definition name is absent from the `$defs` table, `_handle` raises
the schema-reference error carrying the missing definition name (first
conjunct, for any node at any traversal position), and the error propagates
to the caller of `walk` with no partial result — the error is the entire
outcome of the walk (second conjunct, for a root-level reference). -/
theorem C3_missing_ref_error :
    (∀ (cx : Ctx) (v : JVal) (stack : List String) (st : St) (fuel : Nat) (r key : String),
      cx.prefer = true → refToFollow v = some r → stripDefsRef r = key →
      key ∉ stack → getKey cx.defs key = none →
      handle cx (fuel+1) stack st v = .error (.userError key))
    ∧ (∀ (root : JObj) (fuel : Nat) (r key : String),
      refToFollow (.obj (popKey root "$defs")) = some r → stripDefsRef r = key →
      getKey (defsOf root) key = none →
      inlineDefsWalk (fuel+1) root = .error (.userError key)) := by
  have hhandle : ∀ (cx : Ctx) (v : JVal) (stack : List String) (st : St) (fuel : Nat)
      (r key : String),
      cx.prefer = true → refToFollow v = some r → stripDefsRef r = key →
      key ∉ stack → getKey cx.defs key = none →
      handle cx (fuel+1) stack st v = .error (.userError key) := by
    intro cx v stack st fuel r key hp hr hk hmem hdef
    subst hk
    simp only [handle, handleCore, hp, if_true, resolveRefs, hr, hmem, if_false, hdef]
    rfl
  refine ⟨hhandle, fun root fuel r key hr hk hdef => ?_⟩
  simp only [inlineDefsWalk, walkFn]
  rw [hhandle ⟨defsOf root, true, false, idTf⟩ (.obj (popKey root "$defs")) [] St.init fuel
      r key rfl hr hk (List.not_mem_nil key) hdef]
  rfl

/-- witness for C3: a walk of `{"$ref": "#/$defs/Missing"}` (no `$defs` at
all) fails with the error naming `Missing`. -/
theorem C3_missing_ref_error_witness :
    inlineDefsWalk 1 [("$ref", .str "#/$defs/Missing")] = .error (.userError "Missing") :=
  C3_missing_ref_error.2 [("$ref", .str "#/$defs/Missing")] 0 "#/$defs/Missing" "Missing"
    rfl rfl rfl

/-! Claim C7: nullable-union simplification. -/

/-- the literal `{"type": "null"}` schema. -/
def nullSchemaLit : JVal := .obj [("type", .str "null")]

/-- C7 counterexample: for the two-member union `[{"type": "null"}, {}]`
(exactly two members, one of them the literal null-type schema) the claim
predicts the pair is replaced by a deep copy of the non-null member
augmented with `nullable: true`, i.e. `[{"nullable": true}]`; the source's
truthiness test on the non-null member fails for the empty mapping and the
first member — the null schema itself — is kept instead. -/
theorem C7_counterexample :
    simplifyNullableUnion [nullSchemaLit, .obj []] = [nullSchemaLit]
    ∧ [nullSchemaLit] ≠ [JVal.obj [("nullable", .bool true)]] :=
  ⟨rfl, by decide⟩

/-- C7 (amended): in a two-member union containing the literal null-type
schema, the pair is replaced by a single deep copy of the non-null member
augmented with `nullable: true` provided that member is truthy (for a
mapping: non-empty); if both members are the null-type schema, or the
non-null member is falsy (such as the empty schema `{}`), the first member
alone is kept.  The walk example `{"anyOf": [{"type": "null"},
{"type": "string"}]}` with `simplify_nullable_unions` set becomes
`{"type": "string", "nullable": true}`. -/
theorem C7_amended_nullable_union :
    (∀ (s : JObj), isNullSchema (.obj s) = false → s ≠ [] →
      simplifyNullableUnion [.obj s, nullSchemaLit]
          = [.obj (setKey s "nullable" (.bool true))]
      ∧ simplifyNullableUnion [nullSchemaLit, .obj s]
          = [.obj (setKey s "nullable" (.bool true))])
    ∧ simplifyNullableUnion [nullSchemaLit, nullSchemaLit] = [nullSchemaLit]
    ∧ simplifyNullableUnion [.obj [], nullSchemaLit] = [.obj []]
    ∧ simplifyNullableUnion [nullSchemaLit, .obj []] = [nullSchemaLit]
    ∧ simplifyWalk 100 [("anyOf", .arr [nullSchemaLit, .obj [("type", .str "string")]])]
        = .ok (.obj [("type", .str "string"), ("nullable", .bool true)], St.init) := by
  refine ⟨?_, rfl, rfl, rfl, rfl⟩
  intro s h1 h2
  cases s with
  | nil => exact absurd rfl h2
  | cons p rest =>
    have hn : isNullSchema nullSchemaLit = true := rfl
    constructor
    · simp [simplifyNullableUnion, h1, hn, pyTruthy]
    · simp [simplifyNullableUnion, h1, hn, pyTruthy]

/-- witness for C7 (amended): the universal part applied to the member
`{"type": "string"}`. -/
theorem C7_amended_nullable_union_witness :
    simplifyNullableUnion [.obj [("type", .str "string")], nullSchemaLit]
      = [.obj [("type", .str "string"), ("nullable", .bool true)]] :=
  (C7_amended_nullable_union.1 [("type", .str "string")] rfl (by decide)).1

/-! Claim C8: single-member union unwrap. -/

/-- C8: when exactly one member remains after recursion and any
simplification, that member itself replaces the whole union node — the
result does not depend on the wrapper node's sibling keys, which are
dropped (first conjunct, over arbitrary wrapper nodes and configurations);
in particular `{"anyOf": [{"type": "integer"}], "title": "X"}` walks to
`{"type": "integer"}` (second conjunct). -/
theorem C8_single_member_union :
    (∀ (cx : Ctx) (fuel : Nat) (stack : List String) (st st2 : St) (s : JObj)
       (kind : String) (ms hs : List JVal) (u : JVal),
      getKey s kind = some (.arr ms) → ms ≠ [] →
      handleCore cx fuel stack st (.seq ms) = .ok (.seq hs, st2) →
      (if cx.simplify then simplifyNullableUnion hs else hs) = [u] →
      handleCore cx (fuel+1) stack st (.uni (.obj s) kind) = .ok (.one u, st2))
    ∧ simplifyWalk 100 [("anyOf", .arr [.obj [("type", .str "integer")]]), ("title", .str "X")]
        = .ok (.obj [("type", .str "integer")], St.init) := by
  refine ⟨?_, rfl⟩
  intro cx fuel stack st st2 s kind ms hs u hget hne hseq hsingle
  simp only [handleCore, hget]
  rw [if_neg (by simp [List.isEmpty_iff, hne])]
  rw [hseq]
  simp only [bindE_ok, uniFinish, HRes.getSeq]
  rw [hsingle]

/-- witness for C8: the universal part applied to the example union node. -/
theorem C8_single_member_union_witness :
    handleCore ⟨[], false, true, idTf⟩ 51 [] St.init
      (.uni (.obj [("anyOf", .arr [.obj [("type", .str "integer")]]), ("title", .str "X")]) "anyOf")
      = .ok (.one (.obj [("type", .str "integer")]), St.init) :=
  C8_single_member_union.1 ⟨[], false, true, idTf⟩ 50 [] St.init St.init
    [("anyOf", .arr [.obj [("type", .str "integer")]]), ("title", .str "X")] "anyOf"
    [.obj [("type", .str "integer")]] [.obj [("type", .str "integer")]]
    (.obj [("type", .str "integer")]) rfl (by decide) rfl rfl

/-! Claim C9: the synthetic key of the recursive-defs fallback. -/

/-- input for the C9 counterexample: the root `$ref` names the recursive
definition `A` itself, whose definition is a single-member union carrying a
title. -/
def c9root : JObj :=
  [("$ref", .str "#/$defs/A"),
   ("$defs", .obj [("A", .obj [("anyOf", .arr [.obj [("$ref", .str "#/$defs/A")]]),
                               ("title", .str "T")])])]

/-- C9 counterexample: walking `c9root` with `prefer_inlined_defs` detects
the recursive definition `A`; the synthetic key is derived from the root's
`$ref` target name and equals `"A"`, which collides with the key of the
recursive definition placed in the output `$defs` — yet no disambiguating
suffix is appended: the handled root overwrites the stored definition and
the result is `{"$defs": {"A": {"$ref": "#/$defs/A"}}, "$ref": "#/$defs/A"}`
rather than the claimed suffixed shape with both `"A"` and `"A_root"`. -/
theorem C9_counterexample :
    inlineDefsWalk 100 c9root
      = .ok (.obj [("$defs", .obj [("A", .obj [("$ref", .str "#/$defs/A")])]),
                   ("$ref", .str "#/$defs/A")], ⟨["A"], true⟩)
    ∧ inlineDefsWalk 100 c9root
      ≠ .ok (.obj [("$defs", .obj
            [("A", .obj [("anyOf", .arr [.obj [("$ref", .str "#/$defs/A")]]),
                         ("title", .str "T")]),
             ("A_root", .obj [("$ref", .str "#/$defs/A")])]),
           ("$ref", .str "#/$defs/A_root")], ⟨["A"], true⟩) := by
  refine ⟨rfl, fun h => ?_⟩
  rw [show inlineDefsWalk 100 c9root
      = .ok (.obj [("$defs", .obj [("A", .obj [("$ref", .str "#/$defs/A")])]),
                   ("$ref", .str "#/$defs/A")], ⟨["A"], true⟩) from rfl] at h
  injection h with h1
  injection h1 with h2 h3
  injection h2 with h4
  simp at h4

/-- strict counting lemma for filters: a pointwise-stronger predicate with a
witness element satisfying only the weaker one filters to a strictly
shorter list. -/
theorem filter_length_strict {p q : String → Bool}
    (himp : ∀ a, q a = true → p a = true) :
    ∀ (l : List String) (a : String), a ∈ l → p a = true → q a = false →
    (l.filter q).length < (l.filter p).length := by
  intro l
  induction l with
  | nil => intro a ha _ _; cases ha
  | cons b rest ih =>
    intro a ha hpa hqa
    have hle : (rest.filter q).length ≤ (rest.filter p).length := by
      rw [← List.countP_eq_length_filter, ← List.countP_eq_length_filter]
      exact List.countP_mono_left (fun x _ hq => himp x hq)
    rcases List.mem_cons.mp ha with hb | hrest
    · subst hb
      simp only [List.filter_cons, hpa, hqa, if_true, if_false, Bool.false_eq_true,
        List.length_cons]
      omega
    · have hlt := ih a hrest hpa hqa
      cases hqb : q b with
      | true =>
        have hpb := himp b hqb
        simp only [List.filter_cons, hqb, hpb, if_true, List.length_cons]
        omega
      | false =>
        cases hpb : p b with
        | true =>
          simp only [List.filter_cons, hqb, hpb, if_true, Bool.false_eq_true, if_false,
            List.length_cons]
          omega
        | false =>
          simp only [List.filter_cons, hqb, hpb, Bool.false_eq_true, if_false]
          exact hlt

/-- sufficiency of the `freshKey` fuel: when the fuel exceeds the number of
keys at least as long as the candidate, the result key is not among the
keys (each key can collide at most once because the candidate grows at
every step). -/
theorem freshKey_not_mem (ks : List String) :
    ∀ (fuel : Nat) (k : String),
    (ks.filter (fun j => decide (k.length ≤ j.length))).length < fuel →
    freshKey ks fuel k ∉ ks := by
  intro fuel
  induction fuel with
  | zero => intro k h; omega
  | succ n ih =>
    intro k h
    by_cases hk : k ∈ ks
    · simp only [freshKey, if_pos hk]
      apply ih
      have h5 : ("_root" : String).length = 5 := by decide
      have hgrow : k.length < (k ++ "_root").length := by
        rw [String.length_append]
        omega
      have himp : ∀ a : String, decide ((k ++ "_root").length ≤ a.length) = true →
          decide (k.length ≤ a.length) = true := by
        intro a hq
        have := of_decide_eq_true hq
        exact decide_eq_true (by omega)
      have hpa : decide (k.length ≤ k.length) = true := decide_eq_true (le_refl _)
      have hqa : decide ((k ++ "_root").length ≤ k.length) = false :=
        decide_eq_false (by omega)
      have hlt := filter_length_strict himp ks k hk hpa hqa
      omega
    · simp only [freshKey, if_neg hk]
      exact hk

/-- helper: the keys of the recursive-defs block are exactly the recursive
reference names. -/
theorem keysOf_walkRecDefs (cx : Ctx) (l : List String) :
    keysOf (walkRecDefs cx l) = l := by
  simp [keysOf, walkRecDefs, List.map_map, Function.comp_def]

/-- C9 (amended): when `prefer_inlined_defs` is true and the recursive-refs
set is non-empty after handling the root, the walk returns
`{"$defs": ..., "$ref": "#/$defs/<key>"}`, where the `$defs` block holds the
recursive definitions with the handled root stored under the synthetic key
(first conjunct); the key is the root's original string `$ref` target name
when present — used as-is, with no disambiguation, even if it collides with
a recursive definition's key (second conjunct); otherwise it derives from
the `title` / `"root"` fallback with the fixed suffix `"_root"` appended
until it avoids every recursive definition's key (third conjunct: the
chosen key never collides). -/
theorem C9_amended_synthetic_key :
    (∀ (cx : Ctx) (fuel : Nat) (root : JObj) (handled : JVal) (st : St),
      cx.prefer = true → st.recRefs ≠ [] →
      handle cx fuel [] St.init (.obj (popKey root "$defs")) = .ok (handled, st) →
      walkFn cx fuel root =
        .ok (.obj [("$defs", .obj (setKey (walkRecDefs cx st.recRefs)
                (walkRootKey root (walkRecDefs cx st.recRefs)) handled)),
            ("$ref", .str ("#/$defs/" ++ walkRootKey root (walkRecDefs cx st.recRefs)))], st))
    ∧ (∀ (root : JObj) (recDefs : JObj) (r : String),
      getPy root "$ref" = some (.str r) → walkRootKey root recDefs = stripDefsRef r)
    ∧ (∀ (root : JObj) (recDefs : JObj),
      getPy root "$ref" = none →
      walkRootKey root recDefs ∉ keysOf recDefs) := by
  refine ⟨?_, ?_, ?_⟩
  · intro cx fuel root handled st hp hrec hhandle
    have hne : st.recRefs.isEmpty = false := by
      cases hre : st.recRefs with
      | nil => exact absurd hre hrec
      | cons a l => rfl
    simp only [walkFn, hhandle, hp, Bool.not_true, Bool.false_and, Bool.false_eq_true,
      if_false, bindE_ok, hne, Bool.not_false, if_true]
  · intro root recDefs r hr
    simp [walkRootKey, hr]
  · intro root recDefs hr
    simp only [walkRootKey, hr]
    apply freshKey_not_mem
    calc (List.filter _ (keysOf recDefs)).length
        ≤ (keysOf recDefs).length := List.length_filter_le _ _
      _ = recDefs.length := by simp [keysOf]
      _ < recDefs.length + 1 := Nat.lt_succ_self _

/-- witness for C9 (amended): the first conjunct applied to the concrete
`c9root` walk (root `$ref` present, key `"A"` reused as-is). -/
theorem C9_amended_synthetic_key_witness :
    walkFn ⟨defsOf c9root, true, false, idTf⟩ 100 c9root =
      .ok (.obj [("$defs", .obj (setKey
              (walkRecDefs ⟨defsOf c9root, true, false, idTf⟩ ["A"])
              (walkRootKey c9root (walkRecDefs ⟨defsOf c9root, true, false, idTf⟩ ["A"]))
              (.obj [("$ref", .str "#/$defs/A")]))),
          ("$ref", .str ("#/$defs/" ++
              walkRootKey c9root (walkRecDefs ⟨defsOf c9root, true, false, idTf⟩ ["A"])))],
        ⟨["A"], true⟩) :=
  C9_amended_synthetic_key.1 ⟨defsOf c9root, true, false, idTf⟩ 100 c9root
    (.obj [("$ref", .str "#/$defs/A")]) ⟨["A"], true⟩ rfl (by decide) rfl

/-- lookup of the removed key yields nothing. -/
@[simp] theorem getKey_popKey_self (o : JObj) (k : String) :
    getKey (popKey o k) k = none := by
  induction o with
  | nil => rfl
  | cons kv rest ih =>
    obtain ⟨k3, v⟩ := kv
    by_cases h3 : k3 = k
    · simp [popKey, h3, ih]
    · simp [popKey, getKey, h3, ih]

/-- lookup of the assigned key yields the assigned value. -/
@[simp] theorem getKey_setKey_self (o : JObj) (k : String) (v : JVal) :
    getKey (setKey o k v) k = some v := by
  induction o with
  | nil => simp [setKey, getKey]
  | cons kv rest ih =>
    obtain ⟨k3, w⟩ := kv
    by_cases h3 : k3 = k
    · simp [setKey, getKey, h3]
    · simp [setKey, getKey, h3, ih]

/-- lookup after assigning a different key. -/
theorem getKey_setKey_ne (o : JObj) (k k2 : String) (v : JVal) (h : k ≠ k2) :
    getKey (setKey o k2 v) k = getKey o k := by
  have h2 : ¬ k2 = k := fun e => h e.symm
  induction o with
  | nil => simp [setKey, getKey, h2]
  | cons kv rest ih =>
    obtain ⟨k3, w⟩ := kv
    by_cases h3 : k3 = k2
    · subst h3
      simp [setKey, getKey, h2]
    · by_cases h4 : k3 = k
      · simp [setKey, getKey, h3, h4, h, h2]
      · simp [setKey, getKey, h3, h4, h, h2, ih]

/-! Claim C10: the strict = False mode of the OpenAI transform. -/

/-- keys other than the three presentation keys survive `tfDropKeys`. -/
theorem tfDropKeys_getKey (s : JObj) (k : String)
    (h1 : k ≠ "title") (h2 : k ≠ "$schema") (h3 : k ≠ "discriminator") :
    getKey (tfDropKeys s) k = getKey s k := by
  simp only [tfDropKeys]
  rw [getKey_popKey_ne _ _ _ h3, getKey_popKey_ne _ _ _ h2, getKey_popKey_ne _ _ _ h1]

/-- the three presentation keys are gone after `tfDropKeys`. -/
theorem tfDropKeys_dropped (s : JObj) :
    getKey (tfDropKeys s) "title" = none
    ∧ getKey (tfDropKeys s) "$schema" = none
    ∧ getKey (tfDropKeys s) "discriminator" = none := by
  refine ⟨?_, ?_, ?_⟩ <;> simp only [tfDropKeys]
  · rw [getKey_popKey_ne _ _ _ (by decide), getKey_popKey_ne _ _ _ (by decide),
      getKey_popKey_self]
  · rw [getKey_popKey_ne _ _ _ (by decide), getKey_popKey_self]
  · rw [getKey_popKey_self]

/-- keys other than `$ref` and `anyOf` survive `tfRefStep`. -/
theorem tfRefStep_getKey (rootRef : Option JVal) (s : JObj) (k : String)
    (h1 : k ≠ "$ref") (h2 : k ≠ "anyOf") :
    getKey (tfRefStep rootRef s) k = getKey s k := by
  simp only [tfRefStep]
  cases hr : getPy s "$ref" with
  | none => rfl
  | some r =>
    by_cases hroot : some r = rootRef
    · simp only [if_pos hroot]
      by_cases hlen : (setKey s "$ref" (.str "#")).length > 1
      · rw [if_pos hlen, getKey_setKey_ne _ _ _ _ h2, getKey_popKey_ne _ _ _ h1,
          getKey_setKey_ne _ _ _ _ h1]
      · rw [if_neg hlen, getKey_setKey_ne _ _ _ _ h1]
    · simp only [if_neg hroot]
      by_cases hlen : s.length > 1
      · rw [if_pos hlen, getKey_setKey_ne _ _ _ _ h2, getKey_popKey_ne _ _ _ h1]
      · rw [if_neg hlen]

/-- a node whose `$ref` equals the root's `$ref` gets the local
self-reference `"#"`: either directly, or as the sole member of the added
`anyOf` when the node has sibling keys. -/
theorem tfRefStep_root (rootRef : Option JVal) (s : JObj) (rv : JVal)
    (h : getPy s "$ref" = some rv) (hroot : some rv = rootRef) :
    getKey (tfRefStep rootRef s) "$ref" = some (.str "#")
    ∨ getKey (tfRefStep rootRef s) "anyOf"
        = some (.arr [.obj [("$ref", .str "#")]]) := by
  simp only [tfRefStep, h, if_pos hroot]
  by_cases hlen : (setKey s "$ref" (.str "#")).length > 1
  · right
    rw [if_pos hlen, getKey_setKey_self]
    simp [getKey_setKey_self]
  · left
    rw [if_neg hlen, getKey_setKey_self]

/-- equal lookups give equal Python-`get` views. -/
theorem getPy_congr (o o2 : JObj) (k : String) (h : getKey o k = getKey o2 k) :
    getPy o k = getPy o2 k := by
  unfold getPy
  rw [h]

/-- reduction of the strict-`False` transform: only the unconditional key
drops, the ref step, and the `oneOf` compatibility flag remain. -/
theorem openaiTransform_false_eq (rootRef : Option JVal) (st : St) (s : JObj) :
    openaiTransform (some false) rootRef st s =
      (tfRefStep rootRef (tfDropKeys s),
       if hasKey (tfRefStep rootRef (tfDropKeys s)) "oneOf"
       then { st with compat := false } else st) := by
  simp only [openaiTransform, ite_self]
  split <;> rfl

/-- C10: when the OpenAI transform runs with `strict = False`, every node
still has `title`, `$schema` and `discriminator` removed (conjuncts 3-5)
and root self-references rewritten to the local `"#"` pointer (last
conjunct); every other key — in particular `default` and the
strict-incompatible constraint keywords — is left in place (conjunct 6);
and the presence of `oneOf` on the node is the only condition that sets
`is_strict_compatible` to false (conjunct 1; conjunct 2: the recursive-refs
set is untouched). -/
theorem C10_strict_false_transform (rootRef : Option JVal) (st : St) (s : JObj) :
    ((openaiTransform (some false) rootRef st s).2.compat
        = (st.compat && !hasKey s "oneOf"))
    ∧ (openaiTransform (some false) rootRef st s).2.recRefs = st.recRefs
    ∧ getKey (openaiTransform (some false) rootRef st s).1 "title" = none
    ∧ getKey (openaiTransform (some false) rootRef st s).1 "$schema" = none
    ∧ getKey (openaiTransform (some false) rootRef st s).1 "discriminator" = none
    ∧ (∀ k : String, k ≠ "title" → k ≠ "$schema" → k ≠ "discriminator" →
        k ≠ "$ref" → k ≠ "anyOf" →
        getKey (openaiTransform (some false) rootRef st s).1 k = getKey s k)
    ∧ (∀ rv : JVal, getPy s "$ref" = some rv → some rv = rootRef →
        (getKey (openaiTransform (some false) rootRef st s).1 "$ref" = some (.str "#")
         ∨ getKey (openaiTransform (some false) rootRef st s).1 "anyOf"
             = some (.arr [.obj [("$ref", .str "#")]]))) := by
  rw [openaiTransform_false_eq]
  have honeOf : hasKey (tfRefStep rootRef (tfDropKeys s)) "oneOf" = hasKey s "oneOf" := by
    unfold hasKey
    rw [tfRefStep_getKey _ _ _ (by decide) (by decide),
      tfDropKeys_getKey _ _ (by decide) (by decide) (by decide)]
  refine ⟨?_, ?_, ?_, ?_, ?_, ?_, ?_⟩
  · simp only [honeOf]
    cases h : hasKey s "oneOf" <;> simp
  · simp only [honeOf]
    cases h : hasKey s "oneOf" <;> simp
  · show getKey (tfRefStep rootRef (tfDropKeys s)) "title" = none
    rw [tfRefStep_getKey _ _ _ (by decide) (by decide)]
    exact (tfDropKeys_dropped s).1
  · show getKey (tfRefStep rootRef (tfDropKeys s)) "$schema" = none
    rw [tfRefStep_getKey _ _ _ (by decide) (by decide)]
    exact (tfDropKeys_dropped s).2.1
  · show getKey (tfRefStep rootRef (tfDropKeys s)) "discriminator" = none
    rw [tfRefStep_getKey _ _ _ (by decide) (by decide)]
    exact (tfDropKeys_dropped s).2.2
  · intro k h1 h2 h3 h4 h5
    show getKey (tfRefStep rootRef (tfDropKeys s)) k = getKey s k
    rw [tfRefStep_getKey _ _ _ h4 h5, tfDropKeys_getKey _ _ h1 h2 h3]
  · intro rv h hroot
    have hdrop : getPy (tfDropKeys s) "$ref" = some rv := by
      rw [getPy_congr _ s _ (tfDropKeys_getKey _ _ (by decide) (by decide) (by decide)), h]
    exact tfRefStep_root rootRef (tfDropKeys s) rv hdrop hroot

/-- witness for C10: a node carrying the root's own `$ref`, a title and a
`minLength` bound, with `strict = False`: `minLength` is preserved and the
self-reference is rewritten. -/
theorem C10_strict_false_transform_witness :
    getKey (openaiTransform (some false) (some (.str "#/$defs/X")) St.init
        [("$ref", .str "#/$defs/X"), ("title", .str "T"), ("minLength", .num 3)]).1 "minLength"
      = getKey [("$ref", .str "#/$defs/X"), ("title", .str "T"), ("minLength", .num 3)] "minLength"
    ∧ (getKey (openaiTransform (some false) (some (.str "#/$defs/X")) St.init
          [("$ref", .str "#/$defs/X"), ("title", .str "T"), ("minLength", .num 3)]).1 "$ref"
        = some (.str "#")
       ∨ getKey (openaiTransform (some false) (some (.str "#/$defs/X")) St.init
          [("$ref", .str "#/$defs/X"), ("title", .str "T"), ("minLength", .num 3)]).1 "anyOf"
        = some (.arr [.obj [("$ref", .str "#")]])) :=
  ⟨(C10_strict_false_transform (some (.str "#/$defs/X")) St.init
      [("$ref", .str "#/$defs/X"), ("title", .str "T"), ("minLength", .num 3)]).2.2.2.2.2.1
      "minLength" (by decide) (by decide) (by decide) (by decide) (by decide),
   (C10_strict_false_transform (some (.str "#/$defs/X")) St.init
      [("$ref", .str "#/$defs/X"), ("title", .str "T"), ("minLength", .num 3)]).2.2.2.2.2.2
      (.str "#/$defs/X") rfl rfl⟩

/-! Claim C5: Detect-mode soundness. -/

/-- C5 counterexample: the schema `{"type": "string", "title": "T"}` is one
that Enforce mode changes only through rule 1 (title removal) — the Enforce
output differs from the input — yet Detect mode leaves
`is_strict_compatible = true`: a rule of §4.2 (rule 1) triggers a rewrite
without Detect reporting incompatibility, refuting the claimed
"if and only if" over rules 1-6. -/
theorem C5_counterexample :
    detectWalk 100 [("type", .str "string"), ("title", .str "T")]
      = .ok (.obj [("type", .str "string")], ⟨[], true⟩)
    ∧ enforceWalk 100 [("type", .str "string"), ("title", .str "T")]
      = .ok (.obj [("type", .str "string")], ⟨[], true⟩)
    ∧ ([("type", .str "string"), ("title", .str "T")] : JObj)
        ≠ [("type", .str "string")] :=
  ⟨rfl, rfl, by decide⟩

/-- the node-level condition that flips the Detect-mode flag, stated on the
untransformed node: a `default` key, a strict-incompatible constraint
keyword, a `oneOf` key, or an object-typed node failing the closed-object
check. -/
def detectBadNode (s : JObj) : Bool :=
  hasKey s "default"
  || !(strictIncompatibleKeys.filter (hasKey s)).isEmpty
  || hasKey s "oneOf"
  || (decide (getKey s "type" = some (.str "object")) && detectObjectBad s)

/-- state effect of the Detect-mode transform: the flag drops to false
exactly when the node (as it stood before this node's own rewrites)
satisfies `detectBadNode`, and the recursive-refs set is untouched.  The
checks the source performs on the partially rewritten node coincide with
checks on the original node because steps 1 and 3 only touch `title`,
`$schema`, `discriminator`, `$ref` and `anyOf`. -/
theorem openaiTransform_none_snd (rootRef : Option JVal) (st : St) (s : JObj) :
    (openaiTransform none rootRef st s).2
      = { st with compat := st.compat && !detectBadNode s } := by
  have hdef : hasKey (tfDropKeys s) "default" = hasKey s "default" := by
    unfold hasKey
    rw [tfDropKeys_getKey _ _ (by decide) (by decide) (by decide)]
  have hkeep : ∀ k : String, k ≠ "title" → k ≠ "$schema" → k ≠ "discriminator" →
      k ≠ "$ref" → k ≠ "anyOf" →
      getKey (tfRefStep rootRef (tfDropKeys s)) k = getKey s k := by
    intro k h1 h2 h3 h4 h5
    rw [tfRefStep_getKey _ _ _ h4 h5, tfDropKeys_getKey _ _ h1 h2 h3]
  have hfilter : strictIncompatibleKeys.filter (hasKey (tfRefStep rootRef (tfDropKeys s)))
      = strictIncompatibleKeys.filter (hasKey s) := by
    apply List.filter_congr
    intro k hk
    unfold hasKey
    fin_cases hk <;>
      rw [hkeep _ (by decide) (by decide) (by decide) (by decide) (by decide)]
  have honeOf : hasKey (tfRefStep rootRef (tfDropKeys s)) "oneOf" = hasKey s "oneOf" := by
    unfold hasKey
    rw [hkeep _ (by decide) (by decide) (by decide) (by decide) (by decide)]
  have htype : getKey (tfRefStep rootRef (tfDropKeys s)) "type" = getKey s "type" :=
    hkeep _ (by decide) (by decide) (by decide) (by decide) (by decide)
  have hobj : detectObjectBad (tfRefStep rootRef (tfDropKeys s)) = detectObjectBad s := by
    unfold detectObjectBad hasKey
    rw [hkeep "additionalProperties" (by decide) (by decide) (by decide) (by decide) (by decide),
      hkeep "properties" (by decide) (by decide) (by decide) (by decide) (by decide),
      hkeep "required" (by decide) (by decide) (by decide) (by decide) (by decide)]
  obtain ⟨strr, stc⟩ := st
  simp only [openaiTransform]
  repeat' split
  all_goals simp_all [detectBadNode, List.isEmpty_iff, List.filter_eq_nil]

/-- inversion of a bind against a successful result. -/
theorem bindE_eq_ok {α β : Type} {x : Except WalkErr α} {f : α → Except WalkErr β} {b : β} :
    (x >>= f) = .ok b ↔ ∃ a, x = .ok a ∧ f a = .ok b := by
  cases x with
  | ok a => simp
  | error e => simp

/-- `addRecRef` only touches the recursive-refs set. -/
theorem addRecRef_compat (st : St) (k : String) :
    (addRecRef st k).compat = st.compat := by
  unfold addRecRef
  split <;> rfl

/-- every state produced by the ref-resolution loop is the input state
possibly extended by one `addRecRef`. -/
theorem resolveRefs_state (defs : JObj) (R : St → St → Prop)
    (hrefl : ∀ st, R st st) (hadd : ∀ st k, R st (addRecRef st k)) :
    ∀ (fuel : Nat) (stack : List String) (st : St) (v v2 : JVal)
      (stack2 : List String) (st2 : St),
    resolveRefs defs fuel stack st v = .ok (v2, stack2, st2) → R st st2 := by
  intro fuel
  induction fuel with
  | zero =>
    intro stack st v v2 stack2 st2 h
    exact absurd h (by simp [resolveRefs])
  | succ n ih =>
    intro stack st v v2 stack2 st2 h
    simp only [resolveRefs] at h
    cases hr : refToFollow v with
    | none =>
      simp only [hr] at h
      injection h with h1
      injection h1 with _ h2
      injection h2 with _ h3
      rw [← h3]
      exact hrefl st
    | some r =>
      simp only [hr] at h
      by_cases hm : stripDefsRef r ∈ stack
      · rw [if_pos hm] at h
        injection h with h1
        injection h1 with _ h2
        injection h2 with _ h3
        rw [← h3]
        exact hadd st _
      · rw [if_neg hm] at h
        cases hg : getKey defs (stripDefsRef r) with
        | none => simp only [hg] at h; exact absurd h (by simp)
        | some d =>
          simp only [hg] at h
          cases d with
          | null => exact absurd h (by simp)
          | bool b => exact ih _ _ _ _ _ _ h
          | num m => exact ih _ _ _ _ _ _ h
          | str t => exact ih _ _ _ _ _ _ h
          | arr l => exact ih _ _ _ _ _ _ h
          | obj o => exact ih _ _ _ _ _ _ h

/-- every state produced by the walker core is reached from the input state
through `addRecRef` steps (ref resolution) and transform applications: any
reflexive-transitive relation respected by those two operations is
preserved end to end. -/
theorem handleCore_state (cx : Ctx) (R : St → St → Prop)
    (hrefl : ∀ st, R st st)
    (htrans : ∀ a b c, R a b → R b c → R a c)
    (hadd : ∀ st k, R st (addRecRef st k))
    (htf : ∀ st s, R st (cx.tf st s).2) :
    ∀ (fuel : Nat) (stack : List String) (st : St) (task : HTask) (r : HRes) (st2 : St),
    handleCore cx fuel stack st task = .ok (r, st2) → R st st2 := by
  intro fuel
  induction fuel with
  | zero =>
    intro stack st task r st2 h
    exact absurd h (by simp [handleCore])
  | succ n ih =>
    intro stack st task r st2 h
    -- transform application at the end of `_handle`
    have happ : ∀ (st' : St) (v : JVal), R st' ((applyTf cx.tf st' v).2) := by
      intro st' v
      cases v <;> first | exact hrefl st' | exact htf st' _
    cases task with
    | seq ms =>
      cases ms with
      | nil =>
        simp only [handleCore] at h
        injection h with h1
        injection h1 with _ h2
        rw [← h2]
        exact hrefl st
      | cons v vs =>
        simp only [handleCore] at h
        rw [bindE_eq_ok] at h
        obtain ⟨⟨rv, stA⟩, h1, h⟩ := h
        rw [bindE_eq_ok] at h
        obtain ⟨⟨rvs, stB⟩, h2, h⟩ := h
        injection h with h3
        injection h3 with _ h4
        rw [← h4]
        exact htrans _ _ _ (ih _ _ _ _ _ h1) (ih _ _ _ _ _ h2)
    | vals kvs =>
      cases kvs with
      | nil =>
        simp only [handleCore] at h
        injection h with h1
        injection h1 with _ h2
        rw [← h2]
        exact hrefl st
      | cons kv rest =>
        obtain ⟨k, v⟩ := kv
        simp only [handleCore] at h
        rw [bindE_eq_ok] at h
        obtain ⟨⟨rv, stA⟩, h1, h⟩ := h
        rw [bindE_eq_ok] at h
        obtain ⟨⟨rrest, stB⟩, h2, h⟩ := h
        injection h with h3
        injection h3 with _ h4
        rw [← h4]
        exact htrans _ _ _ (ih _ _ _ _ _ h1) (ih _ _ _ _ _ h2)
    | uni v kind =>
      simp only [handleCore] at h
      split at h <;>
        try (injection h with h1; injection h1 with _ h2; rw [← h2]; exact hrefl st)
      split at h
      · split at h
        · injection h with h1
          injection h1 with _ h2
          rw [← h2]
          exact hrefl st
        · rw [bindE_eq_ok] at h
          obtain ⟨⟨rhs, stA⟩, h1, h⟩ := h
          have hA := ih _ _ _ _ _ h1
          unfold uniFinish at h
          split at h <;>
            (injection h with h3; injection h3 with _ h4; rw [← h4]; exact hA)
      · injection h with h1
        injection h1 with _ h2
        rw [← h2]
        exact hrefl st
    | one v =>
      simp only [handleCore] at h
      rw [bindE_eq_ok] at h
      obtain ⟨⟨v1, stack1, st1⟩, hres, h⟩ := h
      have hR1 : R st st1 := by
        by_cases hp : cx.prefer
        · rw [if_pos hp] at hres
          exact resolveRefs_state cx.defs R hrefl hadd _ _ _ _ _ _ _ hres
        · rw [if_neg hp] at hres
          injection hres with h1
          injection h1 with _ h2
          injection h2 with _ h3
          rw [← h3]
          exact hrefl st
      split at h <;>
        try (injection h with h1; injection h1 with _ h2; rw [← h2]; exact hR1)
      · rw [bindE_eq_ok] at h
        obtain ⟨⟨v2, st2a⟩, hdisp, h⟩ := h
        injection h with h3
        injection h3 with _ h4
        rw [← h4]
        refine htrans _ _ _ hR1 (htrans _ _ _ ?_ (happ st2a v2))
        -- R st1 st2a from the dispatch block
        split at hdisp
        · -- object branch: three sequential parts
          rw [bindE_eq_ok] at hdisp
          obtain ⟨⟨sA, stA⟩, hP1, hdisp⟩ := hdisp
          rw [bindE_eq_ok] at hdisp
          obtain ⟨⟨sB, stB⟩, hP2, hdisp⟩ := hdisp
          rw [bindE_eq_ok] at hdisp
          obtain ⟨⟨sC, stC⟩, hP3, hdisp⟩ := hdisp
          injection hdisp with h5
          injection h5 with _ h6
          rw [← h6]
          have r1 : R st1 stA := by
            split at hP1
            · split at hP1
              · injection hP1 with h7
                injection h7 with _ h8
                rw [← h8]
                exact hrefl st1
              · rw [bindE_eq_ok] at hP1
                obtain ⟨⟨rps, stX⟩, hq, hP1⟩ := hP1
                injection hP1 with h7
                injection h7 with _ h8
                rw [← h8]
                exact ih _ _ _ _ _ hq
            · injection hP1 with h7
              injection h7 with _ h8
              rw [← h8]
              exact hrefl st1
          have r2 : R stA stB := by
            split at hP2
            · injection hP2 with h7
              injection h7 with _ h8
              rw [← h8]
              exact hrefl stA
            · injection hP2 with h7
              injection h7 with _ h8
              rw [← h8]
              exact hrefl stA
            · injection hP2 with h7
              injection h7 with _ h8
              rw [← h8]
              exact hrefl stA
            · rw [bindE_eq_ok] at hP2
              obtain ⟨⟨rap, stX⟩, hq, hP2⟩ := hP2
              injection hP2 with h7
              injection h7 with _ h8
              rw [← h8]
              exact ih _ _ _ _ _ hq
          have r3 : R stB stC := by
            split at hP3
            · injection hP3 with h7
              injection h7 with _ h8
              rw [← h8]
              exact hrefl stB
            · injection hP3 with h7
              injection h7 with _ h8
              rw [← h8]
              exact hrefl stB
            · rw [bindE_eq_ok] at hP3
              obtain ⟨⟨rpps, stX⟩, hq, hP3⟩ := hP3
              injection hP3 with h7
              injection h7 with _ h8
              rw [← h8]
              exact ih _ _ _ _ _ hq
            · injection hP3 with h7
              injection h7 with _ h8
              rw [← h8]
              exact hrefl stB
          exact htrans _ _ _ r1 (htrans _ _ _ r2 r3)
        · split at hdisp
          · -- array branch: two sequential parts
            rw [bindE_eq_ok] at hdisp
            obtain ⟨⟨sA, stA⟩, hP1, hdisp⟩ := hdisp
            rw [bindE_eq_ok] at hdisp
            obtain ⟨⟨sB, stB⟩, hP2, hdisp⟩ := hdisp
            injection hdisp with h5
            injection h5 with _ h6
            rw [← h6]
            have r1 : R st1 stA := by
              split at hP1
              · split at hP1
                · injection hP1 with h7
                  injection h7 with _ h8
                  rw [← h8]
                  exact hrefl st1
                · rw [bindE_eq_ok] at hP1
                  obtain ⟨⟨rl, stX⟩, hq, hP1⟩ := hP1
                  injection hP1 with h7
                  injection h7 with _ h8
                  rw [← h8]
                  exact ih _ _ _ _ _ hq
              · injection hP1 with h7
                injection h7 with _ h8
                rw [← h8]
                exact hrefl st1
            have r2 : R stA stB := by
              split at hP2
              · split at hP2
                · rw [bindE_eq_ok] at hP2
                  obtain ⟨⟨rit, stX⟩, hq, hP2⟩ := hP2
                  injection hP2 with h7
                  injection h7 with _ h8
                  rw [← h8]
                  exact ih _ _ _ _ _ hq
                · injection hP2 with h7
                  injection h7 with _ h8
                  rw [← h8]
                  exact hrefl stA
              · injection hP2 with h7
                injection h7 with _ h8
                rw [← h8]
                exact hrefl stA
            exact htrans _ _ _ r1 r2
          · split at hdisp
            · -- union branch: two sub-tasks
              rw [bindE_eq_ok] at hdisp
              obtain ⟨⟨ru, stA⟩, hU1, hdisp⟩ := hdisp
              rw [bindE_eq_ok] at hdisp
              obtain ⟨⟨ru2, stB⟩, hU2, hdisp⟩ := hdisp
              injection hdisp with h5
              injection h5 with _ h6
              rw [← h6]
              exact htrans _ _ _ (ih _ _ _ _ _ hU1) (ih _ _ _ _ _ hU2)
            · -- leaf branch
              injection hdisp with h5
              injection h5 with _ h6
              rw [← h6]
              exact hrefl st1

/-- C5 (amended): in Detect mode (`strict` unset), each transform invocation
sets `is_strict_compatible` to false exactly when the node it processes has
a `default` key, a strict-incompatible constraint keyword, a `oneOf` key,
or is object-typed and fails the closed-object check (`detectBadNode`);
rules 1 and 3 (title/`$schema`/`discriminator` removal and the
self-reference rewrite, both applied in Detect mode too) never affect the
flag, and the recursive-refs set is untouched (first conjunct).  Once the
flag is false, no later step of the same walk — transform invocations and
ref resolution alike — sets it back to true (second conjunct). -/
theorem C5_amended_detect_flag :
    (∀ (rootRef : Option JVal) (st : St) (s : JObj),
      (openaiTransform none rootRef st s).2.compat
        = (st.compat && !detectBadNode s)
      ∧ (openaiTransform none rootRef st s).2.recRefs = st.recRefs)
    ∧ (∀ (defs : JObj) (rootRef : Option JVal) (fuel : Nat) (stack : List String)
        (st : St) (task : HTask) (r : HRes) (st2 : St),
      handleCore ⟨defs, false, false, openaiTransform none rootRef⟩ fuel stack st task
          = .ok (r, st2) →
      st.compat = false → st2.compat = false) := by
  constructor
  · intro rootRef st s
    rw [openaiTransform_none_snd]
    exact ⟨rfl, rfl⟩
  · intro defs rootRef fuel stack st task r st2 h hc
    exact handleCore_state ⟨defs, false, false, openaiTransform none rootRef⟩
      (fun a b => a.compat = false → b.compat = false)
      (fun _ hh => hh)
      (fun _ _ _ hab hbc hh => hbc (hab hh))
      (fun st0 k hh => by rw [addRecRef_compat]; exact hh)
      (fun st0 s0 hh => by rw [openaiTransform_none_snd]; simp [hh])
      fuel stack st task r st2 h hc

/-- witness for C5 (amended): a node with a `default` key flips the flag,
and a Detect step started with the flag already false leaves it false. -/
theorem C5_amended_detect_flag_witness :
    (openaiTransform none none St.init [("type", .str "string"), ("default", .null)]).2.compat
      = (St.init.compat && !detectBadNode [("type", .str "string"), ("default", .null)])
    ∧ (⟨[], false⟩ : St).compat = false :=
  ⟨(C5_amended_detect_flag.1 none St.init [("type", .str "string"), ("default", .null)]).1,
   C5_amended_detect_flag.2 [] none 10 [] ⟨[], false⟩
     (.one (.obj [("type", .str "string")])) (.one (.obj [("type", .str "string")]))
     ⟨[], false⟩ rfl rfl⟩

/-! Further dictionary lemmas (claims C1/C4 machinery). -/

/-- assigning the value a key already holds leaves the dict unchanged. -/
theorem setKey_same (o : JObj) (k : String) (v : JVal) (h : getKey o k = some v) :
    setKey o k v = o := by
  induction o with
  | nil => simp [getKey] at h
  | cons kv rest ih =>
    obtain ⟨k3, w⟩ := kv
    by_cases h3 : k3 = k
    · subst h3
      simp [getKey] at h
      simp [setKey, h]
    · simp only [getKey, if_neg h3] at h
      simp [setKey, h3, ih h]

/-- removing an absent key leaves the dict unchanged. -/
theorem popKey_absent (o : JObj) (k : String) (h : getKey o k = none) :
    popKey o k = o := by
  induction o with
  | nil => rfl
  | cons kv rest ih =>
    obtain ⟨k3, w⟩ := kv
    by_cases h3 : k3 = k
    · subst h3
      simp [getKey] at h
    · simp only [getKey, if_neg h3] at h
      simp [popKey, h3, ih h]

/-- removing a key right after assigning it removes it from the original. -/
theorem popKey_setKey_self (o : JObj) (k : String) (v : JVal) :
    popKey (setKey o k v) k = popKey o k := by
  induction o with
  | nil => simp [setKey, popKey]
  | cons kv rest ih =>
    obtain ⟨k3, w⟩ := kv
    by_cases h3 : k3 = k
    · simp [setKey, popKey, h3]
    · simp [setKey, popKey, h3, ih]

/-- a key not in the popped list survives a fold of pops unchanged. -/
theorem getKey_foldl_popKey_not_mem (keys : List String) :
    ∀ (o : JObj) (k : String), k ∉ keys →
    getKey (keys.foldl popKey o) k = getKey o k := by
  induction keys with
  | nil => intro o k _; rfl
  | cons a rest ih =>
    intro o k h
    rw [List.foldl_cons, ih _ _ (fun hm => h (List.mem_cons_of_mem a hm)),
      getKey_popKey_ne _ _ _ (fun he => h (by rw [he]; exact List.mem_cons_self a rest))]

/-- a key in the popped list is gone after the fold of pops. -/
theorem getKey_foldl_popKey_mem (keys : List String) :
    ∀ (o : JObj) (k : String), k ∈ keys →
    getKey (keys.foldl popKey o) k = none := by
  induction keys with
  | nil => intro o k h; cases h
  | cons a rest ih =>
    intro o k h
    by_cases hm : k ∈ rest
    · rw [List.foldl_cons]
      exact ih _ _ hm
    · have hk : k = a := by
        rcases List.mem_cons.mp h with h1 | h2
        · exact h1
        · exact absurd h2 hm
      subst hk
      rw [List.foldl_cons, getKey_foldl_popKey_not_mem rest _ _ hm, getKey_popKey_self]

/-- a lookup hit names an entry of the list. -/
theorem getKey_mem (o : JObj) (k : String) (v : JVal) (h : getKey o k = some v) :
    (k, v) ∈ o := by
  induction o with
  | nil => simp [getKey] at h
  | cons kv rest ih =>
    obtain ⟨k3, w⟩ := kv
    by_cases h3 : k3 = k
    · subst h3
      simp [getKey] at h
      cases h
      exact List.mem_cons_self _ _
    · simp only [getKey, if_neg h3] at h
      exact List.mem_cons_of_mem _ (ih h)

/-! The Enforce-mode transform as a pure rewriting. -/

/-- in Enforce mode (`strict = True`) the transform is the pure six-step
rewriting `tfEnforceFn` and the walker state passes through untouched. -/
theorem openaiTransform_true_eq (rootRef : Option JVal) (st : St) (s : JObj) :
    openaiTransform (some true) rootRef st s = (tfEnforceFn rootRef s, st) := by
  simp only [openaiTransform, tfEnforceFn]
  by_cases h1 : hasKey (tfDropKeys s) "default" = true <;>
    simp only [h1, if_true, if_false, Bool.false_eq_true] <;>
    repeat' split
  all_goals rfl

/-! Monotonicity and saturation of the visited-scope invariant. -/

/-- pointwise implication lifts through `List.all`. -/
theorem all_mono {α : Type} {f g : α → Bool} (h : ∀ v, f v = true → g v = true) :
    ∀ l : List α, l.all f = true → l.all g = true := by
  intro l hl
  rw [List.all_eq_true] at hl ⊢
  exact fun x hx => h x (hl x hx)

/-- membership-aware pointwise implication through `List.all`. -/
theorem all_mono_mem {α : Type} {f g : α → Bool} (l : List α)
    (h : ∀ x ∈ l, f x = true → g x = true) (hl : l.all f = true) : l.all g = true := by
  rw [List.all_eq_true] at hl ⊢
  exact fun x hx => h x hx (hl x hx)

/-- pointwise implication through the member-list check, needed only at
the members of the checked value. -/
theorem allArrOk_mono_mem (f g : JVal → Bool) (o : Option JVal)
    (h : ∀ ms, o = some (.arr ms) → ∀ w ∈ ms, f w = true → g w = true)
    (ho : allArrOk f o = true) : allArrOk g o = true := by
  cases o with
  | none => rfl
  | some v =>
    cases v with
    | arr ms => exact all_mono_mem ms (h ms rfl) ho
    | null => rfl
    | bool b => rfl
    | num m => rfl
    | str t => rfl
    | obj o2 => rfl

/-- pointwise implication through the mapping-values check, needed only at
the entries of the checked value. -/
theorem allValsOk_mono_mem (f g : String × JVal → Bool) (o : Option JVal)
    (h : ∀ ps, o = some (.obj ps) → ∀ kv ∈ ps, f kv = true → g kv = true)
    (ho : allValsOk f o = true) : allValsOk g o = true := by
  cases o with
  | none => rfl
  | some v =>
    cases v with
    | obj ps => exact all_mono_mem ps (h ps rfl) ho
    | null => rfl
    | bool b => rfl
    | num m => rfl
    | str t => rfl
    | arr l => rfl

/-- pointwise implication through the mapping-values check. -/
theorem allValsOk_mono (f g : String × JVal → Bool)
    (hfg : ∀ kv, f kv = true → g kv = true)
    (o : Option JVal) (ho : allValsOk f o = true) : allValsOk g o = true :=
  allValsOk_mono_mem f g o (fun _ _ kv _ => hfg kv) ho

/-- pointwise implication through the `items` check, needed only at the
checked value. -/
theorem itemOk_mono_mem (f g : JVal → Bool) (o : Option JVal)
    (h : ∀ it, o = some it → f it = true → g it = true)
    (ho : itemOk f o = true) : itemOk g o = true := by
  cases o with
  | none => rfl
  | some it =>
    show (!pyTruthy it || g it) = true
    have ho2 : (!pyTruthy it || f it) = true := ho
    rw [Bool.or_eq_true] at ho2 ⊢
    rcases ho2 with h2 | h2
    · exact Or.inl h2
    · exact Or.inr (h it rfl h2)

/-- pointwise implication through the union-member check, needed only at
the members. -/
theorem uniMembersOk_mono_mem (f g : JVal → Bool) (s : JObj)
    (h1 : ∀ ms, getKey s "anyOf" = some (.arr ms) → ∀ w ∈ ms, f w = true → g w = true)
    (h2 : ∀ ms, getKey s "oneOf" = some (.arr ms) → ∀ w ∈ ms, f w = true → g w = true)
    (hs : uniMembersOk f s = true) : uniMembersOk g s = true := by
  unfold uniMembersOk at hs ⊢
  rw [Bool.and_eq_true] at hs ⊢
  exact ⟨allArrOk_mono_mem f g _ h1 hs.1, allArrOk_mono_mem f g _ h2 hs.2⟩

/-- pointwise implication through the union-member check. -/
theorem uniMembersOk_mono {f g : JVal → Bool} (hfg : ∀ v, f v = true → g v = true)
    (s : JObj) (hs : uniMembersOk f s = true) : uniMembersOk g s = true :=
  uniMembersOk_mono_mem f g s (fun _ _ w _ => hfg w) (fun _ _ w _ => hfg w) hs

/-- every tree has positive size. -/
theorem sz_pos (v : JVal) : 0 < sz v := by
  cases v <;> simp [sz]

/-- an entry value is bounded by the summed value size. -/
theorem mem_szObj (o : JObj) : ∀ kv : String × JVal, kv ∈ o → sz kv.2 ≤ szObj o := by
  induction o with
  | nil => intro kv h; cases h
  | cons a rest ih =>
    intro kv h
    obtain ⟨k, v⟩ := a
    rcases List.mem_cons.mp h with h1 | h2
    · subst h1
      simp [szObj]
    · have := ih kv h2
      simp only [szObj]
      omega

/-- a list member is bounded by the summed list size. -/
theorem mem_szList (l : List JVal) : ∀ v : JVal, v ∈ l → sz v ≤ szList l := by
  induction l with
  | nil => intro v h; cases h
  | cons a rest ih =>
    intro v h
    rcases List.mem_cons.mp h with h1 | h2
    · subst h1
      simp [szList]
    · have := ih v h2
      simp only [szList]
      omega

/-- a lookup result is bounded by the summed value size. -/
theorem getKey_sz (o : JObj) (k : String) (v : JVal) (h : getKey o k = some v) :
    sz v ≤ szObj o :=
  mem_szObj o (k, v) (getKey_mem o k v h)

/-- keys other than `default` survive the `default`-popping stage. -/
theorem getKey_defaultStage (s : JObj) (k : String) (h : k ≠ "default") :
    getKey (if hasKey s "default" then popKey s "default" else s) k = getKey s k := by
  split
  · exact getKey_popKey_ne _ _ _ h
  · rfl

/-- keys that are neither strict-incompatible nor `description` survive the
notes step. -/
theorem tfNoteStep_getKey (s : JObj) (k : String)
    (h1 : k ∉ strictIncompatibleKeys) (h2 : k ≠ "description") :
    getKey (tfNoteStep s) k = getKey s k := by
  simp only [tfNoteStep]
  rw [getKey_setKey_ne _ _ _ _ h2]
  exact getKey_foldl_popKey_not_mem _ _ _ (fun hm => h1 (List.mem_of_mem_filter hm))

/-- keys that are neither strict-incompatible nor `description` survive the
guarded notes stage. -/
theorem getKey_noteStage (s : JObj) (k : String)
    (h1 : k ∉ strictIncompatibleKeys) (h2 : k ≠ "description") :
    getKey (if (strictIncompatibleKeys.filter (hasKey s)).isEmpty then s else tfNoteStep s) k
      = getKey s k := by
  split
  · rfl
  · exact tfNoteStep_getKey s k h1 h2

/-- after the guarded notes stage no strict-incompatible key remains. -/
theorem noteStage_incompat (s : JObj) (k : String) (h : k ∈ strictIncompatibleKeys) :
    getKey (if (strictIncompatibleKeys.filter (hasKey s)).isEmpty then s else tfNoteStep s) k
      = none := by
  by_cases hcase : (strictIncompatibleKeys.filter (hasKey s)).isEmpty = true
  case pos =>
    rw [if_pos hcase]
    have : hasKey s k = false := by
      rw [List.isEmpty_iff] at hcase
      by_contra hcon
      have : k ∈ strictIncompatibleKeys.filter (hasKey s) :=
        List.mem_filter.mpr ⟨h, by revert hcon; cases hasKey s k <;> simp⟩
      rw [hcase] at this
      cases this
    unfold hasKey at this
    cases hget : getKey s k with
    | none => rfl
    | some v => rw [hget] at this; cases this
  case neg =>
    rw [if_neg hcase]
    simp only [tfNoteStep]
    have hdesc : k ≠ "description" := by
      intro he
      subst he
      revert h
      decide
    rw [getKey_setKey_ne _ _ _ _ hdesc]
    cases hget : getKey s k with
    | none =>
      rw [getKey_foldl_popKey_not_mem _ _ _ ?_]
      · exact hget
      · intro hm
        have := List.mem_filter.mp hm
        unfold hasKey at this
        rw [hget] at this
        cases this.2
    | some v =>
      apply getKey_foldl_popKey_mem
      exact List.mem_filter.mpr ⟨h, by unfold hasKey; rw [hget]; rfl⟩

/-- keys other than `oneOf` and `anyOf` survive the `oneOf` move. -/
theorem tfOneOfStep_getKey (s : JObj) (k : String)
    (h1 : k ≠ "oneOf") (h2 : k ≠ "anyOf") :
    getKey (tfOneOfStep s) k = getKey s k := by
  simp only [tfOneOfStep]
  rw [getKey_setKey_ne _ _ _ _ h2, getKey_popKey_ne _ _ _ h1]

/-- keys other than `oneOf` and `anyOf` survive the guarded `oneOf`
stage. -/
theorem getKey_oneOfStage (s : JObj) (k : String)
    (h1 : k ≠ "oneOf") (h2 : k ≠ "anyOf") :
    getKey (if hasKey s "oneOf" then tfOneOfStep s else s) k = getKey s k := by
  split
  · exact tfOneOfStep_getKey s k h1 h2
  · rfl

/-- the guarded `oneOf` stage leaves no `oneOf` key. -/
theorem oneOfStage_oneOf (s : JObj) :
    getKey (if hasKey s "oneOf" then tfOneOfStep s else s) "oneOf" = none := by
  by_cases hcase : hasKey s "oneOf" = true
  case pos =>
    rw [if_pos hcase]
    simp only [tfOneOfStep]
    rw [getKey_setKey_ne _ _ _ _ (by decide), getKey_popKey_self]
  case neg =>
    rw [if_neg hcase]
    unfold hasKey at hcase
    cases hget : getKey s "oneOf" with
    | none => rfl
    | some v => rw [hget] at hcase; simp at hcase

/-- when `oneOf` is present its value lands on `anyOf`. -/
theorem oneOfStage_anyOf_of (s : JObj) (v : JVal) (h : getKey s "oneOf" = some v) :
    getKey (if hasKey s "oneOf" then tfOneOfStep s else s) "anyOf" = some v := by
  rw [if_pos (by unfold hasKey; rw [h]; rfl)]
  simp only [tfOneOfStep]
  rw [getKey_setKey_self, h]
  rfl

/-- when `oneOf` is absent the stage does nothing. -/
theorem oneOfStage_none (s : JObj) (h : getKey s "oneOf" = none) :
    (if hasKey s "oneOf" then tfOneOfStep s else s) = s := by
  rw [if_neg]
  unfold hasKey
  rw [h]
  simp

/-- keys other than the three object-shape keys survive the object
enforcement. -/
theorem objEnforce_getKey (s : JObj) (k : String)
    (h1 : k ≠ "additionalProperties") (h2 : k ≠ "properties") (h3 : k ≠ "required") :
    getKey (objEnforce s) k = getKey s k := by
  simp only [objEnforce]
  split
  · rw [getKey_setKey_ne _ _ _ _ h3, getKey_setKey_ne _ _ _ _ h1]
  · rw [getKey_setKey_ne _ _ _ _ h1]
  · rw [getKey_setKey_ne _ _ _ _ h3, getKey_setKey_ne _ _ _ _ h2,
      getKey_setKey_ne _ _ _ _ h1]

/-- the object enforcement establishes the closed-object shape. -/
theorem objEnforce_objShapeOk (s : JObj) : objShapeOk (objEnforce s) = true := by
  simp only [objEnforce]
  cases hp : getKey (setKey s "additionalProperties" (.bool false)) "properties" with
  | none =>
    unfold objShapeOk
    rw [getKey_setKey_ne _ _ _ _ (by decide), getKey_setKey_ne _ _ _ _ (by decide),
      getKey_setKey_self]
    rw [getKey_setKey_ne _ _ _ _ (by decide), getKey_setKey_self, getKey_setKey_self]
    simp [keysOf]
  | some pv =>
    cases pv with
    | obj ps =>
      unfold objShapeOk
      rw [getKey_setKey_ne _ _ _ _ (by decide), getKey_setKey_self]
      rw [getKey_setKey_ne _ _ _ _ (by decide), hp, getKey_setKey_self]
      simp
    | null =>
      unfold objShapeOk
      rw [getKey_setKey_self, hp]
      simp
    | bool b =>
      unfold objShapeOk
      rw [getKey_setKey_self, hp]
      simp
    | num m =>
      unfold objShapeOk
      rw [getKey_setKey_self, hp]
      simp
    | str t =>
      unfold objShapeOk
      rw [getKey_setKey_self, hp]
      simp
    | arr l =>
      unfold objShapeOk
      rw [getKey_setKey_self, hp]
      simp

/-- the object enforcement transports a properties-values check: the
rewritten node's `properties` either is the original mapping or the freshly
created empty one. -/
theorem objEnforce_propsCheck (s : JObj) (f : String × JVal → Bool)
    (h : ∀ ps, getKey s "properties" = some (.obj ps) → ps.all f = true) :
    allValsOk f (getKey (objEnforce s) "properties") = true := by
  simp only [objEnforce]
  have hprops : getKey (setKey s "additionalProperties" (.bool false)) "properties"
      = getKey s "properties" := getKey_setKey_ne _ _ _ _ (by decide)
  cases hp : getKey (setKey s "additionalProperties" (.bool false)) "properties" with
  | none =>
    rw [getKey_setKey_ne _ _ _ _ (by decide), getKey_setKey_self]
    simp [allValsOk]
  | some pv =>
    cases pv with
    | obj ps =>
      rw [getKey_setKey_ne _ _ _ _ (by decide), hp]
      exact h ps (hprops ▸ hp)
    | null => rw [hp]; rfl
    | bool b => rw [hp]; rfl
    | num m => rw [hp]; rfl
    | str t => rw [hp]; rfl
    | arr l => rw [hp]; rfl

/-- a member-list check from a hypothesis on list values only. -/
theorem allArrOk_of (f : JVal → Bool) (o : Option JVal)
    (h : ∀ ms, o = some (.arr ms) → ms.all f = true) : allArrOk f o = true := by
  cases o with
  | none => rfl
  | some v =>
    cases v with
    | arr ms => exact h ms rfl
    | null => rfl
    | bool b => rfl
    | num m => rfl
    | str t => rfl
    | obj o2 => rfl

/-- a mapping-values check from a hypothesis on mapping values only. -/
theorem allValsOk_of (f : String × JVal → Bool) (o : Option JVal)
    (h : ∀ ps, o = some (.obj ps) → ps.all f = true) : allValsOk f o = true := by
  cases o with
  | none => rfl
  | some v =>
    cases v with
    | obj ps => exact h ps rfl
    | null => rfl
    | bool b => rfl
    | num m => rfl
    | str t => rfl
    | arr l => rfl

/-- inversion of a map against a successful result. -/
theorem mapE_eq_ok {α β : Type} {x : Except WalkErr α} {f : α → β} {b : β} :
    (x.map f) = .ok b ↔ ∃ a, x = .ok a ∧ f a = b := by
  cases x with
  | ok a => simp [Except.map]
  | error e => simp [Except.map]

/-- presence of a key is untouched by removing a different key. -/
theorem hasKey_popKey_ne (o : JObj) (k k2 : String) (h : k ≠ k2) :
    hasKey (popKey o k2) k = hasKey o k := by
  unfold hasKey
  rw [getKey_popKey_ne _ _ _ h]

/-- presence of a key is untouched by assigning a different key. -/
theorem hasKey_setKey_ne (o : JObj) (k k2 : String) (v : JVal) (h : k ≠ k2) :
    hasKey (setKey o k2 v) k = hasKey o k := by
  unfold hasKey
  rw [getKey_setKey_ne _ _ _ _ h]

/-- presence of a key survives a fold of pops over other keys. -/
theorem hasKey_foldl_popKey_not_mem (keys : List String) (o : JObj) (k : String)
    (h : k ∉ keys) : hasKey (keys.foldl popKey o) k = hasKey o k := by
  unfold hasKey
  rw [getKey_foldl_popKey_not_mem _ _ _ h]

/-- destructuring of `plainTree` on a mapping. -/
theorem plainTree_obj_iff (s : JObj) :
    plainTree (.obj s) = true
      ↔ hasKey s "$ref" = false ∧ hasKey s "$defs" = false ∧ plainVals s = true := by
  show (!hasKey s "$ref" && !hasKey s "$defs" && plainVals s) = true ↔ _
  cases hasKey s "$ref" <;> cases hasKey s "$defs" <;> cases plainVals s <;> simp

/-- every value of a plain association list is plain. -/
theorem plainVals_mem (o : JObj) : ∀ kv : String × JVal, kv ∈ o →
    plainVals o = true → plainTree kv.2 = true := by
  induction o with
  | nil => intro kv h; cases h
  | cons a rest ih =>
    intro kv h hp
    obtain ⟨k, v⟩ := a
    have hp2 : plainTree v = true ∧ plainVals rest = true := by
      have : (plainTree v && plainVals rest) = true := hp
      rw [Bool.and_eq_true] at this
      exact this
    rcases List.mem_cons.mp h with h1 | h2
    · subst h1
      exact hp2.1
    · exact ih kv h2 hp2.2

/-- every member of a plain list is plain. -/
theorem plainList_mem (l : List JVal) : ∀ v : JVal, v ∈ l →
    plainList l = true → plainTree v = true := by
  induction l with
  | nil => intro v h; cases h
  | cons a rest ih =>
    intro v h hp
    have hp2 : plainTree a = true ∧ plainList rest = true := by
      have : (plainTree a && plainList rest) = true := hp
      rw [Bool.and_eq_true] at this
      exact this
    rcases List.mem_cons.mp h with h1 | h2
    · subst h1
      exact hp2.1
    · exact ih v h2 hp2.2

/-- a looked-up value of a plain mapping node is plain. -/
theorem plainTree_getKey (s : JObj) (k : String) (v : JVal)
    (hp : plainTree (.obj s) = true) (h : getKey s k = some v) : plainTree v = true :=
  plainVals_mem s (k, v) (getKey_mem s k v h) ((plainTree_obj_iff s).mp hp).2.2

/-- plainness of values survives removing a key. -/
theorem plainVals_popKey (o : JObj) (k : String) (h : plainVals o = true) :
    plainVals (popKey o k) = true := by
  induction o with
  | nil => rfl
  | cons a rest ih =>
    obtain ⟨k2, v⟩ := a
    have hp2 : plainTree v = true ∧ plainVals rest = true := by
      have : (plainTree v && plainVals rest) = true := h
      rw [Bool.and_eq_true] at this
      exact this
    by_cases h2 : k2 = k
    · show plainVals (if k2 = k then popKey rest k else (k2, v) :: popKey rest k) = true
      rw [if_pos h2]
      exact ih hp2.2
    · show plainVals (if k2 = k then popKey rest k else (k2, v) :: popKey rest k) = true
      rw [if_neg h2]
      show (plainTree v && plainVals (popKey rest k)) = true
      rw [Bool.and_eq_true]
      exact ⟨hp2.1, ih hp2.2⟩

/-- plainness of values survives a fold of pops. -/
theorem plainVals_foldl_popKey (keys : List String) : ∀ (o : JObj),
    plainVals o = true → plainVals (keys.foldl popKey o) = true := by
  induction keys with
  | nil => intro o h; exact h
  | cons a rest ih =>
    intro o h
    rw [List.foldl_cons]
    exact ih _ (plainVals_popKey o a h)

/-- plainness of values survives assigning a plain value. -/
theorem plainVals_setKey (o : JObj) (k : String) (v : JVal)
    (h : plainVals o = true) (hv : plainTree v = true) :
    plainVals (setKey o k v) = true := by
  induction o with
  | nil =>
    show (plainTree v && plainVals []) = true
    rw [Bool.and_eq_true]
    exact ⟨hv, rfl⟩
  | cons a rest ih =>
    obtain ⟨k2, w⟩ := a
    have hp2 : plainTree w = true ∧ plainVals rest = true := by
      have : (plainTree w && plainVals rest) = true := h
      rw [Bool.and_eq_true] at this
      exact this
    by_cases h2 : k2 = k
    · show plainVals (if k2 = k then (k, v) :: rest else (k2, w) :: setKey rest k v) = true
      rw [if_pos h2]
      show (plainTree v && plainVals rest) = true
      rw [Bool.and_eq_true]
      exact ⟨hv, hp2.2⟩
    · show plainVals (if k2 = k then (k, v) :: rest else (k2, w) :: setKey rest k v) = true
      rw [if_neg h2]
      show (plainTree w && plainVals (setKey rest k v)) = true
      rw [Bool.and_eq_true]
      exact ⟨hp2.1, ih hp2.2⟩

/-- a plain mapping node stays plain under assigning a plain value to a key
other than `$ref` and `$defs`. -/
theorem plainTree_setKey (s : JObj) (k : String) (v : JVal)
    (h1 : k ≠ "$ref") (h2 : k ≠ "$defs")
    (hp : plainTree (.obj s) = true) (hv : plainTree v = true) :
    plainTree (.obj (setKey s k v)) = true := by
  obtain ⟨hr, hd, hvs⟩ := (plainTree_obj_iff s).mp hp
  refine (plainTree_obj_iff _).mpr ⟨?_, ?_, plainVals_setKey s k v hvs hv⟩
  · rw [hasKey_setKey_ne _ _ _ _ (fun he => h1 he.symm)]
    exact hr
  · rw [hasKey_setKey_ne _ _ _ _ (fun he => h2 he.symm)]
    exact hd

/-- a plain mapping node stays plain under removing a key. -/
theorem plainTree_popKey (s : JObj) (k : String)
    (hp : plainTree (.obj s) = true) : plainTree (.obj (popKey s k)) = true := by
  obtain ⟨hr, hd, hvs⟩ := (plainTree_obj_iff s).mp hp
  refine (plainTree_obj_iff _).mpr ⟨?_, ?_, plainVals_popKey s k hvs⟩
  · by_cases he : "$ref" = k
    · subst he
      unfold hasKey
      rw [getKey_popKey_self]
      rfl
    · rw [hasKey_popKey_ne _ _ _ he]
      exact hr
  · by_cases he : "$defs" = k
    · subst he
      unfold hasKey
      rw [getKey_popKey_self]
      rfl
    · rw [hasKey_popKey_ne _ _ _ he]
      exact hd

/-- a list of strings is a plain list. -/
theorem plainList_map_str (l : List String) : plainList (l.map .str) = true := by
  induction l with
  | nil => rfl
  | cons a rest ih =>
    show (plainTree (.str a) && plainList (rest.map .str)) = true
    rw [Bool.and_eq_true]
    exact ⟨rfl, ih⟩

/-! Monotonicity and saturation of the fixed-point invariant. -/

/-- the second factor of `enfOkF` on a mapping node is `preEnfF`. -/
theorem enfOkF_succ_obj (n : Nat) (s : JObj) :
    enfOkF (n+1) (.obj s) = (tfFixed s && preEnfF n s) := rfl

/-- pointwise implication through the non-singleton member check, needed
only at the members. -/
theorem uniEnfOk_mono_mem (f g : JVal → Bool) (o : Option JVal)
    (h : ∀ ms, o = some (.arr ms) → ∀ w ∈ ms, f w = true → g w = true)
    (ho : uniEnfOk f o = true) : uniEnfOk g o = true := by
  cases o with
  | none => rfl
  | some v =>
    cases v with
    | arr ms =>
      have ho2 : (decide (ms.length ≠ 1) && ms.all f) = true := ho
      rw [Bool.and_eq_true] at ho2
      show (decide (ms.length ≠ 1) && ms.all g) = true
      rw [Bool.and_eq_true]
      exact ⟨ho2.1, all_mono_mem ms (h ms rfl) ho2.2⟩
    | null => rfl
    | bool b => rfl
    | num m => rfl
    | str t => rfl
    | obj o2 => rfl

/-- fuel step for `preEnfF` with the implication available only at the
child positions the predicate inspects. -/
theorem preEnfF_mono_pos (n m : Nat) (s : JObj)
    (hp : ∀ ps, getKey s "properties" = some (.obj ps) →
      ∀ kv ∈ ps, enfOkF n kv.2 = true → enfOkF m kv.2 = true)
    (hpre : ∀ ms, getKey s "prefixItems" = some (.arr ms) →
      ∀ w ∈ ms, enfOkF n w = true → enfOkF m w = true)
    (hit : ∀ it, getKey s "items" = some it → enfOkF n it = true → enfOkF m it = true)
    (hany : ∀ ms, getKey s "anyOf" = some (.arr ms) →
      ∀ w ∈ ms, enfOkF n w = true → enfOkF m w = true)
    (hone : ∀ ms, getKey s "oneOf" = some (.arr ms) →
      ∀ w ∈ ms, enfOkF n w = true → enfOkF m w = true)
    (h : preEnfF n s = true) : preEnfF m s = true := by
  unfold preEnfF at h ⊢
  by_cases ho : getKey s "type" = some (.str "object")
  · rw [if_pos ho] at h ⊢
    exact allValsOk_mono_mem _ _ _ hp h
  · rw [if_neg ho] at h ⊢
    by_cases ha : getKey s "type" = some (.str "array")
    · rw [if_pos ha] at h ⊢
      rw [Bool.and_eq_true] at h ⊢
      exact ⟨allArrOk_mono_mem _ _ _ hpre h.1, itemOk_mono_mem _ _ _ hit h.2⟩
    · rw [if_neg ha] at h ⊢
      by_cases hu : getKey s "type" = none ∨ getKey s "type" = some .null
      · rw [if_pos hu] at h ⊢
        rw [Bool.and_eq_true] at h ⊢
        exact ⟨uniEnfOk_mono_mem _ _ _ hany h.1, uniEnfOk_mono_mem _ _ _ hone h.2⟩
      · rw [if_neg hu]

/-- `preEnfF` is monotone in the fuel, given monotonicity of `enfOkF` one
level down. -/
theorem preEnfF_mono_of (n m : Nat) (hmono : ∀ v, enfOkF n v = true → enfOkF m v = true)
    (s : JObj) (h : preEnfF n s = true) : preEnfF m s = true :=
  preEnfF_mono_pos n m s (fun _ _ kv _ => hmono kv.2) (fun _ _ w _ => hmono w)
    (fun it _ => hmono it) (fun _ _ w _ => hmono w) (fun _ _ w _ => hmono w) h

/-- the fixed-point invariant is monotone in the fuel. -/
theorem enfOkF_mono : ∀ (n m : Nat), n ≤ m → ∀ v, enfOkF n v = true → enfOkF m v = true := by
  intro n
  induction n with
  | zero =>
    intro m _ v h
    simp [enfOkF] at h
  | succ n ih =>
    intro m hm v h
    obtain ⟨m', rfl⟩ : ∃ m', m = m' + 1 := ⟨m - 1, by omega⟩
    have hm' : n ≤ m' := by omega
    cases v with
    | obj s =>
      rw [enfOkF_succ_obj] at h ⊢
      rw [Bool.and_eq_true] at h ⊢
      exact ⟨h.1, preEnfF_mono_of n m' (ih m' hm') s h.2⟩
    | null => rfl
    | bool b => rfl
    | num m2 => rfl
    | str t => rfl
    | arr l => rfl

/-- the fixed-point invariant saturates at the tree's own size. -/
theorem enfOkF_sz : ∀ (n : Nat) (v : JVal), enfOkF n v = true → enfOkF (sz v) v = true := by
  intro n
  induction n with
  | zero =>
    intro v h
    simp [enfOkF] at h
  | succ n ih =>
    intro v h
    cases v with
    | null => simp [sz, enfOkF]
    | bool b => simp [sz, enfOkF]
    | num m => simp [sz, enfOkF]
    | str t => simp [sz, enfOkF]
    | arr l =>
      show enfOkF (1 + szList l) (.arr l) = true
      rw [Nat.add_comm]
      rfl
    | obj s =>
      show enfOkF (1 + szObj s) (.obj s) = true
      rw [Nat.add_comm, enfOkF_succ_obj]
      rw [enfOkF_succ_obj] at h
      rw [Bool.and_eq_true] at h ⊢
      refine ⟨h.1, ?_⟩
      refine preEnfF_mono_pos n (szObj s) s ?_ ?_ ?_ ?_ ?_ h.2
      · intro ps hps kv hkv hv
        have hb : sz (JVal.obj ps) ≤ szObj s := getKey_sz _ _ _ hps
        have hm := mem_szObj ps kv hkv
        simp only [sz] at hb
        exact enfOkF_mono (sz kv.2) (szObj s) (by omega) kv.2 (ih kv.2 hv)
      · intro ms hms w hw hv
        have hb : sz (JVal.arr ms) ≤ szObj s := getKey_sz _ _ _ hms
        have hm := mem_szList ms w hw
        simp only [sz] at hb
        exact enfOkF_mono (sz w) (szObj s) (by omega) w (ih w hv)
      · intro it hit hv
        have hb : sz it ≤ szObj s := getKey_sz _ _ _ hit
        exact enfOkF_mono (sz it) (szObj s) hb it (ih it hv)
      · intro ms hms w hw hv
        have hb : sz (JVal.arr ms) ≤ szObj s := getKey_sz _ _ _ hms
        have hm := mem_szList ms w hw
        simp only [sz] at hb
        exact enfOkF_mono (sz w) (szObj s) (by omega) w (ih w hv)
      · intro ms hms w hw hv
        have hb : sz (JVal.arr ms) ≤ szObj s := getKey_sz _ _ _ hms
        have hm := mem_szList ms w hw
        simp only [sz] at hb
        exact enfOkF_mono (sz w) (szObj s) (by omega) w (ih w hv)

/-- any fuel that makes the fixed-point invariant true certifies
`enfOkAt`. -/
theorem enfOkAt_of (n : Nat) (v : JVal) (h : enfOkF n v = true) : enfOkAt v = true :=
  enfOkF_sz n v h

/-! The Enforce transform on `$ref`-free nodes: establishing and keeping
the fixed point. -/

/-- an absent key seen through Python `get`. -/
theorem getPy_none_of (o : JObj) (k : String) (h : getKey o k = none) :
    getPy o k = none := by
  unfold getPy
  rw [h]

/-- an absent key from the presence test. -/
theorem getKey_none_of (o : JObj) (k : String) (h : hasKey o k = false) :
    getKey o k = none := by
  unfold hasKey at h
  cases hg : getKey o k with
  | none => rfl
  | some v => rw [hg] at h; cases h

/-- the ref step does nothing without a (non-null) `$ref`. -/
theorem tfRefStep_none (rootRef : Option JVal) (s : JObj)
    (h : getPy s "$ref" = none) : tfRefStep rootRef s = s := by
  simp only [tfRefStep, h]

/-- a filter by presence of absent keys is empty. -/
theorem filter_isEmpty_of (keys : List String) (o : JObj)
    (h : ∀ k ∈ keys, hasKey o k = false) :
    (keys.filter (hasKey o)).isEmpty = true := by
  rw [List.isEmpty_iff, List.filter_eq_nil_iff]
  intro k hk
  rw [h k hk]
  exact Bool.false_ne_true

/-- destructuring of `tfFixed`. -/
theorem tfFixed_parts (s : JObj) (h : tfFixed s = true) :
    hasKey s "title" = false ∧ hasKey s "$schema" = false
    ∧ hasKey s "discriminator" = false ∧ hasKey s "default" = false
    ∧ hasKey s "$ref" = false
    ∧ (strictIncompatibleKeys.filter (hasKey s)).isEmpty = true
    ∧ hasKey s "oneOf" = false
    ∧ (getKey s "type" = some (.str "object") → objShapeOk s = true) := by
  unfold tfFixed at h
  simp only [Bool.and_eq_true, Bool.not_eq_true'] at h
  obtain ⟨⟨⟨⟨⟨⟨⟨h1, h2⟩, h3⟩, h4⟩, h5⟩, h6⟩, h7⟩, h8⟩ := h
  refine ⟨h1, h2, h3, h4, h5, h6, h7, fun ht => ?_⟩
  rw [Bool.or_eq_true] at h8
  rcases h8 with h8 | h8
  · rw [Bool.not_eq_true', beq_eq_false_iff_ne] at h8
    exact absurd ht h8
  · exact h8

/-- a transform-fixed object-typed node is unchanged by the object
enforcement. -/
theorem objEnforce_fixed (s : JObj) (hshape : objShapeOk s = true) :
    objEnforce s = s := by
  unfold objShapeOk at hshape
  rw [Bool.and_eq_true] at hshape
  have haddp : getKey s "additionalProperties" = some (.bool false) := by
    have := hshape.1
    rw [beq_iff_eq] at this
    exact this
  have hset1 : setKey s "additionalProperties" (.bool false) = s :=
    setKey_same _ _ _ haddp
  simp only [objEnforce, hset1]
  have h2 := hshape.2
  cases hp : getKey s "properties" with
  | none => rw [hp] at h2; cases h2
  | some pv =>
    rw [hp] at h2
    cases pv with
    | obj ps =>
      have hreq : getKey s "required" = some (.arr ((keysOf ps).map .str)) := by
        rw [beq_iff_eq] at h2
        exact h2
      exact setKey_same _ _ _ hreq
    | null => rfl
    | bool b => rfl
    | num m => rfl
    | str t => rfl
    | arr l => rfl

/-- the Enforce transform leaves a transform-fixed node unchanged. -/
theorem tfEnforceFn_fixed (rootRef : Option JVal) (s : JObj)
    (h : tfFixed s = true) : tfEnforceFn rootRef s = s := by
  obtain ⟨h1, h2, h3, h4, h5, h6, h7, h8⟩ := tfFixed_parts s h
  have hdrop : tfDropKeys s = s := by
    unfold tfDropKeys
    rw [popKey_absent s "title" (getKey_none_of _ _ h1),
      popKey_absent s "$schema" (getKey_none_of _ _ h2),
      popKey_absent s "discriminator" (getKey_none_of _ _ h3)]
  simp only [tfEnforceFn, hdrop]
  rw [h4]
  simp only [Bool.false_eq_true, if_false]
  rw [tfRefStep_none rootRef s (getPy_none_of _ _ (getKey_none_of _ _ h5))]
  rw [if_pos h6]
  rw [h7]
  simp only [Bool.false_eq_true, if_false]
  by_cases ht : getKey s "type" = some (.str "object")
  · rw [if_pos ht]
    exact objEnforce_fixed s (h8 ht)
  · rw [if_neg ht]

/-- absence of a key from an empty lookup. -/
theorem hasKey_none_of (o : JObj) (k : String) (h : getKey o k = none) :
    hasKey o k = false := by
  unfold hasKey
  rw [h]
  rfl

/-- the `default`-popping stage leaves no `default` key. -/
theorem getKey_defaultStage_default (s : JObj) :
    getKey (if hasKey s "default" then popKey s "default" else s) "default" = none := by
  by_cases hd : hasKey s "default" = true
  · rw [if_pos hd, getKey_popKey_self]
  · rw [if_neg hd]
    exact getKey_none_of s "default" (by revert hd; cases hasKey s "default" <;> simp)

/-- no strict-incompatible keyword is one of the specially treated keys. -/
theorem incompat_keys_ne : ∀ k ∈ strictIncompatibleKeys,
    k ≠ "additionalProperties" ∧ k ≠ "properties" ∧ k ≠ "required"
    ∧ k ≠ "oneOf" ∧ k ≠ "anyOf" := by decide

/-- on a node without `$ref`, the Enforce transform output satisfies the
fixed-point invariant as soon as the child positions do: the rewrite pops
everything `tfFixed` forbids, enforces the object shape, adds no `$ref`,
and transports the child invariants (no ref wrapper can appear). -/
theorem enfOkF_tfEnforceFn (rootRef : Option JVal) (n : Nat) (s : JObj)
    (href : hasKey s "$ref" = false) (h : preEnfF n s = true) :
    enfOkF (n+1) (.obj (tfEnforceFn rootRef s)) = true := by
  rw [enfOkF_succ_obj, Bool.and_eq_true]
  simp only [tfEnforceFn]
  set s1 := tfDropKeys s with hs1
  set s2 := if hasKey s1 "default" then popKey s1 "default" else s1 with hs2
  set s3 := tfRefStep rootRef s2 with hs3
  have keep21 : ∀ k : String, k ≠ "default" → getKey s2 k = getKey s1 k := by
    intro k hk
    rw [hs2]
    exact getKey_defaultStage s1 k hk
  have keep1 : ∀ k : String, k ≠ "title" → k ≠ "$schema" → k ≠ "discriminator" →
      getKey s1 k = getKey s k := by
    intro k hk1 hk2 hk3
    rw [hs1]
    exact tfDropKeys_getKey s k hk1 hk2 hk3
  have h3eq : s3 = s2 := by
    rw [hs3]
    apply tfRefStep_none
    apply getPy_none_of
    rw [keep21 "$ref" (by decide), keep1 "$ref" (by decide) (by decide) (by decide)]
    exact getKey_none_of s "$ref" href
  rw [h3eq]
  set s4 := if (strictIncompatibleKeys.filter (hasKey s2)).isEmpty then s2
    else tfNoteStep s2 with hs4
  set s5 := if hasKey s4 "oneOf" then tfOneOfStep s4 else s4 with hs5
  have keep42 : ∀ k : String, k ∉ strictIncompatibleKeys → k ≠ "description" →
      getKey s4 k = getKey s2 k := by
    intro k hk1 hk2
    rw [hs4]
    exact getKey_noteStage s2 k hk1 hk2
  have keep54 : ∀ k : String, k ≠ "oneOf" → k ≠ "anyOf" → getKey s5 k = getKey s4 k := by
    intro k hk1 hk2
    rw [hs5]
    exact getKey_oneOfStage s4 k hk1 hk2
  have keep4s : ∀ k : String, k ≠ "title" → k ≠ "$schema" → k ≠ "discriminator" →
      k ≠ "default" → k ∉ strictIncompatibleKeys → k ≠ "description" →
      getKey s4 k = getKey s k := by
    intro k hk1 hk2 hk3 hk4 hk5 hk6
    rw [keep42 k hk5 hk6, keep21 k hk4, keep1 k hk1 hk2 hk3]
  have keep5s : ∀ k : String, k ≠ "title" → k ≠ "$schema" → k ≠ "discriminator" →
      k ≠ "default" → k ∉ strictIncompatibleKeys → k ≠ "description" →
      k ≠ "oneOf" → k ≠ "anyOf" → getKey s5 k = getKey s k := by
    intro k hk1 hk2 hk3 hk4 hk5 hk6 hk7 hk8
    rw [keep54 k hk7 hk8, keep4s k hk1 hk2 hk3 hk4 hk5 hk6]
  have htype4 : getKey s4 "type" = getKey s "type" :=
    keep4s "type" (by decide) (by decide) (by decide) (by decide) (by decide) (by decide)
  have htype5 : getKey s5 "type" = getKey s "type" :=
    keep5s "type" (by decide) (by decide) (by decide) (by decide) (by decide) (by decide)
      (by decide) (by decide)
  have honeOf4 : getKey s4 "oneOf" = getKey s "oneOf" :=
    keep4s "oneOf" (by decide) (by decide) (by decide) (by decide) (by decide) (by decide)
  -- shared facts about the final node, for both `type` branches
  have houtTfFixed : ∀ o : JObj,
      (∀ k : String, k ≠ "additionalProperties" → k ≠ "properties" → k ≠ "required" →
        getKey o k = getKey s5 k) →
      (getKey o "type" = some (.str "object") → objShapeOk o = true) →
      tfFixed o = true := by
    intro o hkeep hshape
    have hkeepAll : ∀ k : String, k ≠ "additionalProperties" → k ≠ "properties" →
        k ≠ "required" → k ≠ "oneOf" → k ≠ "anyOf" → k ≠ "title" → k ≠ "$schema" →
        k ≠ "discriminator" → k ≠ "default" → k ∉ strictIncompatibleKeys →
        k ≠ "description" → getKey o k = getKey s k := by
      intro k ha hb hc hd he hf hg hh hi hj hl
      rw [hkeep k ha hb hc, keep5s k hf hg hh hi hj hl hd he]
    unfold tfFixed
    simp only [Bool.and_eq_true, Bool.not_eq_true']
    refine ⟨⟨⟨⟨⟨⟨⟨?_, ?_⟩, ?_⟩, ?_⟩, ?_⟩, ?_⟩, ?_⟩, ?_⟩
    · apply hasKey_none_of
      rw [hkeep "title" (by decide) (by decide) (by decide),
        keep54 "title" (by decide) (by decide), keep42 "title" (by decide) (by decide),
        keep21 "title" (by decide), hs1]
      exact (tfDropKeys_dropped s).1
    · apply hasKey_none_of
      rw [hkeep "$schema" (by decide) (by decide) (by decide),
        keep54 "$schema" (by decide) (by decide), keep42 "$schema" (by decide) (by decide),
        keep21 "$schema" (by decide), hs1]
      exact (tfDropKeys_dropped s).2.1
    · apply hasKey_none_of
      rw [hkeep "discriminator" (by decide) (by decide) (by decide),
        keep54 "discriminator" (by decide) (by decide),
        keep42 "discriminator" (by decide) (by decide),
        keep21 "discriminator" (by decide), hs1]
      exact (tfDropKeys_dropped s).2.2
    · apply hasKey_none_of
      rw [hkeep "default" (by decide) (by decide) (by decide),
        keep54 "default" (by decide) (by decide), keep42 "default" (by decide) (by decide),
        hs2]
      exact getKey_defaultStage_default s1
    · apply hasKey_none_of
      rw [hkeepAll "$ref" (by decide) (by decide) (by decide) (by decide) (by decide)
        (by decide) (by decide) (by decide) (by decide) (by decide) (by decide)]
      exact getKey_none_of s "$ref" href
    · apply filter_isEmpty_of
      intro k hk
      obtain ⟨ha, hb, hc, hd, he⟩ := incompat_keys_ne k hk
      apply hasKey_none_of
      rw [hkeep k ha hb hc, keep54 k hd he, hs4]
      exact noteStage_incompat s2 k hk
    · apply hasKey_none_of
      rw [hkeep "oneOf" (by decide) (by decide) (by decide), hs5]
      exact oneOfStage_oneOf s4
    · by_cases hto : getKey o "type" = some (.str "object")
      · rw [Bool.or_eq_true]
        exact Or.inr (hshape hto)
      · rw [Bool.or_eq_true]
        left
        rw [Bool.not_eq_true', beq_eq_false_iff_ne]
        exact hto
  rw [htype4]
  by_cases ht : getKey s "type" = some (.str "object")
  · rw [if_pos ht]
    constructor
    · refine houtTfFixed (objEnforce s5)
        (fun k ha hb hc => objEnforce_getKey s5 k ha hb hc) (fun _ => ?_)
      exact objEnforce_objShapeOk s5
    · unfold preEnfF
      have htE : getKey (objEnforce s5) "type" = some (.str "object") := by
        rw [objEnforce_getKey s5 "type" (by decide) (by decide) (by decide), htype5]
        exact ht
      rw [htE, if_pos rfl]
      apply objEnforce_propsCheck
      intro ps hps
      rw [keep5s "properties" (by decide) (by decide) (by decide) (by decide) (by decide)
        (by decide) (by decide) (by decide)] at hps
      unfold preEnfF at h
      rw [if_pos ht, hps] at h
      exact h
  · rw [if_neg ht]
    constructor
    · refine houtTfFixed s5 (fun k _ _ _ => rfl) (fun hto => ?_)
      rw [htype5] at hto
      exact absurd hto ht
    · unfold preEnfF
      rw [htype5, if_neg ht]
      by_cases harr : getKey s "type" = some (.str "array")
      · rw [if_pos harr]
        unfold preEnfF at h
        rw [if_neg ht, if_pos harr] at h
        rw [Bool.and_eq_true] at h ⊢
        constructor
        · rw [keep5s "prefixItems" (by decide) (by decide) (by decide) (by decide)
            (by decide) (by decide) (by decide) (by decide)]
          exact h.1
        · rw [keep5s "items" (by decide) (by decide) (by decide) (by decide)
            (by decide) (by decide) (by decide) (by decide)]
          exact h.2
      · rw [if_neg harr]
        by_cases huni : getKey s "type" = none ∨ getKey s "type" = some .null
        · rw [if_pos huni]
          unfold preEnfF at h
          rw [if_neg ht, if_neg harr, if_pos huni] at h
          rw [Bool.and_eq_true] at h ⊢
          constructor
          · cases ho4 : getKey s4 "oneOf" with
            | some ov =>
              have hto : getKey s5 "anyOf" = some ov := by
                rw [hs5]
                exact oneOfStage_anyOf_of s4 ov ho4
              rw [hto]
              rw [honeOf4] at ho4
              have h2 := h.2
              rw [ho4] at h2
              exact h2
            | none =>
              have hs5eq : s5 = s4 := by
                rw [hs5]
                exact oneOfStage_none s4 ho4
              rw [hs5eq, keep4s "anyOf" (by decide) (by decide) (by decide) (by decide)
                (by decide) (by decide)]
              exact h.1
          · have hgone : getKey s5 "oneOf" = none := by
              rw [hs5]
              exact oneOfStage_oneOf s4
            rw [hgone]
            rfl
        · rw [if_neg huni]

/-- plainness survives a fold of pops at the node. -/
theorem plainTree_foldl_popKey (keys : List String) : ∀ (o : JObj),
    plainTree (.obj o) = true → plainTree (.obj (keys.foldl popKey o)) = true := by
  induction keys with
  | nil => intro o h; exact h
  | cons a rest ih =>
    intro o h
    rw [List.foldl_cons]
    exact ih _ (plainTree_popKey o a h)

/-- the Enforce transform preserves plainness: it only pops keys and
assigns plain values (`description` strings, the object-shape fields, the
moved `oneOf` value), and on a plain node the ref step does nothing. -/
theorem plainTree_tfEnforceFn (rootRef : Option JVal) (s : JObj)
    (hp : plainTree (.obj s) = true) :
    plainTree (.obj (tfEnforceFn rootRef s)) = true := by
  simp only [tfEnforceFn]
  set s1 := tfDropKeys s with hs1
  have hp1 : plainTree (.obj s1) = true := by
    rw [hs1]
    unfold tfDropKeys
    exact plainTree_popKey _ _ (plainTree_popKey _ _ (plainTree_popKey _ _ hp))
  set s2 := if hasKey s1 "default" then popKey s1 "default" else s1 with hs2
  have hp2 : plainTree (.obj s2) = true := by
    rw [hs2]
    by_cases hd : hasKey s1 "default" = true
    · rw [if_pos hd]
      exact plainTree_popKey _ _ hp1
    · rw [if_neg hd]
      exact hp1
  set s3 := tfRefStep rootRef s2 with hs3
  have h3eq : s3 = s2 := by
    rw [hs3]
    apply tfRefStep_none
    apply getPy_none_of
    exact getKey_none_of s2 "$ref" ((plainTree_obj_iff s2).mp hp2).1
  rw [h3eq]
  set s4 := if (strictIncompatibleKeys.filter (hasKey s2)).isEmpty then s2
    else tfNoteStep s2 with hs4
  have hp4 : plainTree (.obj s4) = true := by
    rw [hs4]
    by_cases hi : (strictIncompatibleKeys.filter (hasKey s2)).isEmpty = true
    · rw [if_pos hi]
      exact hp2
    · rw [if_neg hi]
      simp only [tfNoteStep]
      apply plainTree_setKey _ _ _ (by decide) (by decide)
      · exact plainTree_foldl_popKey _ _ hp2
      · rfl
  set s5 := if hasKey s4 "oneOf" then tfOneOfStep s4 else s4 with hs5
  have hp5 : plainTree (.obj s5) = true := by
    rw [hs5]
    by_cases ho : hasKey s4 "oneOf" = true
    · rw [if_pos ho]
      simp only [tfOneOfStep]
      apply plainTree_setKey _ _ _ (by decide) (by decide)
      · exact plainTree_popKey _ _ hp4
      · cases hg : getKey s4 "oneOf" with
        | none =>
          unfold hasKey at ho
          rw [hg] at ho
          cases ho
        | some ov =>
          show plainTree ((some ov).getD .null) = true
          exact plainTree_getKey s4 "oneOf" ov hp4 hg
    · rw [if_neg ho]
      exact hp4
  by_cases ht : getKey s4 "type" = some (.str "object")
  · rw [if_pos ht]
    simp only [objEnforce]
    have hpA : plainTree (.obj (setKey s5 "additionalProperties" (.bool false))) = true :=
      plainTree_setKey _ _ _ (by decide) (by decide) hp5 rfl
    cases hg : getKey (setKey s5 "additionalProperties" (.bool false)) "properties" with
    | none =>
      apply plainTree_setKey _ _ _ (by decide) (by decide)
      · apply plainTree_setKey _ _ _ (by decide) (by decide) hpA
        rfl
      · rfl
    | some pv =>
      cases pv with
      | obj ps =>
        apply plainTree_setKey _ _ _ (by decide) (by decide) hpA
        show plainTree (.arr ((keysOf ps).map .str)) = true
        exact plainList_map_str (keysOf ps)
      | null => exact hpA
      | bool b => exact hpA
      | num m => exact hpA
      | str t => exact hpA
      | arr l => exact hpA
  · rw [if_neg ht]
    exact hp5

/-- presence of a key is membership in the key list. -/
theorem hasKey_iff_mem_keysOf (o : JObj) (k : String) :
    hasKey o k = true ↔ k ∈ keysOf o := by
  induction o with
  | nil =>
    show (Option.none.isSome = true) ↔ k ∈ ([] : List String)
    simp
  | cons kv rest ih =>
    obtain ⟨k2, v⟩ := kv
    by_cases h2 : k2 = k
    · subst h2
      show ((if k2 = k2 then some v else getKey rest k2).isSome = true) ↔ _
      rw [if_pos rfl]
      simp [keysOf]
    · show ((if k2 = k then some v else getKey rest k).isSome = true) ↔ _
      rw [if_neg h2]
      show hasKey rest k = true ↔ _
      rw [ih]
      simp only [keysOf, List.map_cons, List.mem_cons]
      constructor
      · exact fun h => Or.inr h
      · intro h
        rcases h with h | h
        · exact absurd h.symm h2
        · exact h

/-- two association lists with the same key list agree on key presence. -/
theorem hasKey_congr_keysOf (o o2 : JObj) (h : keysOf o2 = keysOf o) (k : String) :
    hasKey o2 k = hasKey o k := by
  cases hh : hasKey o k with
  | true =>
    exact (hasKey_iff_mem_keysOf o2 k).mpr
      (by rw [h]; exact (hasKey_iff_mem_keysOf o k).mp hh)
  | false =>
    cases hh2 : hasKey o2 k with
    | false => rfl
    | true =>
      have hm := (hasKey_iff_mem_keysOf o2 k).mp hh2
      rw [h] at hm
      rw [(hasKey_iff_mem_keysOf o k).mpr hm] at hh
      cases hh

/-- a mapping value with plain values and the key list of a plain mapping
value is itself plain. -/
theorem plainTree_obj_of_vals (o orig : JObj) (hk : keysOf o = keysOf orig)
    (horig : plainTree (.obj orig) = true) (hv : plainVals o = true) :
    plainTree (.obj o) = true := by
  obtain ⟨hr, hd, _⟩ := (plainTree_obj_iff orig).mp horig
  refine (plainTree_obj_iff o).mpr ⟨?_, ?_, hv⟩
  · rw [hasKey_congr_keysOf orig o hk]
    exact hr
  · rw [hasKey_congr_keysOf orig o hk]
    exact hd

/-- the non-singleton member check from its two conditions. -/
theorem uniEnfOk_of_cases (f : JVal → Bool) (o : Option JVal)
    (h : ∀ ms, o = some (.arr ms) → ms.length ≠ 1 ∧ ms.all f = true) :
    uniEnfOk f o = true := by
  cases o with
  | none => rfl
  | some v =>
    cases v with
    | arr ms =>
      obtain ⟨h1, h2⟩ := h ms rfl
      show (decide (ms.length ≠ 1) && ms.all f) = true
      rw [Bool.and_eq_true, decide_eq_true_iff]
      exact ⟨h1, h2⟩
    | null => rfl
    | bool b => rfl
    | num m => rfl
    | str t => rfl
    | obj o2 => rfl

/-- an empty presence filter makes every filtered key absent. -/
theorem filter_isEmpty_all (keys : List String) (p : String → Bool)
    (h : (keys.filter p).isEmpty = true) : ∀ k ∈ keys, p k = false := by
  rw [List.isEmpty_iff, List.filter_eq_nil_iff] at h
  intro k hk
  cases hp : p k with
  | false => rfl
  | true => exact absurd hp (h k hk)

/-- `preEnfF` on a node with absent-or-null `type` from its two member
checks. -/
theorem preEnfF_none_cases (n : Nat) (s : JObj)
    (ht : getKey s "type" = none ∨ getKey s "type" = some .null)
    (hA : uniEnfOk (enfOkF n) (getKey s "anyOf") = true)
    (hO : uniEnfOk (enfOkF n) (getKey s "oneOf") = true) :
    preEnfF n s = true := by
  have hobj : ¬ getKey s "type" = some (.str "object") := by
    rcases ht with h | h <;> rw [h] <;> simp
  have harr : ¬ getKey s "type" = some (.str "array") := by
    rcases ht with h | h <;> rw [h] <;> simp
  unfold preEnfF
  rw [if_neg hobj, if_neg harr, if_pos ht, Bool.and_eq_true]
  exact ⟨hA, hO⟩

/-- storing a handled non-singleton member list on the `oneOf` key of a
node that satisfies the fixed-point invariant keeps the child-position
invariant. -/
theorem preEnfF_setKey_oneOf (n : Nat) (s1 : JObj) (hs : List JVal)
    (hv : enfOkF (n+1) (.obj s1) = true) (hl : hs.all (enfOkF (n+1)) = true)
    (hlen : hs.length ≠ 1) :
    preEnfF (n+1) (setKey s1 "oneOf" (.arr hs)) = true := by
  have hp : preEnfF (n+1) s1 = true := by
    rw [enfOkF_succ_obj, Bool.and_eq_true] at hv
    exact preEnfF_mono_of n (n+1) (enfOkF_mono n (n+1) (Nat.le_succ n)) s1 hv.2
  have hkeep : ∀ k : String, k ≠ "oneOf" →
      getKey (setKey s1 "oneOf" (.arr hs)) k = getKey s1 k :=
    fun k hk => getKey_setKey_ne _ _ _ _ hk
  unfold preEnfF at hp ⊢
  rw [hkeep "type" (by decide)]
  by_cases hobj : getKey s1 "type" = some (.str "object")
  · rw [if_pos hobj] at hp ⊢
    rw [hkeep "properties" (by decide)]
    exact hp
  · rw [if_neg hobj] at hp ⊢
    by_cases harr : getKey s1 "type" = some (.str "array")
    · rw [if_pos harr] at hp ⊢
      rw [hkeep "prefixItems" (by decide), hkeep "items" (by decide)]
      exact hp
    · rw [if_neg harr] at hp ⊢
      by_cases huni : getKey s1 "type" = none ∨ getKey s1 "type" = some .null
      · rw [if_pos huni] at hp ⊢
        rw [hkeep "anyOf" (by decide), getKey_setKey_self]
        rw [Bool.and_eq_true] at hp ⊢
        refine ⟨hp.1, ?_⟩
        show (decide (hs.length ≠ 1) && hs.all (enfOkF (n+1))) = true
        rw [Bool.and_eq_true, decide_eq_true_iff]
        exact ⟨hlen, hl⟩
      · rw [if_neg huni]

/-- `UniEnfOut` is monotone in the fuel. -/
theorem UniEnfOut_mono (n m : Nat) (hnm : n ≤ m) (v : JVal) (kind : String) (w : JVal)
    (h : UniEnfOut n v kind w) : UniEnfOut m v kind w := by
  rcases h with h | ⟨s, hs, h1, h2, h3, h4⟩ | h
  · exact Or.inl (enfOkF_mono n m hnm w h)
  · exact Or.inr (Or.inl ⟨s, hs, h1, h2, all_mono (enfOkF_mono n m hnm) hs h3, h4⟩)
  · exact Or.inr (Or.inr h)

/-- composing the two union-handling steps of the dispatch on a node with
absent-or-null `type`, for the fixed-point invariant: the result either
satisfies the invariant outright or is a mapping whose child positions do
(with non-singleton member lists). -/
theorem uniEnfCompose (n : Nat) (s : JObj) (u1 v2 : JVal)
    (ht : getKey s "type" = none ∨ getKey s "type" = some .null)
    (hU1 : UniEnfOut (n+1) (.obj s) "anyOf" u1)
    (hU2 : UniEnfOut (n+1) u1 "oneOf" v2) :
    enfOkF (n+2) v2 = true ∨ ∃ s2, v2 = .obj s2 ∧ preEnfF (n+1) s2 = true := by
  rcases hU2 with h2 | ⟨s1, hsO, h1eq, h2eq, hallO, hlenO⟩ | ⟨h2eq, hclO⟩
  · exact Or.inl (enfOkF_mono (n+1) (n+2) (Nat.le_succ _) v2 h2)
  · -- second step stored handled `oneOf` members on `u1 = .obj s1`
    rcases hU1 with h1 | ⟨s0, hsA, h0eq, h0res, hallA, hlenA⟩ | ⟨h1v, hclA⟩
    · rw [h1eq] at h1
      exact Or.inr ⟨_, h2eq, preEnfF_setKey_oneOf n s1 hsO h1 hallO hlenO⟩
    · have hs0 : s0 = s := (JVal.obj.inj h0eq).symm
      subst hs0
      have hs1 : s1 = setKey s0 "anyOf" (.arr hsA) := by
        have hh := h0res
        rw [h1eq] at hh
        exact JVal.obj.inj hh
      subst hs1
      refine Or.inr ⟨_, h2eq, preEnfF_none_cases (n+1) _ ?_ ?_ ?_⟩
      · rw [getKey_setKey_ne _ _ _ _ (by decide), getKey_setKey_ne _ _ _ _ (by decide)]
        exact ht
      · apply uniEnfOk_of_cases
        intro ms hms
        rw [getKey_setKey_ne _ _ _ _ (by decide), getKey_setKey_self] at hms
        have : JVal.arr hsA = JVal.arr ms := Option.some.inj hms
        rw [← JVal.arr.inj this]
        exact ⟨hlenA, hallA⟩
      · apply uniEnfOk_of_cases
        intro ms hms
        rw [getKey_setKey_self] at hms
        have : JVal.arr hsO = JVal.arr ms := Option.some.inj hms
        rw [← JVal.arr.inj this]
        exact ⟨hlenO, hallO⟩
    · have hs1 : s1 = s := by
        have hh := h1eq
        rw [h1v] at hh
        exact (JVal.obj.inj hh).symm
      subst hs1
      refine Or.inr ⟨_, h2eq, preEnfF_none_cases (n+1) _ ?_ ?_ ?_⟩
      · rw [getKey_setKey_ne _ _ _ _ (by decide)]
        exact ht
      · apply uniEnfOk_of_cases
        intro ms hms
        rw [getKey_setKey_ne _ _ _ _ (by decide)] at hms
        rw [hclA s1 ms rfl hms]
        exact ⟨by decide, rfl⟩
      · apply uniEnfOk_of_cases
        intro ms hms
        rw [getKey_setKey_self] at hms
        have : JVal.arr hsO = JVal.arr ms := Option.some.inj hms
        rw [← JVal.arr.inj this]
        exact ⟨hlenO, hallO⟩
  · -- second step left `u1` unchanged
    rcases hU1 with h1 | ⟨s0, hsA, h0eq, h0res, hallA, hlenA⟩ | ⟨h1v, hclA⟩
    · rw [h2eq]
      exact Or.inl (enfOkF_mono (n+1) (n+2) (Nat.le_succ _) u1 h1)
    · have hs0 : s0 = s := (JVal.obj.inj h0eq).symm
      subst hs0
      refine Or.inr ⟨_, h2eq.trans h0res, preEnfF_none_cases (n+1) _ ?_ ?_ ?_⟩
      · rw [getKey_setKey_ne _ _ _ _ (by decide)]
        exact ht
      · apply uniEnfOk_of_cases
        intro ms hms
        rw [getKey_setKey_self] at hms
        have : JVal.arr hsA = JVal.arr ms := Option.some.inj hms
        rw [← JVal.arr.inj this]
        exact ⟨hlenA, hallA⟩
      · apply uniEnfOk_of_cases
        intro ms hms
        rw [hclO _ ms h0res hms]
        exact ⟨by decide, rfl⟩
    · refine Or.inr ⟨s, h2eq.trans h1v, preEnfF_none_cases (n+1) s ht ?_ ?_⟩
      · apply uniEnfOk_of_cases
        intro ms hms
        rw [hclA s ms rfl hms]
        exact ⟨by decide, rfl⟩
      · apply uniEnfOk_of_cases
        intro ms hms
        rw [hclO s ms h1v hms]
        exact ⟨by decide, rfl⟩

/-- applying the Enforce transform behind `applyTf` on a plain dispatch
result establishes the fixed-point invariant and keeps plainness. -/
theorem enfOkF_applyTf (rootRef : Option JVal) (st : St) (n : Nat) (v2 : JVal)
    (hplain : plainTree v2 = true)
    (h : enfOkF (n+1) v2 = true ∨ ∃ s2, v2 = .obj s2 ∧ preEnfF (n+1) s2 = true) :
    enfOkF (n+2) (applyTf (openaiTransform (some true) rootRef) st v2).1 = true
    ∧ plainTree (applyTf (openaiTransform (some true) rootRef) st v2).1 = true := by
  cases v2 with
  | obj s2 =>
    have hpre : preEnfF (n+1) s2 = true := by
      rcases h with h | ⟨s2x, hx, hp⟩
      · rw [enfOkF_succ_obj, Bool.and_eq_true] at h
        exact preEnfF_mono_of n (n+1) (enfOkF_mono n (n+1) (Nat.le_succ n)) s2 h.2
      · have hx2 : s2 = s2x := JVal.obj.inj hx
        rw [hx2]
        exact hp
    have href : hasKey s2 "$ref" = false := ((plainTree_obj_iff s2).mp hplain).1
    have he : (applyTf (openaiTransform (some true) rootRef) st (.obj s2)).1
        = .obj (tfEnforceFn rootRef s2) := by
      show JVal.obj (openaiTransform (some true) rootRef st s2).1 = _
      rw [openaiTransform_true_eq]
    rw [he]
    exact ⟨enfOkF_tfEnforceFn rootRef (n+1) s2 href hpre,
      plainTree_tfEnforceFn rootRef s2 hplain⟩
  | null => exact ⟨rfl, rfl⟩
  | bool b => exact ⟨rfl, rfl⟩
  | num m => exact ⟨rfl, rfl⟩
  | str t => exact ⟨rfl, rfl⟩
  | arr l => exact ⟨rfl, hplain⟩

/-- `preEnfF` of an object-typed node from its properties values alone. -/
theorem preEnfF_obj_node (n : Nat) (s2 : JObj)
    (htv : getKey s2 "type" = some (.str "object"))
    (hps : ∀ ps, getKey s2 "properties" = some (.obj ps) →
      ps.all (fun kv => enfOkF n kv.2) = true) :
    preEnfF n s2 = true := by
  unfold preEnfF
  rw [if_pos htv]
  exact allValsOk_of _ _ hps

/-- `preEnfF` of an array-typed node from its two item positions alone. -/
theorem preEnfF_arr_node (n : Nat) (s2 : JObj)
    (htv : getKey s2 "type" = some (.str "array"))
    (hpre : ∀ ms, getKey s2 "prefixItems" = some (.arr ms) → ms.all (enfOkF n) = true)
    (hit : itemOk (enfOkF n) (getKey s2 "items") = true) :
    preEnfF n s2 = true := by
  unfold preEnfF
  rw [htv]
  rw [if_neg (by simp), if_pos rfl, Bool.and_eq_true]
  exact ⟨allArrOk_of _ _ hpre, hit⟩

/-- `preEnfF` of a node of any other declared type is trivial. -/
theorem preEnfF_leaf (n : Nat) (s2 : JObj)
    (h1 : ¬ getKey s2 "type" = some (.str "object"))
    (h2 : ¬ getKey s2 "type" = some (.str "array"))
    (h3 : ¬ (getKey s2 "type" = none ∨ getKey s2 "type" = some .null)) :
    preEnfF n s2 = true := by
  unfold preEnfF
  rw [if_neg h1, if_neg h2, if_neg h3]

/-- the Enforce walk's fixed-point invariant, per task: any successful
`handleCore` step of a walk configured with the Enforce transform (and
without ref inlining or nullable-union simplification, as the OpenAI walk
is) on plain input (no `$ref`/`$defs` keys anywhere) yields results
satisfying `enfMot`: outputs satisfy the fixed-point invariant `enfOkF`,
stay plain, and list/mapping shapes are preserved. -/
theorem handleCore_enforce_enfOk (cx : Ctx) (rootRef : Option JVal)
    (hpref : cx.prefer = false) (hsimp : cx.simplify = false)
    (htf : cx.tf = openaiTransform (some true) rootRef) :
    ∀ (fuel : Nat) (stack : List String) (st : St) (task : HTask) (r : HRes) (st2 : St),
    handleCore cx fuel stack st task = .ok (r, st2) → enfMot task r := by
  intro fuel
  induction fuel with
  | zero =>
    intro stack st task r st2 h
    exact absurd h (by simp [handleCore])
  | succ n ih =>
    intro stack st task r st2 h
    cases task with
    | seq ms =>
      cases ms with
      | nil =>
        simp only [handleCore] at h
        injection h with h1
        injection h1 with h2 _
        rw [← h2]
        intro _
        exact ⟨⟨1, rfl⟩, rfl, rfl⟩
      | cons v vs =>
        simp only [handleCore] at h
        rw [bindE_eq_ok] at h
        obtain ⟨⟨rv, stA⟩, h1, h⟩ := h
        rw [bindE_eq_ok] at h
        obtain ⟨⟨rvs, stB⟩, h2, h⟩ := h
        injection h with h3
        injection h3 with h4 _
        rw [← h4]
        intro hplain
        have hpl : plainTree v = true ∧ plainList vs = true := by
          have hh : (plainTree v && plainList vs) = true := hplain
          rw [Bool.and_eq_true] at hh
          exact hh
        obtain ⟨⟨n1, hv⟩, hpv⟩ := ih _ _ _ _ _ h1 hpl.1
        obtain ⟨⟨n2, hvs⟩, hpvs, hlen⟩ := ih _ _ _ _ _ h2 hpl.2
        refine ⟨⟨max n1 n2, ?_⟩, ?_, ?_⟩
        · show ((rv.getOne :: rvs.getSeq).all (enfOkF (max n1 n2))) = true
          rw [List.all_cons, Bool.and_eq_true]
          exact ⟨enfOkF_mono n1 _ (le_max_left _ _) _ hv,
            all_mono (enfOkF_mono n2 _ (le_max_right _ _)) _ hvs⟩
        · show (plainTree rv.getOne && plainList rvs.getSeq) = true
          rw [Bool.and_eq_true]
          exact ⟨hpv, hpvs⟩
        · show (rv.getOne :: rvs.getSeq).length = (v :: vs).length
          rw [List.length_cons, List.length_cons, hlen]
    | vals kvs =>
      cases kvs with
      | nil =>
        simp only [handleCore] at h
        injection h with h1
        injection h1 with h2 _
        rw [← h2]
        intro _
        exact ⟨⟨1, rfl⟩, rfl, rfl⟩
      | cons kv rest =>
        obtain ⟨k, v⟩ := kv
        simp only [handleCore] at h
        rw [bindE_eq_ok] at h
        obtain ⟨⟨rv, stA⟩, h1, h⟩ := h
        rw [bindE_eq_ok] at h
        obtain ⟨⟨rrest, stB⟩, h2, h⟩ := h
        injection h with h3
        injection h3 with h4 _
        rw [← h4]
        intro hplain
        have hpl : plainTree v = true ∧ plainVals rest = true := by
          have hh : (plainTree v && plainVals rest) = true := hplain
          rw [Bool.and_eq_true] at hh
          exact hh
        obtain ⟨⟨n1, hv⟩, hpv⟩ := ih _ _ _ _ _ h1 hpl.1
        obtain ⟨⟨n2, hvs⟩, hpvs, hkeys⟩ := ih _ _ _ _ _ h2 hpl.2
        refine ⟨⟨max n1 n2, ?_⟩, ?_, ?_⟩
        · show (((k, rv.getOne) :: rrest.getVals).all
            (fun kv2 => enfOkF (max n1 n2) kv2.2)) = true
          rw [List.all_cons, Bool.and_eq_true]
          exact ⟨enfOkF_mono n1 _ (le_max_left _ _) _ hv,
            all_mono (fun kv2 hv2 => enfOkF_mono n2 _ (le_max_right _ _) kv2.2 hv2) _ hvs⟩
        · show (plainTree rv.getOne && plainVals rrest.getVals) = true
          rw [Bool.and_eq_true]
          exact ⟨hpv, hpvs⟩
        · show k :: keysOf rrest.getVals = k :: keysOf rest
          rw [hkeys]
    | uni v kind =>
      simp only [handleCore] at h
      cases v with
      | obj s =>
        cases hg : getKey s kind with
        | none =>
          simp only [hg] at h
          injection h with h1
          injection h1 with h2 _
          rw [← h2]
          intro hplain
          refine ⟨⟨1, Or.inr (Or.inr ⟨rfl, fun s2 ms hv2 hg2 => ?_⟩)⟩, hplain⟩
          rw [← JVal.obj.inj hv2, hg] at hg2
          exact Option.noConfusion hg2
        | some gv =>
          cases gv with
          | arr ms =>
            simp only [hg] at h
            by_cases hemp : ms.isEmpty = true
            · rw [if_pos hemp] at h
              injection h with h1
              injection h1 with h2 _
              rw [← h2]
              intro hplain
              refine ⟨⟨1, Or.inr (Or.inr ⟨rfl, fun s2 ms2 hv2 hg2 => ?_⟩)⟩, hplain⟩
              rw [← JVal.obj.inj hv2, hg] at hg2
              have hmm2 : ms = ms2 := JVal.arr.inj (Option.some.inj hg2)
              rw [← hmm2]
              exact List.isEmpty_iff.mp hemp
            · rw [if_neg hemp] at h
              rw [bindE_eq_ok] at h
              obtain ⟨⟨rhs, stA⟩, h1, h⟩ := h
              intro hplain
              have hkr : kind ≠ "$ref" := by
                intro he
                rw [he] at hg
                have hk : hasKey s "$ref" = true := by
                  unfold hasKey
                  rw [hg]
                  rfl
                rw [((plainTree_obj_iff s).mp hplain).1] at hk
                cases hk
              have hkd : kind ≠ "$defs" := by
                intro he
                rw [he] at hg
                have hk : hasKey s "$defs" = true := by
                  unfold hasKey
                  rw [hg]
                  rfl
                rw [((plainTree_obj_iff s).mp hplain).2.1] at hk
                cases hk
              have hplm : plainList ms = true :=
                plainTree_getKey s kind (.arr ms) hplain hg
              obtain ⟨⟨n2, hall⟩, hpseq, hlen⟩ := ih _ _ _ _ _ h1 hplm
              unfold uniFinish at h
              rw [if_neg (by rw [hsimp]; exact Bool.false_ne_true)] at h
              cases hseq : rhs.getSeq with
              | nil =>
                rw [hseq] at h
                injection h with h1x
                injection h1x with h2 _
                rw [← h2]
                refine ⟨⟨n2, Or.inr (Or.inl ⟨s, [], rfl, rfl, rfl, by decide⟩)⟩, ?_⟩
                exact plainTree_setKey s kind (.arr []) hkr hkd hplain rfl
              | cons u rest =>
                cases rest with
                | nil =>
                  rw [hseq] at h hall hpseq
                  injection h with h1x
                  injection h1x with h2 _
                  rw [← h2]
                  refine ⟨⟨n2, Or.inl ?_⟩, ?_⟩
                  · simp only [List.all_cons, List.all_nil, Bool.and_true] at hall
                    exact hall
                  · have hh : (plainTree u && plainList []) = true := hpseq
                    rw [Bool.and_eq_true] at hh
                    exact hh.1
                | cons u2 rest2 =>
                  rw [hseq] at h hall hpseq
                  injection h with h1x
                  injection h1x with h2 _
                  rw [← h2]
                  refine ⟨⟨n2, Or.inr (Or.inl ⟨s, u :: u2 :: rest2, rfl, rfl, hall, ?_⟩)⟩, ?_⟩
                  · intro hcon
                    rw [List.length_cons, List.length_cons] at hcon
                    omega
                  · exact plainTree_setKey s kind (.arr (u :: u2 :: rest2)) hkr hkd hplain hpseq
          | null =>
            simp only [hg] at h
            injection h with h1
            injection h1 with h2 _
            rw [← h2]
            intro hplain
            refine ⟨⟨1, Or.inr (Or.inr ⟨rfl, fun s2 ms hv2 hg2 => ?_⟩)⟩, hplain⟩
            rw [← JVal.obj.inj hv2, hg] at hg2
            exact JVal.noConfusion (Option.some.inj hg2)
          | bool b =>
            simp only [hg] at h
            injection h with h1
            injection h1 with h2 _
            rw [← h2]
            intro hplain
            refine ⟨⟨1, Or.inr (Or.inr ⟨rfl, fun s2 ms hv2 hg2 => ?_⟩)⟩, hplain⟩
            rw [← JVal.obj.inj hv2, hg] at hg2
            exact JVal.noConfusion (Option.some.inj hg2)
          | num m =>
            simp only [hg] at h
            injection h with h1
            injection h1 with h2 _
            rw [← h2]
            intro hplain
            refine ⟨⟨1, Or.inr (Or.inr ⟨rfl, fun s2 ms hv2 hg2 => ?_⟩)⟩, hplain⟩
            rw [← JVal.obj.inj hv2, hg] at hg2
            exact JVal.noConfusion (Option.some.inj hg2)
          | str t =>
            simp only [hg] at h
            injection h with h1
            injection h1 with h2 _
            rw [← h2]
            intro hplain
            refine ⟨⟨1, Or.inr (Or.inr ⟨rfl, fun s2 ms hv2 hg2 => ?_⟩)⟩, hplain⟩
            rw [← JVal.obj.inj hv2, hg] at hg2
            exact JVal.noConfusion (Option.some.inj hg2)
          | obj o2 =>
            simp only [hg] at h
            injection h with h1
            injection h1 with h2 _
            rw [← h2]
            intro hplain
            refine ⟨⟨1, Or.inr (Or.inr ⟨rfl, fun s2 ms hv2 hg2 => ?_⟩)⟩, hplain⟩
            rw [← JVal.obj.inj hv2, hg] at hg2
            exact JVal.noConfusion (Option.some.inj hg2)
      | null =>
        injection h with h1
        injection h1 with h2 _
        rw [← h2]
        intro hplain
        exact ⟨⟨1, Or.inr (Or.inr ⟨rfl, fun s2 ms hv2 _ => JVal.noConfusion hv2⟩)⟩, hplain⟩
      | bool b =>
        injection h with h1
        injection h1 with h2 _
        rw [← h2]
        intro hplain
        exact ⟨⟨1, Or.inr (Or.inr ⟨rfl, fun s2 ms hv2 _ => JVal.noConfusion hv2⟩)⟩, hplain⟩
      | num m =>
        injection h with h1
        injection h1 with h2 _
        rw [← h2]
        intro hplain
        exact ⟨⟨1, Or.inr (Or.inr ⟨rfl, fun s2 ms hv2 _ => JVal.noConfusion hv2⟩)⟩, hplain⟩
      | str t =>
        injection h with h1
        injection h1 with h2 _
        rw [← h2]
        intro hplain
        exact ⟨⟨1, Or.inr (Or.inr ⟨rfl, fun s2 ms hv2 _ => JVal.noConfusion hv2⟩)⟩, hplain⟩
      | arr l =>
        injection h with h1
        injection h1 with h2 _
        rw [← h2]
        intro hplain
        exact ⟨⟨1, Or.inr (Or.inr ⟨rfl, fun s2 ms hv2 _ => JVal.noConfusion hv2⟩)⟩, hplain⟩
    | one v =>
      simp only [handleCore] at h
      rw [bindE_eq_ok] at h
      obtain ⟨⟨v1, stack1, st1⟩, hres, h⟩ := h
      rw [hpref] at hres
      simp only [Bool.false_eq_true, if_false] at hres
      injection hres with hres1
      injection hres1 with hv1 hrest
      injection hrest with hstack1 hst1
      subst hv1
      cases v with
      | null =>
        injection h with h1
        injection h1 with h2 _
        rw [← h2]
        intro _
        exact ⟨⟨1, rfl⟩, rfl⟩
      | bool b =>
        injection h with h1
        injection h1 with h2 _
        rw [← h2]
        intro _
        exact ⟨⟨1, rfl⟩, rfl⟩
      | num m =>
        injection h with h1
        injection h1 with h2 _
        rw [← h2]
        intro _
        exact ⟨⟨1, rfl⟩, rfl⟩
      | str t =>
        injection h with h1
        injection h1 with h2 _
        rw [← h2]
        intro _
        exact ⟨⟨1, rfl⟩, rfl⟩
      | arr l =>
        injection h with h1
        injection h1 with h2 _
        rw [← h2]
        intro hplain
        exact ⟨⟨1, rfl⟩, hplain⟩
      | obj s =>
        rw [bindE_eq_ok] at h
        obtain ⟨⟨v2, st2a⟩, hdisp, hfin⟩ := h
        injection hfin with h1
        injection h1 with h2 _
        rw [← h2]
        intro hplain
        show (∃ m, enfOkF m (applyTf cx.tf st2a v2).1 = true)
          ∧ plainTree (applyTf cx.tf st2a v2).1 = true
        rw [htf]
        suffices hsuf : (∃ m, enfOkF (m+1) v2 = true
            ∨ ∃ s2, v2 = .obj s2 ∧ preEnfF (m+1) s2 = true) ∧ plainTree v2 = true by
          obtain ⟨⟨m, hd⟩, hpv2⟩ := hsuf
          obtain ⟨he, hp⟩ := enfOkF_applyTf rootRef st2a m v2 hpv2 hd
          exact ⟨⟨m+2, he⟩, hp⟩
        by_cases hc1 : getKey s "type" = some (.str "object")
        · -- object dispatch
          rw [if_pos hc1] at hdisp
          rw [bindE_eq_ok] at hdisp
          obtain ⟨⟨sA, stA⟩, hP1, hdisp⟩ := hdisp
          rw [bindE_eq_ok] at hdisp
          obtain ⟨⟨sB, stB⟩, hP2, hdisp⟩ := hdisp
          rw [bindE_eq_ok] at hdisp
          obtain ⟨⟨sC, stC⟩, hP3, hdisp⟩ := hdisp
          injection hdisp with hd1
          injection hd1 with hd2 _
          rw [← hd2]
          -- part 1: `properties`
          have hA : ∃ n1, (∀ ps2, getKey sA "properties" = some (.obj ps2) →
              ps2.all (fun kv => enfOkF n1 kv.2) = true)
              ∧ (∀ k : String, k ≠ "properties" → getKey sA k = getKey s k)
              ∧ plainTree (.obj sA) = true := by
            cases hprop : getKey s "properties" with
            | some pv =>
              cases pv with
              | obj ps =>
                simp only [hprop] at hP1
                by_cases hemp : ps.isEmpty = true
                · rw [if_pos hemp] at hP1
                  injection hP1 with hh1
                  injection hh1 with hh2 _
                  refine ⟨0, fun ps2 hps2 => ?_, fun k _ => by rw [← hh2],
                    by rw [← hh2]; exact hplain⟩
                  rw [← hh2, hprop] at hps2
                  have hpe : ps = ps2 := JVal.obj.inj (Option.some.inj hps2)
                  rw [← hpe, List.isEmpty_iff.mp hemp]
                  rfl
                · rw [if_neg hemp] at hP1
                  rw [bindE_eq_ok] at hP1
                  obtain ⟨⟨rps, stX⟩, hq1, hP1⟩ := hP1
                  injection hP1 with hh1
                  injection hh1 with hh2 _
                  have hpvps : plainTree (.obj ps) = true :=
                    plainTree_getKey s "properties" (.obj ps) hplain hprop
                  obtain ⟨⟨n1, hall⟩, hpvals, hkeys⟩ :=
                    ih _ _ _ _ _ hq1 ((plainTree_obj_iff ps).mp hpvps).2.2
                  refine ⟨n1, fun ps2 hps2 => ?_,
                    fun k hk => by rw [← hh2, getKey_setKey_ne _ _ _ _ hk], ?_⟩
                  · rw [← hh2, getKey_setKey_self] at hps2
                    have hpe : rps.getVals = ps2 := JVal.obj.inj (Option.some.inj hps2)
                    rw [← hpe]
                    exact hall
                  · rw [← hh2]
                    refine plainTree_setKey s "properties" (.obj rps.getVals)
                      (by decide) (by decide) hplain ?_
                    exact plainTree_obj_of_vals rps.getVals ps hkeys hpvps hpvals
              | null =>
                simp only [hprop] at hP1
                injection hP1 with hh1
                injection hh1 with hh2 _
                refine ⟨0, fun ps2 hps2 => ?_, fun k _ => by rw [← hh2],
                  by rw [← hh2]; exact hplain⟩
                rw [← hh2, hprop] at hps2
                exact JVal.noConfusion (Option.some.inj hps2)
              | bool b =>
                simp only [hprop] at hP1
                injection hP1 with hh1
                injection hh1 with hh2 _
                refine ⟨0, fun ps2 hps2 => ?_, fun k _ => by rw [← hh2],
                  by rw [← hh2]; exact hplain⟩
                rw [← hh2, hprop] at hps2
                exact JVal.noConfusion (Option.some.inj hps2)
              | num m2 =>
                simp only [hprop] at hP1
                injection hP1 with hh1
                injection hh1 with hh2 _
                refine ⟨0, fun ps2 hps2 => ?_, fun k _ => by rw [← hh2],
                  by rw [← hh2]; exact hplain⟩
                rw [← hh2, hprop] at hps2
                exact JVal.noConfusion (Option.some.inj hps2)
              | str t2 =>
                simp only [hprop] at hP1
                injection hP1 with hh1
                injection hh1 with hh2 _
                refine ⟨0, fun ps2 hps2 => ?_, fun k _ => by rw [← hh2],
                  by rw [← hh2]; exact hplain⟩
                rw [← hh2, hprop] at hps2
                exact JVal.noConfusion (Option.some.inj hps2)
              | arr l2 =>
                simp only [hprop] at hP1
                injection hP1 with hh1
                injection hh1 with hh2 _
                refine ⟨0, fun ps2 hps2 => ?_, fun k _ => by rw [← hh2],
                  by rw [← hh2]; exact hplain⟩
                rw [← hh2, hprop] at hps2
                exact JVal.noConfusion (Option.some.inj hps2)
            | none =>
              simp only [hprop] at hP1
              injection hP1 with hh1
              injection hh1 with hh2 _
              refine ⟨0, fun ps2 hps2 => ?_, fun k _ => by rw [← hh2],
                by rw [← hh2]; exact hplain⟩
              rw [← hh2, hprop] at hps2
              exact Option.noConfusion hps2
          obtain ⟨n1, hAprops, hAkeep, hAplain⟩ := hA
          -- part 2: `additionalProperties`
          have hB : (∀ k : String, k ≠ "additionalProperties" →
              getKey sB k = getKey sA k) ∧ plainTree (.obj sB) = true := by
            cases hap : getKey sA "additionalProperties" with
            | none =>
              simp only [hap] at hP2
              injection hP2 with hh1
              injection hh1 with hh2 _
              exact ⟨fun k _ => by rw [← hh2], by rw [← hh2]; exact hAplain⟩
            | some apv =>
              cases apv with
              | null =>
                simp only [hap] at hP2
                injection hP2 with hh1
                injection hh1 with hh2 _
                exact ⟨fun k _ => by rw [← hh2], by rw [← hh2]; exact hAplain⟩
              | bool b =>
                simp only [hap] at hP2
                injection hP2 with hh1
                injection hh1 with hh2 _
                refine ⟨fun k hk => by rw [← hh2, getKey_setKey_ne _ _ _ _ hk], ?_⟩
                rw [← hh2]
                exact plainTree_setKey sA "additionalProperties" (.bool b)
                  (by decide) (by decide) hAplain rfl
              | num m2 =>
                simp only [hap] at hP2
                rw [bindE_eq_ok] at hP2
                obtain ⟨⟨rap, stX⟩, hq2, hP2⟩ := hP2
                injection hP2 with hh1
                injection hh1 with hh2 _
                obtain ⟨_, hpr⟩ := ih _ _ _ _ _ hq2
                  (plainTree_getKey sA "additionalProperties" (.num m2) hAplain hap)
                refine ⟨fun k hk => by rw [← hh2, getKey_setKey_ne _ _ _ _ hk], ?_⟩
                rw [← hh2]
                exact plainTree_setKey sA "additionalProperties" rap.getOne
                  (by decide) (by decide) hAplain hpr
              | str t2 =>
                simp only [hap] at hP2
                rw [bindE_eq_ok] at hP2
                obtain ⟨⟨rap, stX⟩, hq2, hP2⟩ := hP2
                injection hP2 with hh1
                injection hh1 with hh2 _
                obtain ⟨_, hpr⟩ := ih _ _ _ _ _ hq2
                  (plainTree_getKey sA "additionalProperties" (.str t2) hAplain hap)
                refine ⟨fun k hk => by rw [← hh2, getKey_setKey_ne _ _ _ _ hk], ?_⟩
                rw [← hh2]
                exact plainTree_setKey sA "additionalProperties" rap.getOne
                  (by decide) (by decide) hAplain hpr
              | arr l2 =>
                simp only [hap] at hP2
                rw [bindE_eq_ok] at hP2
                obtain ⟨⟨rap, stX⟩, hq2, hP2⟩ := hP2
                injection hP2 with hh1
                injection hh1 with hh2 _
                obtain ⟨_, hpr⟩ := ih _ _ _ _ _ hq2
                  (plainTree_getKey sA "additionalProperties" (.arr l2) hAplain hap)
                refine ⟨fun k hk => by rw [← hh2, getKey_setKey_ne _ _ _ _ hk], ?_⟩
                rw [← hh2]
                exact plainTree_setKey sA "additionalProperties" rap.getOne
                  (by decide) (by decide) hAplain hpr
              | obj o2 =>
                simp only [hap] at hP2
                rw [bindE_eq_ok] at hP2
                obtain ⟨⟨rap, stX⟩, hq2, hP2⟩ := hP2
                injection hP2 with hh1
                injection hh1 with hh2 _
                obtain ⟨_, hpr⟩ := ih _ _ _ _ _ hq2
                  (plainTree_getKey sA "additionalProperties" (.obj o2) hAplain hap)
                refine ⟨fun k hk => by rw [← hh2, getKey_setKey_ne _ _ _ _ hk], ?_⟩
                rw [← hh2]
                exact plainTree_setKey sA "additionalProperties" rap.getOne
                  (by decide) (by decide) hAplain hpr
          obtain ⟨hBkeep, hBplain⟩ := hB
          -- part 3: `patternProperties`
          have hC : (∀ k : String, k ≠ "patternProperties" →
              getKey sC k = getKey sB k) ∧ plainTree (.obj sC) = true := by
            cases hpp : getKey sB "patternProperties" with
            | none =>
              simp only [hpp] at hP3
              injection hP3 with hh1
              injection hh1 with hh2 _
              exact ⟨fun k _ => by rw [← hh2], by rw [← hh2]; exact hBplain⟩
            | some ppv =>
              cases ppv with
              | null =>
                simp only [hpp] at hP3
                injection hP3 with hh1
                injection hh1 with hh2 _
                exact ⟨fun k _ => by rw [← hh2], by rw [← hh2]; exact hBplain⟩
              | obj pps =>
                simp only [hpp] at hP3
                rw [bindE_eq_ok] at hP3
                obtain ⟨⟨rpps, stX⟩, hq3, hP3⟩ := hP3
                injection hP3 with hh1
                injection hh1 with hh2 _
                have hppv : plainTree (.obj pps) = true :=
                  plainTree_getKey sB "patternProperties" (.obj pps) hBplain hpp
                obtain ⟨_, hpvals, hkeys⟩ :=
                  ih _ _ _ _ _ hq3 ((plainTree_obj_iff pps).mp hppv).2.2
                refine ⟨fun k hk => by rw [← hh2, getKey_setKey_ne _ _ _ _ hk], ?_⟩
                rw [← hh2]
                refine plainTree_setKey sB "patternProperties" (.obj rpps.getVals)
                  (by decide) (by decide) hBplain ?_
                exact plainTree_obj_of_vals rpps.getVals pps hkeys hppv hpvals
              | bool b =>
                simp only [hpp] at hP3
                injection hP3 with hh1
                injection hh1 with hh2 _
                exact ⟨fun k _ => by rw [← hh2], by rw [← hh2]; exact hBplain⟩
              | num m2 =>
                simp only [hpp] at hP3
                injection hP3 with hh1
                injection hh1 with hh2 _
                exact ⟨fun k _ => by rw [← hh2], by rw [← hh2]; exact hBplain⟩
              | str t2 =>
                simp only [hpp] at hP3
                injection hP3 with hh1
                injection hh1 with hh2 _
                exact ⟨fun k _ => by rw [← hh2], by rw [← hh2]; exact hBplain⟩
              | arr l2 =>
                simp only [hpp] at hP3
                injection hP3 with hh1
                injection hh1 with hh2 _
                exact ⟨fun k _ => by rw [← hh2], by rw [← hh2]; exact hBplain⟩
          obtain ⟨hCkeep, hCplain⟩ := hC
          refine ⟨⟨n1, Or.inr ⟨sC, rfl, ?_⟩⟩, hCplain⟩
          apply preEnfF_obj_node (n1+1) sC
          · rw [hCkeep "type" (by decide), hBkeep "type" (by decide),
              hAkeep "type" (by decide)]
            exact hc1
          · intro ps hps
            rw [hCkeep "properties" (by decide), hBkeep "properties" (by decide)] at hps
            exact all_mono (fun kv hv => enfOkF_mono n1 (n1+1) (Nat.le_succ n1) kv.2 hv)
              ps (hAprops ps hps)
        · rw [if_neg hc1] at hdisp
          by_cases hc2 : getKey s "type" = some (.str "array")
          · -- array dispatch
            rw [if_pos hc2] at hdisp
            rw [bindE_eq_ok] at hdisp
            obtain ⟨⟨sA, stA⟩, hP1, hdisp⟩ := hdisp
            rw [bindE_eq_ok] at hdisp
            obtain ⟨⟨sB, stB⟩, hP2, hdisp⟩ := hdisp
            injection hdisp with hd1
            injection hd1 with hd2 _
            rw [← hd2]
            have hA : ∃ n1, (∀ ms2, getKey sA "prefixItems" = some (.arr ms2) →
                ms2.all (enfOkF n1) = true)
                ∧ (∀ k : String, k ≠ "prefixItems" → getKey sA k = getKey s k)
                ∧ plainTree (.obj sA) = true := by
              cases hpre : getKey s "prefixItems" with
              | some pv =>
                cases pv with
                | arr l2 =>
                  simp only [hpre] at hP1
                  by_cases hemp : l2.isEmpty = true
                  · rw [if_pos hemp] at hP1
                    injection hP1 with hh1
                    injection hh1 with hh2 _
                    refine ⟨0, fun ms2 hms2 => ?_, fun k _ => by rw [← hh2],
                      by rw [← hh2]; exact hplain⟩
                    rw [← hh2, hpre] at hms2
                    have hpe : l2 = ms2 := JVal.arr.inj (Option.some.inj hms2)
                    rw [← hpe, List.isEmpty_iff.mp hemp]
                    rfl
                  · rw [if_neg hemp] at hP1
                    rw [bindE_eq_ok] at hP1
                    obtain ⟨⟨rl, stX⟩, hq1, hP1⟩ := hP1
                    injection hP1 with hh1
                    injection hh1 with hh2 _
                    have hpl2 : plainList l2 = true :=
                      plainTree_getKey s "prefixItems" (.arr l2) hplain hpre
                    obtain ⟨⟨n1, hall⟩, hpseq, _⟩ := ih _ _ _ _ _ hq1 hpl2
                    refine ⟨n1, fun ms2 hms2 => ?_,
                      fun k hk => by rw [← hh2, getKey_setKey_ne _ _ _ _ hk], ?_⟩
                    · rw [← hh2, getKey_setKey_self] at hms2
                      have hpe : rl.getSeq = ms2 := JVal.arr.inj (Option.some.inj hms2)
                      rw [← hpe]
                      exact hall
                    · rw [← hh2]
                      exact plainTree_setKey s "prefixItems" (.arr rl.getSeq)
                        (by decide) (by decide) hplain hpseq
                | null =>
                  simp only [hpre] at hP1
                  injection hP1 with hh1
                  injection hh1 with hh2 _
                  refine ⟨0, fun ms2 hms2 => ?_, fun k _ => by rw [← hh2],
                    by rw [← hh2]; exact hplain⟩
                  rw [← hh2, hpre] at hms2
                  exact JVal.noConfusion (Option.some.inj hms2)
                | bool b =>
                  simp only [hpre] at hP1
                  injection hP1 with hh1
                  injection hh1 with hh2 _
                  refine ⟨0, fun ms2 hms2 => ?_, fun k _ => by rw [← hh2],
                    by rw [← hh2]; exact hplain⟩
                  rw [← hh2, hpre] at hms2
                  exact JVal.noConfusion (Option.some.inj hms2)
                | num m2 =>
                  simp only [hpre] at hP1
                  injection hP1 with hh1
                  injection hh1 with hh2 _
                  refine ⟨0, fun ms2 hms2 => ?_, fun k _ => by rw [← hh2],
                    by rw [← hh2]; exact hplain⟩
                  rw [← hh2, hpre] at hms2
                  exact JVal.noConfusion (Option.some.inj hms2)
                | str t2 =>
                  simp only [hpre] at hP1
                  injection hP1 with hh1
                  injection hh1 with hh2 _
                  refine ⟨0, fun ms2 hms2 => ?_, fun k _ => by rw [← hh2],
                    by rw [← hh2]; exact hplain⟩
                  rw [← hh2, hpre] at hms2
                  exact JVal.noConfusion (Option.some.inj hms2)
                | obj o2 =>
                  simp only [hpre] at hP1
                  injection hP1 with hh1
                  injection hh1 with hh2 _
                  refine ⟨0, fun ms2 hms2 => ?_, fun k _ => by rw [← hh2],
                    by rw [← hh2]; exact hplain⟩
                  rw [← hh2, hpre] at hms2
                  exact JVal.noConfusion (Option.some.inj hms2)
              | none =>
                simp only [hpre] at hP1
                injection hP1 with hh1
                injection hh1 with hh2 _
                refine ⟨0, fun ms2 hms2 => ?_, fun k _ => by rw [← hh2],
                  by rw [← hh2]; exact hplain⟩
                rw [← hh2, hpre] at hms2
                exact Option.noConfusion hms2
            obtain ⟨n1, hApre, hAkeep, hAplain⟩ := hA
            have hB : ∃ n2, itemOk (enfOkF n2) (getKey sB "items") = true
                ∧ (∀ k : String, k ≠ "items" → getKey sB k = getKey sA k)
                ∧ plainTree (.obj sB) = true := by
              cases hit : getKey sA "items" with
              | some it =>
                simp only [hit] at hP2
                by_cases htr : pyTruthy it = true
                · rw [if_pos htr] at hP2
                  rw [bindE_eq_ok] at hP2
                  obtain ⟨⟨rit, stX⟩, hq2, hP2⟩ := hP2
                  injection hP2 with hh1
                  injection hh1 with hh2 _
                  obtain ⟨⟨n2, hone⟩, hpone⟩ := ih _ _ _ _ _ hq2
                    (plainTree_getKey sA "items" it hAplain hit)
                  refine ⟨n2, ?_, fun k hk => by rw [← hh2, getKey_setKey_ne _ _ _ _ hk], ?_⟩
                  · rw [← hh2, getKey_setKey_self]
                    show (!pyTruthy rit.getOne || enfOkF n2 rit.getOne) = true
                    rw [Bool.or_eq_true]
                    exact Or.inr hone
                  · rw [← hh2]
                    exact plainTree_setKey sA "items" rit.getOne
                      (by decide) (by decide) hAplain hpone
                · rw [if_neg htr] at hP2
                  injection hP2 with hh1
                  injection hh1 with hh2 _
                  refine ⟨0, ?_, fun k _ => by rw [← hh2], by rw [← hh2]; exact hAplain⟩
                  rw [← hh2, hit]
                  show (!pyTruthy it || enfOkF 0 it) = true
                  rw [Bool.or_eq_true]
                  exact Or.inl (by revert htr; cases pyTruthy it <;> simp)
              | none =>
                simp only [hit] at hP2
                injection hP2 with hh1
                injection hh1 with hh2 _
                refine ⟨0, ?_, fun k _ => by rw [← hh2], by rw [← hh2]; exact hAplain⟩
                rw [← hh2, hit]
                rfl
            obtain ⟨n2, hBit, hBkeep, hBplain⟩ := hB
            have hle1 : n1 ≤ max n1 n2 + 1 := by omega
            have hle2 : n2 ≤ max n1 n2 + 1 := by omega
            refine ⟨⟨max n1 n2, Or.inr ⟨sB, rfl, ?_⟩⟩, hBplain⟩
            apply preEnfF_arr_node (max n1 n2 + 1) sB
            · rw [hBkeep "type" (by decide), hAkeep "type" (by decide)]
              exact hc2
            · intro ms2 hms2
              rw [hBkeep "prefixItems" (by decide)] at hms2
              exact all_mono (enfOkF_mono n1 _ hle1) ms2 (hApre ms2 hms2)
            · exact itemOk_mono_mem _ _ _ (fun it _ => enfOkF_mono n2 _ hle2 it) hBit
          · rw [if_neg hc2] at hdisp
            by_cases hc3 : getKey s "type" = none ∨ getKey s "type" = some .null
            · -- union dispatch
              rw [if_pos hc3] at hdisp
              rw [bindE_eq_ok] at hdisp
              obtain ⟨⟨ru, stA⟩, hU1call, hdisp⟩ := hdisp
              rw [bindE_eq_ok] at hdisp
              obtain ⟨⟨ru2, stB⟩, hU2call, hdisp⟩ := hdisp
              injection hdisp with hd1
              injection hd1 with hd2 _
              rw [← hd2]
              obtain ⟨⟨nA, U1⟩, hpu1⟩ := ih _ _ _ _ _ hU1call hplain
              obtain ⟨⟨nB, U2⟩, hpu2⟩ := ih _ _ _ _ _ hU2call hpu1
              have U1l := UniEnfOut_mono nA (max nA nB + 1) (by omega) _ _ _ U1
              have U2l := UniEnfOut_mono nB (max nA nB + 1) (by omega) _ _ _ U2
              rcases uniEnfCompose (max nA nB) s ru.getOne ru2.getOne hc3 U1l U2l with
                hver | ⟨s2, he, hp⟩
              · exact ⟨⟨max nA nB + 1, Or.inl hver⟩, hpu2⟩
              · exact ⟨⟨max nA nB + 1, Or.inr ⟨s2, he,
                  preEnfF_mono_of _ _ (enfOkF_mono _ _ (Nat.le_succ _)) s2 hp⟩⟩, hpu2⟩
            · -- leaf dispatch
              rw [if_neg hc3] at hdisp
              injection hdisp with hd1
              injection hd1 with hd2 _
              rw [← hd2]
              exact ⟨⟨0, Or.inr ⟨s, rfl, preEnfF_leaf _ s hc1 hc2 hc3⟩⟩, hplain⟩

/-- the Enforce walk acts as the identity on inputs satisfying the
fixed-point invariant: any successful `handleCore` step of a walk
configured with the Enforce transform returns its input and leaves the
state untouched, per task (`enfIdMot`). -/
theorem handleCore_enforce_fixed (cx : Ctx) (rootRef : Option JVal)
    (hpref : cx.prefer = false) (hsimp : cx.simplify = false)
    (htf : cx.tf = openaiTransform (some true) rootRef) :
    ∀ (fuel : Nat) (stack : List String) (st : St) (task : HTask) (r : HRes) (st2 : St),
    handleCore cx fuel stack st task = .ok (r, st2) → enfIdMot task st r st2 := by
  intro fuel
  induction fuel with
  | zero =>
    intro stack st task r st2 h
    exact absurd h (by simp [handleCore])
  | succ n ih =>
    intro stack st task r st2 h
    cases task with
    | seq ms =>
      cases ms with
      | nil =>
        simp only [handleCore] at h
        injection h with h1
        injection h1 with h2 h3
        exact fun _ => ⟨h2.symm, h3.symm⟩
      | cons v vs =>
        simp only [handleCore] at h
        rw [bindE_eq_ok] at h
        obtain ⟨⟨rv, stA⟩, h1, h⟩ := h
        rw [bindE_eq_ok] at h
        obtain ⟨⟨rvs, stB⟩, h2, h⟩ := h
        injection h with h3
        injection h3 with h4 h5
        intro hin
        obtain ⟨nn, hall⟩ := hin
        have hallc : enfOkF nn v = true ∧ vs.all (enfOkF nn) = true := by
          rw [List.all_cons, Bool.and_eq_true] at hall
          exact hall
        obtain ⟨hrv, hstA⟩ := ih _ _ _ _ _ h1 ⟨nn, hallc.1⟩
        subst hrv
        subst hstA
        obtain ⟨hrvs, hstB⟩ := ih _ _ _ _ _ h2 ⟨nn, hallc.2⟩
        subst hrvs
        subst hstB
        exact ⟨h4.symm, h5.symm⟩
    | vals kvs =>
      cases kvs with
      | nil =>
        simp only [handleCore] at h
        injection h with h1
        injection h1 with h2 h3
        exact fun _ => ⟨h2.symm, h3.symm⟩
      | cons kv rest =>
        obtain ⟨k, v⟩ := kv
        simp only [handleCore] at h
        rw [bindE_eq_ok] at h
        obtain ⟨⟨rv, stA⟩, h1, h⟩ := h
        rw [bindE_eq_ok] at h
        obtain ⟨⟨rrest, stB⟩, h2, h⟩ := h
        injection h with h3
        injection h3 with h4 h5
        intro hin
        obtain ⟨nn, hall⟩ := hin
        have hallc : enfOkF nn v = true ∧ rest.all (fun kv2 => enfOkF nn kv2.2) = true := by
          rw [List.all_cons, Bool.and_eq_true] at hall
          exact hall
        obtain ⟨hrv, hstA⟩ := ih _ _ _ _ _ h1 ⟨nn, hallc.1⟩
        subst hrv
        subst hstA
        obtain ⟨hrrest, hstB⟩ := ih _ _ _ _ _ h2 ⟨nn, hallc.2⟩
        subst hrrest
        subst hstB
        exact ⟨h4.symm, h5.symm⟩
    | uni v kind =>
      simp only [handleCore] at h
      cases v with
      | obj s =>
        cases hg : getKey s kind with
        | none =>
          simp only [hg] at h
          injection h with h1
          injection h1 with h2 h3
          exact fun _ => ⟨h2.symm, h3.symm⟩
        | some gv =>
          cases gv with
          | arr ms =>
            simp only [hg] at h
            by_cases hemp : ms.isEmpty = true
            · rw [if_pos hemp] at h
              injection h with h1
              injection h1 with h2 h3
              exact fun _ => ⟨h2.symm, h3.symm⟩
            · rw [if_neg hemp] at h
              rw [bindE_eq_ok] at h
              obtain ⟨⟨rhs, stA⟩, h1, h⟩ := h
              intro hin
              obtain ⟨nn, huni⟩ := hin s rfl
              rw [hg] at huni
              have huni2 : (decide (ms.length ≠ 1) && ms.all (enfOkF nn)) = true := huni
              rw [Bool.and_eq_true, decide_eq_true_iff] at huni2
              obtain ⟨hrhs, hstA⟩ := ih _ _ _ _ _ h1 ⟨nn, huni2.2⟩
              subst hrhs
              subst hstA
              unfold uniFinish at h
              rw [if_neg (by rw [hsimp]; exact Bool.false_ne_true)] at h
              cases ms with
              | nil => exact absurd rfl hemp
              | cons m1 mrest =>
                cases mrest with
                | nil => exact absurd rfl huni2.1
                | cons m2 mrest2 =>
                  injection h with h1x
                  injection h1x with h2 h3
                  constructor
                  · rw [← h2]
                    show HRes.one (.obj (setKey s kind (.arr (m1 :: m2 :: mrest2))))
                      = .one (.obj s)
                    rw [setKey_same s kind (.arr (m1 :: m2 :: mrest2)) hg]
                  · exact h3.symm
          | null =>
            simp only [hg] at h
            injection h with h1
            injection h1 with h2 h3
            exact fun _ => ⟨h2.symm, h3.symm⟩
          | bool b =>
            simp only [hg] at h
            injection h with h1
            injection h1 with h2 h3
            exact fun _ => ⟨h2.symm, h3.symm⟩
          | num m =>
            simp only [hg] at h
            injection h with h1
            injection h1 with h2 h3
            exact fun _ => ⟨h2.symm, h3.symm⟩
          | str t =>
            simp only [hg] at h
            injection h with h1
            injection h1 with h2 h3
            exact fun _ => ⟨h2.symm, h3.symm⟩
          | obj o2 =>
            simp only [hg] at h
            injection h with h1
            injection h1 with h2 h3
            exact fun _ => ⟨h2.symm, h3.symm⟩
      | null =>
        injection h with h1
        injection h1 with h2 h3
        exact fun _ => ⟨h2.symm, h3.symm⟩
      | bool b =>
        injection h with h1
        injection h1 with h2 h3
        exact fun _ => ⟨h2.symm, h3.symm⟩
      | num m =>
        injection h with h1
        injection h1 with h2 h3
        exact fun _ => ⟨h2.symm, h3.symm⟩
      | str t =>
        injection h with h1
        injection h1 with h2 h3
        exact fun _ => ⟨h2.symm, h3.symm⟩
      | arr l =>
        injection h with h1
        injection h1 with h2 h3
        exact fun _ => ⟨h2.symm, h3.symm⟩
    | one v =>
      simp only [handleCore] at h
      rw [bindE_eq_ok] at h
      obtain ⟨⟨v1, stack1, st1⟩, hres, h⟩ := h
      rw [hpref] at hres
      simp only [Bool.false_eq_true, if_false] at hres
      injection hres with hres1
      injection hres1 with hv1 hrest
      injection hrest with hstack1 hst1
      subst hv1
      subst hst1
      cases v with
      | null =>
        injection h with h1
        injection h1 with h2 h3
        exact fun _ => ⟨h2.symm, h3.symm⟩
      | bool b =>
        injection h with h1
        injection h1 with h2 h3
        exact fun _ => ⟨h2.symm, h3.symm⟩
      | num m =>
        injection h with h1
        injection h1 with h2 h3
        exact fun _ => ⟨h2.symm, h3.symm⟩
      | str t =>
        injection h with h1
        injection h1 with h2 h3
        exact fun _ => ⟨h2.symm, h3.symm⟩
      | arr l =>
        injection h with h1
        injection h1 with h2 h3
        exact fun _ => ⟨h2.symm, h3.symm⟩
      | obj s =>
        rw [bindE_eq_ok] at h
        obtain ⟨⟨v2, st2a⟩, hdisp, hfin⟩ := h
        intro hin
        obtain ⟨nn, henf⟩ := hin
        cases nn with
        | zero => exact absurd henf (by simp [enfOkF])
        | succ m =>
          rw [enfOkF_succ_obj, Bool.and_eq_true] at henf
          obtain ⟨hfix, hpre⟩ := henf
          obtain ⟨ht1, ht2, ht3, ht4, ht5, ht6, ht7, ht8⟩ := tfFixed_parts s hfix
          have hV : v2 = .obj s ∧ st2a = st := by
            by_cases hc1 : getKey s "type" = some (.str "object")
            · rw [if_pos hc1] at hdisp
              rw [bindE_eq_ok] at hdisp
              obtain ⟨⟨sA, stA⟩, hP1, hdisp⟩ := hdisp
              rw [bindE_eq_ok] at hdisp
              obtain ⟨⟨sB, stB⟩, hP2, hdisp⟩ := hdisp
              rw [bindE_eq_ok] at hdisp
              obtain ⟨⟨sC, stC⟩, hP3, hdisp⟩ := hdisp
              have hA : sA = s ∧ stA = st := by
                cases hprop : getKey s "properties" with
                | some pv =>
                  cases pv with
                  | obj ps =>
                    simp only [hprop] at hP1
                    by_cases hemp : ps.isEmpty = true
                    · rw [if_pos hemp] at hP1
                      injection hP1 with hh1
                      injection hh1 with hh2 hh3
                      exact ⟨hh2.symm, hh3.symm⟩
                    · rw [if_neg hemp] at hP1
                      rw [bindE_eq_ok] at hP1
                      obtain ⟨⟨rps, stX⟩, hq1, hP1⟩ := hP1
                      have hvals : ps.all (fun kv => enfOkF m kv.2) = true := by
                        unfold preEnfF at hpre
                        rw [if_pos hc1, hprop] at hpre
                        exact hpre
                      obtain ⟨hrps, hstX⟩ := ih _ _ _ _ _ hq1 ⟨m, hvals⟩
                      subst hrps
                      subst hstX
                      injection hP1 with hh1
                      injection hh1 with hh2 hh3
                      constructor
                      · rw [← hh2]
                        show setKey s "properties" (.obj ps) = s
                        exact setKey_same s "properties" (.obj ps) hprop
                      · exact hh3.symm
                  | null =>
                    simp only [hprop] at hP1
                    injection hP1 with hh1
                    injection hh1 with hh2 hh3
                    exact ⟨hh2.symm, hh3.symm⟩
                  | bool b =>
                    simp only [hprop] at hP1
                    injection hP1 with hh1
                    injection hh1 with hh2 hh3
                    exact ⟨hh2.symm, hh3.symm⟩
                  | num m2 =>
                    simp only [hprop] at hP1
                    injection hP1 with hh1
                    injection hh1 with hh2 hh3
                    exact ⟨hh2.symm, hh3.symm⟩
                  | str t2 =>
                    simp only [hprop] at hP1
                    injection hP1 with hh1
                    injection hh1 with hh2 hh3
                    exact ⟨hh2.symm, hh3.symm⟩
                  | arr l2 =>
                    simp only [hprop] at hP1
                    injection hP1 with hh1
                    injection hh1 with hh2 hh3
                    exact ⟨hh2.symm, hh3.symm⟩
                | none =>
                  simp only [hprop] at hP1
                  injection hP1 with hh1
                  injection hh1 with hh2 hh3
                  exact ⟨hh2.symm, hh3.symm⟩
              rw [hA.1, hA.2] at hP2
              have haddp : getKey s "additionalProperties" = some (.bool false) := by
                have hsh := ht8 hc1
                unfold objShapeOk at hsh
                rw [Bool.and_eq_true] at hsh
                have hb := hsh.1
                rw [beq_iff_eq] at hb
                exact hb
              have hBid : sB = s ∧ stB = st := by
                simp only [haddp] at hP2
                injection hP2 with hh1
                injection hh1 with hh2 hh3
                constructor
                · rw [← hh2]
                  exact setKey_same s "additionalProperties" (.bool false) haddp
                · exact hh3.symm
              rw [hBid.1, hBid.2] at hP3
              have hppn : getKey s "patternProperties" = none :=
                getKey_none_of s "patternProperties"
                  (filter_isEmpty_all strictIncompatibleKeys (hasKey s) ht6
                    "patternProperties" (by decide))
              simp only [hppn] at hP3
              injection hP3 with hh1
              injection hh1 with hh2 hh3
              rw [← hh2, ← hh3] at hdisp
              injection hdisp with hd1
              injection hd1 with hd2 hd3
              exact ⟨hd2.symm, hd3.symm⟩
            · rw [if_neg hc1] at hdisp
              by_cases hc2 : getKey s "type" = some (.str "array")
              · rw [if_pos hc2] at hdisp
                rw [bindE_eq_ok] at hdisp
                obtain ⟨⟨sA, stA⟩, hP1, hdisp⟩ := hdisp
                rw [bindE_eq_ok] at hdisp
                obtain ⟨⟨sB, stB⟩, hP2, hdisp⟩ := hdisp
                have hprepair : allArrOk (enfOkF m) (getKey s "prefixItems") = true
                    ∧ itemOk (enfOkF m) (getKey s "items") = true := by
                  unfold preEnfF at hpre
                  rw [if_neg hc1, if_pos hc2, Bool.and_eq_true] at hpre
                  exact hpre
                have hA : sA = s ∧ stA = st := by
                  cases hpi : getKey s "prefixItems" with
                  | some pv =>
                    cases pv with
                    | arr l2 =>
                      simp only [hpi] at hP1
                      by_cases hemp : l2.isEmpty = true
                      · rw [if_pos hemp] at hP1
                        injection hP1 with hh1
                        injection hh1 with hh2 hh3
                        exact ⟨hh2.symm, hh3.symm⟩
                      · rw [if_neg hemp] at hP1
                        rw [bindE_eq_ok] at hP1
                        obtain ⟨⟨rl, stX⟩, hq1, hP1⟩ := hP1
                        have hvals : l2.all (enfOkF m) = true := by
                          have hh := hprepair.1
                          rw [hpi] at hh
                          exact hh
                        obtain ⟨hrl, hstX⟩ := ih _ _ _ _ _ hq1 ⟨m, hvals⟩
                        subst hrl
                        subst hstX
                        injection hP1 with hh1
                        injection hh1 with hh2 hh3
                        constructor
                        · rw [← hh2]
                          show setKey s "prefixItems" (.arr l2) = s
                          exact setKey_same s "prefixItems" (.arr l2) hpi
                        · exact hh3.symm
                    | null =>
                      simp only [hpi] at hP1
                      injection hP1 with hh1
                      injection hh1 with hh2 hh3
                      exact ⟨hh2.symm, hh3.symm⟩
                    | bool b =>
                      simp only [hpi] at hP1
                      injection hP1 with hh1
                      injection hh1 with hh2 hh3
                      exact ⟨hh2.symm, hh3.symm⟩
                    | num m2 =>
                      simp only [hpi] at hP1
                      injection hP1 with hh1
                      injection hh1 with hh2 hh3
                      exact ⟨hh2.symm, hh3.symm⟩
                    | str t2 =>
                      simp only [hpi] at hP1
                      injection hP1 with hh1
                      injection hh1 with hh2 hh3
                      exact ⟨hh2.symm, hh3.symm⟩
                    | obj o2 =>
                      simp only [hpi] at hP1
                      injection hP1 with hh1
                      injection hh1 with hh2 hh3
                      exact ⟨hh2.symm, hh3.symm⟩
                  | none =>
                    simp only [hpi] at hP1
                    injection hP1 with hh1
                    injection hh1 with hh2 hh3
                    exact ⟨hh2.symm, hh3.symm⟩
                rw [hA.1, hA.2] at hP2
                have hB : sB = s ∧ stB = st := by
                  cases hit : getKey s "items" with
                  | some it =>
                    simp only [hit] at hP2
                    by_cases htr : pyTruthy it = true
                    · rw [if_pos htr] at hP2
                      rw [bindE_eq_ok] at hP2
                      obtain ⟨⟨rit, stX⟩, hq2, hP2⟩ := hP2
                      have hone : enfOkF m it = true := by
                        have hh := hprepair.2
                        rw [hit] at hh
                        have hh2 : (!pyTruthy it || enfOkF m it) = true := hh
                        rw [htr] at hh2
                        simp only [Bool.not_true, Bool.false_or] at hh2
                        exact hh2
                      obtain ⟨hrit, hstX⟩ := ih _ _ _ _ _ hq2 ⟨m, hone⟩
                      subst hrit
                      subst hstX
                      injection hP2 with hh1
                      injection hh1 with hh2 hh3
                      constructor
                      · rw [← hh2]
                        show setKey s "items" it = s
                        exact setKey_same s "items" it hit
                      · exact hh3.symm
                    · rw [if_neg htr] at hP2
                      injection hP2 with hh1
                      injection hh1 with hh2 hh3
                      exact ⟨hh2.symm, hh3.symm⟩
                  | none =>
                    simp only [hit] at hP2
                    injection hP2 with hh1
                    injection hh1 with hh2 hh3
                    exact ⟨hh2.symm, hh3.symm⟩
                rw [hB.1, hB.2] at hdisp
                injection hdisp with hd1
                injection hd1 with hd2 hd3
                exact ⟨hd2.symm, hd3.symm⟩
              · rw [if_neg hc2] at hdisp
                by_cases hc3 : getKey s "type" = none ∨ getKey s "type" = some .null
                · rw [if_pos hc3] at hdisp
                  rw [bindE_eq_ok] at hdisp
                  obtain ⟨⟨ru, stA⟩, hU1call, hdisp⟩ := hdisp
                  rw [bindE_eq_ok] at hdisp
                  obtain ⟨⟨ru2, stB⟩, hU2call, hdisp⟩ := hdisp
                  have huniok : uniEnfOk (enfOkF m) (getKey s "anyOf") = true
                      ∧ uniEnfOk (enfOkF m) (getKey s "oneOf") = true := by
                    unfold preEnfF at hpre
                    rw [if_neg hc1, if_neg hc2, if_pos hc3, Bool.and_eq_true] at hpre
                    exact hpre
                  obtain ⟨hru, hstA⟩ := ih _ _ _ _ _ hU1call (fun s2 hs2 => by
                    rw [← JVal.obj.inj hs2]
                    exact ⟨m, huniok.1⟩)
                  rw [hru, hstA] at hU2call
                  obtain ⟨hru2, hstB⟩ := ih _ _ _ _ _ hU2call (fun s2 hs2 => by
                    have hs3 : JVal.obj s = .obj s2 := hs2
                    rw [← JVal.obj.inj hs3]
                    refine ⟨0, ?_⟩
                    rw [getKey_none_of s "oneOf" ht7]
                    rfl)
                  rw [hru2, hstB] at hdisp
                  injection hdisp with hd1
                  injection hd1 with hd2 hd3
                  exact ⟨hd2.symm, hd3.symm⟩
                · rw [if_neg hc3] at hdisp
                  injection hdisp with hd1
                  injection hd1 with hd2 hd3
                  exact ⟨hd2.symm, hd3.symm⟩
          obtain ⟨hv2, hst2a⟩ := hV
          rw [hv2, hst2a] at hfin
          rw [htf] at hfin
          have h12 : (applyTf (openaiTransform (some true) rootRef) st (.obj s)).1
              = .obj s := by
            show JVal.obj (openaiTransform (some true) rootRef st s).1 = .obj s
            rw [openaiTransform_true_eq, tfEnforceFn_fixed rootRef s hfix]
          have h22 : (applyTf (openaiTransform (some true) rootRef) st (.obj s)).2
              = st := by
            show (openaiTransform (some true) rootRef st s).2 = st
            rw [openaiTransform_true_eq]
          rw [h12, h22] at hfin
          injection hfin with h1
          injection h1 with h2 h3
          exact ⟨h2.symm, h3.symm⟩

/-! Claim C4: idempotence of the Enforce walk. -/

/-- C4 counterexample: the claim quantifies over every input schema, but a
second Enforce run can change content.  The root
`{"anyOf": [{"$defs": {"X": {"type": "string", "title": "t"}}, "type": "integer"}]}`
collapses its singleton `anyOf` into the member, so the first output carries
a `$defs` mapping that the first run never visited (it was not at the root).
The second run treats that mapping as the definitions table and handles it,
popping the `title` of `X`: the second output's `X` entry has lost its
`title`, a content change, not a key reordering. -/
theorem C4_counterexample :
    enforceWalk 100 [("anyOf", .arr [.obj [("$defs",
        .obj [("X", .obj [("type", .str "string"), ("title", .str "t")])]),
        ("type", .str "integer")]])]
      = .ok (.obj [("$defs", .obj [("X", .obj [("type", .str "string"),
          ("title", .str "t")])]), ("type", .str "integer")], St.init)
    ∧ enforceWalk 100 [("$defs", .obj [("X", .obj [("type", .str "string"),
        ("title", .str "t")])]), ("type", .str "integer")]
      = .ok (.obj [("type", .str "integer"),
          ("$defs", .obj [("X", .obj [("type", .str "string")])])], St.init)
    ∧ getKey [("X", .obj [("type", .str "string"), ("title", .str "t")])] "X"
        = some (.obj [("type", .str "string"), ("title", .str "t")])
    ∧ hasKey [("type", .str "string"), ("title", .str "t")] "title" = true
    ∧ getKey [("X", .obj [("type", .str "string")])] "X"
        = some (.obj [("type", .str "string")])
    ∧ hasKey [("type", .str "string")] "title" = false :=
  ⟨rfl, rfl, rfl, rfl, rfl, rfl⟩

/-- C4 (amended): the Enforce walk is idempotent on plain inputs.  For any
root whose schema part (the root without its `$defs` table) contains no
`$ref` or `$defs` key anywhere and whose `$defs` values are likewise plain,
if the Enforce walk succeeds with a mapping output, then any successful
second Enforce walk on that output returns it exactly — same content and
same key order.  (Roots with `$ref` siblings or nested `$defs` tables are
exactly what the counterexample exhibits and are excluded.) -/
theorem C4_amended_enforce_idempotent :
    ∀ (root : JObj) (fuel : Nat) (o1 : JObj) (st1 : St),
      plainTree (.obj (popKey root "$defs")) = true →
      plainVals (defsOf root) = true →
      enforceWalk fuel root = .ok (.obj o1, st1) →
      ∀ (fuel2 : Nat) (out2 : JVal) (st2 : St),
        enforceWalk fuel2 o1 = .ok (out2, st2) →
        out2 = .obj o1 := by
  intro root fuel o1 st1 hps hpd h1
  have hrefroot : getPy root "$ref" = none := by
    apply getPy_none_of
    apply getKey_none_of
    have hh := ((plainTree_obj_iff _).mp hps).1
    rw [hasKey_popKey_ne root "$ref" "$defs" (by decide)] at hh
    exact hh
  simp only [enforceWalk, openaiWalk] at h1
  rw [hrefroot] at h1
  rw [bindE_eq_ok] at h1
  obtain ⟨⟨handled, stH⟩, hhandle, h1⟩ := h1
  simp only [handle] at hhandle
  rw [mapE_eq_ok] at hhandle
  obtain ⟨⟨r1, st1x⟩, hcore, hmapeq⟩ := hhandle
  have hr1 : r1.getOne = handled := by
    injection hmapeq with hm1 _
  obtain ⟨⟨nH, hOkH⟩, hplH⟩ :=
    handleCore_enforce_enfOk ⟨defsOf root, false, false, openaiTransform (some true) none⟩
      none rfl rfl rfl _ _ _ _ _ _ hcore hps
  rw [hr1] at hOkH hplH
  rw [bindE_eq_ok] at h1
  obtain ⟨⟨result, stR, hdefs⟩, hres, hfin⟩ := h1
  rw [if_pos rfl] at hfin
  have hout : result = .obj o1 := congrArg Prod.fst (Except.ok.inj hfin)
  by_cases hde : (defsOf root).isEmpty = true
  · -- no definitions: the first output is the handled root itself
    rw [if_pos hde] at hres
    have hresh : handled = result := congrArg Prod.fst (Except.ok.inj hres)
    have ho1 : handled = .obj o1 := hresh.trans hout
    rw [ho1] at hOkH hplH
    intro fuel2 out2 st2 h2
    have hrefo1 : getPy o1 "$ref" = none := by
      apply getPy_none_of
      apply getKey_none_of
      exact ((plainTree_obj_iff o1).mp hplH).1
    have hdefso1 : getKey o1 "$defs" = none :=
      getKey_none_of o1 "$defs" ((plainTree_obj_iff o1).mp hplH).2.1
    have hdefsOfo1 : defsOf o1 = [] := by
      simp only [defsOf, hdefso1]
    have hpop : popKey o1 "$defs" = o1 := popKey_absent o1 "$defs" hdefso1
    simp only [enforceWalk, openaiWalk] at h2
    rw [hrefo1, hdefsOfo1, hpop] at h2
    rw [bindE_eq_ok] at h2
    obtain ⟨⟨handled2, stH2⟩, hhandle2, h2⟩ := h2
    simp only [handle] at hhandle2
    rw [mapE_eq_ok] at hhandle2
    obtain ⟨⟨r2, st2x⟩, hcore2, hmapeq2⟩ := hhandle2
    obtain ⟨hr2, hst2x⟩ :=
      handleCore_enforce_fixed ⟨[], false, false, openaiTransform (some true) none⟩
        none rfl rfl rfl _ _ _ _ _ _ hcore2 ⟨nH, hOkH⟩
    have e1 : r2.getOne = handled2 := by
      injection hmapeq2 with hm2 _
    have hh2v : handled2 = .obj o1 := by
      rw [← e1]
      exact congrArg HRes.getOne hr2
    rw [bindE_eq_ok] at h2
    obtain ⟨⟨result2, stR2, hdefs2⟩, hres2, hfin2⟩ := h2
    rw [if_pos (show ([] : JObj).isEmpty = true from rfl)] at hres2
    have e2 : handled2 = result2 := congrArg Prod.fst (Except.ok.inj hres2)
    rw [if_pos rfl] at hfin2
    have e3 : result2 = out2 := congrArg Prod.fst (Except.ok.inj hfin2)
    rw [← e3, ← e2]
    exact hh2v
  · -- definitions present: the first output re-attaches the handled table
    rw [if_neg hde] at hres
    rw [bindE_eq_ok] at hres
    obtain ⟨⟨hd, stD⟩, hvals, hres⟩ := hres
    simp only [handleVals] at hvals
    rw [mapE_eq_ok] at hvals
    obtain ⟨⟨rv, stvx⟩, hvcore, hvmapeq⟩ := hvals
    have hrv : rv.getVals = hd := by
      injection hvmapeq with hm1 _
    obtain ⟨⟨nD, hOkD⟩, hplD, hkeysD⟩ :=
      handleCore_enforce_enfOk ⟨defsOf root, false, false, openaiTransform (some true) none⟩
        none rfl rfl rfl _ _ _ _ _ _ hvcore hpd
    rw [hrv] at hOkD hplD hkeysD
    cases handled with
    | obj hro =>
      have hresult : result = JVal.obj (setKey hro "$defs" (.obj hd)) :=
        (congrArg Prod.fst (Except.ok.inj hres)).symm
      have ho1eq : o1 = setKey hro "$defs" (.obj hd) :=
        JVal.obj.inj (hout.symm.trans hresult)
      have hro_ref : hasKey hro "$ref" = false := ((plainTree_obj_iff hro).mp hplH).1
      have hro_defs : hasKey hro "$defs" = false := ((plainTree_obj_iff hro).mp hplH).2.1
      have hrefo1 : getPy o1 "$ref" = none := by
        apply getPy_none_of
        rw [ho1eq, getKey_setKey_ne _ _ _ _ (by decide)]
        exact getKey_none_of hro "$ref" hro_ref
      have hdefso1 : getKey o1 "$defs" = some (.obj hd) := by
        rw [ho1eq]
        exact getKey_setKey_self hro "$defs" (.obj hd)
      have hdefsOfo1 : defsOf o1 = hd := by
        simp only [defsOf, hdefso1]
      have hpop : popKey o1 "$defs" = hro := by
        rw [ho1eq, popKey_setKey_self]
        exact popKey_absent hro "$defs" (getKey_none_of hro "$defs" hro_defs)
      have hdne : hd.isEmpty = false := by
        cases hdc : hd with
        | nil =>
          rw [hdc] at hkeysD
          have hnil : keysOf (defsOf root) = [] := hkeysD.symm
          have hdefs0 : defsOf root = [] := by
            cases hdd : defsOf root with
            | nil => rfl
            | cons a b =>
              rw [hdd] at hnil
              exact absurd hnil (by simp [keysOf])
          rw [hdefs0] at hde
          exact absurd rfl hde
        | cons a b => rfl
      intro fuel2 out2 st2 h2
      simp only [enforceWalk, openaiWalk] at h2
      rw [hrefo1, hdefsOfo1, hpop] at h2
      rw [bindE_eq_ok] at h2
      obtain ⟨⟨handled2, stH2⟩, hhandle2, h2⟩ := h2
      simp only [handle] at hhandle2
      rw [mapE_eq_ok] at hhandle2
      obtain ⟨⟨r2, st2x⟩, hcore2, hmapeq2⟩ := hhandle2
      obtain ⟨hr2, hst2x⟩ :=
        handleCore_enforce_fixed ⟨hd, false, false, openaiTransform (some true) none⟩
          none rfl rfl rfl _ _ _ _ _ _ hcore2 ⟨nH, hOkH⟩
      have e1 : r2.getOne = handled2 := by
        injection hmapeq2 with hm2 _
      have hh2v : handled2 = .obj hro := by
        rw [← e1]
        exact congrArg HRes.getOne hr2
      rw [bindE_eq_ok] at h2
      obtain ⟨⟨result2, stR2, hdefs2⟩, hres2, hfin2⟩ := h2
      rw [hdne] at hres2
      simp only [Bool.false_eq_true, if_false] at hres2
      rw [bindE_eq_ok] at hres2
      obtain ⟨⟨hd2, stD2⟩, hvals2, hres2⟩ := hres2
      simp only [handleVals] at hvals2
      rw [mapE_eq_ok] at hvals2
      obtain ⟨⟨rv2, stv2x⟩, hvcore2, hvmapeq2⟩ := hvals2
      obtain ⟨hrv2, hstv2⟩ :=
        handleCore_enforce_fixed ⟨hd, false, false, openaiTransform (some true) none⟩
          none rfl rfl rfl _ _ _ _ _ _ hvcore2 ⟨nD, hOkD⟩
      have e2 : rv2.getVals = hd2 := by
        injection hvmapeq2 with hm3 _
      have hh2d : hd2 = hd := by
        rw [← e2]
        exact congrArg HRes.getVals hrv2
      rw [hh2v, hh2d] at hres2
      have hr2res : JVal.obj (setKey hro "$defs" (.obj hd)) = result2 :=
        congrArg Prod.fst (Except.ok.inj hres2)
      rw [if_pos rfl] at hfin2
      have e3 : result2 = out2 := congrArg Prod.fst (Except.ok.inj hfin2)
      rw [← e3, ← hr2res, ho1eq]
    | null =>
      have hresult : result = JVal.null :=
        (congrArg Prod.fst (Except.ok.inj hres)).symm
      exact JVal.noConfusion (hout.symm.trans hresult)
    | bool b =>
      have hresult : result = JVal.bool b :=
        (congrArg Prod.fst (Except.ok.inj hres)).symm
      exact JVal.noConfusion (hout.symm.trans hresult)
    | num m =>
      have hresult : result = JVal.num m :=
        (congrArg Prod.fst (Except.ok.inj hres)).symm
      exact JVal.noConfusion (hout.symm.trans hresult)
    | str t =>
      have hresult : result = JVal.str t :=
        (congrArg Prod.fst (Except.ok.inj hres)).symm
      exact JVal.noConfusion (hout.symm.trans hresult)
    | arr l =>
      have hresult : result = JVal.arr l :=
        (congrArg Prod.fst (Except.ok.inj hres)).symm
      exact JVal.noConfusion (hout.symm.trans hresult)

/-- witness for C4 (amended): for the plain root `{"type": "object"}` the
first Enforce walk returns the enforced node and a second walk on it
returns it unchanged; the amended theorem applies at these concrete runs. -/
theorem C4_amended_enforce_idempotent_witness :
    (plainTree (.obj (popKey [("type", JVal.str "object")] "$defs")) = true
      ∧ plainVals (defsOf [("type", JVal.str "object")]) = true)
    ∧ JVal.obj [("type", .str "object"), ("additionalProperties", .bool false),
        ("properties", .obj []), ("required", .arr [])]
      = .obj [("type", .str "object"), ("additionalProperties", .bool false),
        ("properties", .obj []), ("required", .arr [])] :=
  ⟨⟨by decide, by decide⟩,
   C4_amended_enforce_idempotent [("type", JVal.str "object")] 100
     [("type", .str "object"), ("additionalProperties", .bool false),
       ("properties", .obj []), ("required", .arr [])] St.init
     (by decide) (by decide) rfl 100
     (.obj [("type", .str "object"), ("additionalProperties", .bool false),
       ("properties", .obj []), ("required", .arr [])]) St.init rfl⟩

/-! Claim C2: termination of the inline-defs walk. -/

/-- handling the bare reference node of the diverging example resolves `A`
once and returns the (object-typed, child-free) definition body unchanged,
at any fuel of at least two and any state. -/
theorem handleCore_div_refNode (k : Nat) (st : St) :
    handleCore divCx (k+2) [] st (.one (.obj [("$ref", .str "#/$defs/A")]))
      = .ok (.one (.obj divDefA), st) := rfl

/-- one `seq` layer of the diverging loop: the member is the original
`anyOf` node, so fuel exhaustion propagates. -/
theorem handleCore_div_seq (k : Nat) (st : St)
    (h : handleCore divCx k [] st (.one (.obj divSchema)) = .error .outOfFuel) :
    handleCore divCx (k+1) [] st (.seq [.obj divSchema]) = .error .outOfFuel := by
  simp only [handleCore]
  rw [h]
  rfl

/-- the `oneOf` pass of the diverging loop: the inlined body's `oneOf`
member list is exactly the original `anyOf` node, so fuel exhaustion
propagates. -/
theorem handleCore_div_oneOf (k : Nat) (st : St)
    (h : handleCore divCx (k+1) [] st (.seq [.obj divSchema]) = .error .outOfFuel) :
    handleCore divCx (k+2) [] st (.uni (.obj divDefA) "oneOf") = .error .outOfFuel := by
  have e : handleCore divCx (k+2) [] st (.uni (.obj divDefA) "oneOf")
      = (handleCore divCx (k+1) [] st (.seq [.obj divSchema]) >>= fun p =>
          uniFinish divCx divDefA "oneOf" p.1.getSeq p.2) := rfl
  rw [e, h]
  rfl

/-- the full loop step: handling the `anyOf` node at fuel `n+5` reaches the
`oneOf` pass of the inlined body at fuel `n+4` (the `anyOf` pass itself
computes away: the singleton member resolves to the body and collapses). -/
theorem handleCore_div_step (n : Nat) (st : St) :
    handleCore divCx (n+5) [] st (.one (.obj divSchema))
      = ((handleCore divCx (n+4) [] st (.uni (.obj divDefA) "oneOf") >>= fun p =>
            Except.ok (p.1.getOne, p.2)) >>= fun q =>
          .ok (.one (applyTf divCx.tf q.2 q.1).1,
               (applyTf divCx.tf q.2 q.1).2)) := rfl

/-- the diverging example exhausts any fuel: handling the `anyOf` node
re-enters itself (same task, same stack, same state) three fuel levels
down. -/
theorem handleCore_div_loop : ∀ (fuel : Nat) (st : St),
    handleCore divCx fuel [] st (.one (.obj divSchema)) = .error .outOfFuel := by
  intro fuel
  induction fuel using Nat.strong_induction_on with
  | _ fuel ih =>
    intro st
    rcases fuel with _ | _ | _ | _ | _ | n
    · rfl
    · rfl
    · rfl
    · rfl
    · rfl
    · have h := ih (n+2) (by omega) st
      have h3 := handleCore_div_seq (n+2) st h
      have h4 := handleCore_div_oneOf (n+2) st h3
      rw [handleCore_div_step n st, h4]
      rfl

/-- C2: the claim asserts the inline-defs walk terminates on every input.
It does not: on `divRoot` the walk runs out of any fuel — the reference
stack's cycle detection is defeated because the stack entries pushed while
handling the `anyOf` member are popped before the `oneOf` pass re-handles
the member the collapse exposed, so `_handle` recurses with identical
arguments and state. -/
theorem C2_divergence : ∀ fuel : Nat,
    inlineDefsWalk fuel divRoot = .error .outOfFuel := by
  intro fuel
  have hh : handle ⟨defsOf divRoot, true, false, idTf⟩ fuel [] St.init
      (.obj (popKey divRoot "$defs")) = .error .outOfFuel := by
    show handle divCx fuel [] St.init (.obj divSchema) = .error .outOfFuel
    unfold handle
    rw [handleCore_div_loop fuel St.init]
    rfl
  simp only [inlineDefsWalk, walkFn]
  rw [hh]
  rfl
